import Mathlib

/-!
# Straight-line code optimizer (`Code_Optimization/optimizer.cpp`)

A shallow embedding of the `CodeOptimizer` class: the `Statement` record, the
literal test, the line parser, the four passes (constant folding, strength
reduction, copy propagation, dead-code elimination), `optimize` and the
rendering of the optimized code, followed by theorems about them.

Modelling conventions.
* `std::string` is `String`; `s.empty()` is `s = ""`.
* `std::map<string, T>` is a lookup function `String → Option T`; `m[k] = v`
  is `StrMap.insert`, `m.find(k) != m.end()` is `(m k).isSome`, and reading
  `m[k]` is `(m k).getD default`.
* `int` is `Int`; the results of `+`, `-`, `*`, `/` are reduced to the 32-bit
  two's-complement range by `wrapInt`; division by zero (undefined behaviour
  in the source) is the error `OptError.divisionByZero`.
* `std::stoi` may throw: `toInt` returns `Except OptError Int`, and so do
  `constantFolding` and `optimize`, which call it.
* `cout` traffic is dropped except for the statement lines written by
  `printOptimizedCode`.
-/

namespace Optimizer

/-! ## Data model -/

/-- Record `Statement` of the source (lines 12-22); `Statement()` is `{}`.
The member `variable` of the source is the field `target` here, since
`variable` is a reserved word. -/
structure Statement where
  target : String := ""
  operand1 : String := ""
  op : String := ""
  operand2 : String := ""
  isConstant : Bool := false
  constantValue : Int := 0
  isDead : Bool := false
deriving DecidableEq, Repr, Inhabited

/-- Finite maps keyed by strings, as lookup functions. -/
abbrev StrMap (α : Type) : Type := String → Option α

/-- The empty map. -/
def StrMap.empty {α : Type} : StrMap α := fun _ => none

/-- Assignment `m[k] = v`. -/
def StrMap.insert {α : Type} (m : StrMap α) (k : String) (v : α) : StrMap α :=
  fun j => if j = k then some v else m j

/-- Exceptions and traps that can end a pass. -/
inductive OptError where
  | invalidArgument
  | outOfRange
  | divisionByZero
deriving DecidableEq, Repr

/-- Private members of class `CodeOptimizer` (lines 26-28). -/
structure CodeOptimizer where
  statements : List Statement := []
  constantValues : StrMap Int := StrMap.empty
  variableUsed : StrMap Bool := StrMap.empty

/-! ## Helpers: `isNumber`, `toInt` -/

/-- C `isdigit`. -/
def isdigit (c : Char) : Bool := decide (48 ≤ c.toNat) && decide (c.toNat ≤ 57)

/-- C `isspace` in the default locale. -/
def isspace (c : Char) : Bool :=
  c == ' ' || c == '\t' || c == '\n' || c == '\x0b' || c == '\x0c' || c == '\r'

/-- Loop of `isNumber` from index `i` on: index 0 may hold a minus sign,
every other character must be a digit. -/
def isNumberFrom : Nat → List Char → Bool
  | _, [] => true
  | i, c :: cs =>
    if i = 0 ∧ c = '-' then isNumberFrom (i + 1) cs
    else if !isdigit c then false
    else isNumberFrom (i + 1) cs

/-- Method `isNumber` (lines 31-38). -/
def isNumber (s : String) : Bool :=
  if s = "" then false else isNumberFrom 0 s.data

/-- Value of a digit character. -/
def digitVal (c : Char) : Nat := c.toNat - 48

/-- Accumulation of decimal digits, most significant first. -/
def decimalValue (ds : List Char) : Nat :=
  ds.foldl (fun acc c => 10 * acc + digitVal c) 0

/-- Least `int`. -/
def INT_MIN : Int := -2147483648

/-- Greatest `int`. -/
def INT_MAX : Int := 2147483647

/-- Optional sign read by `std::stoi`: whether it is a minus sign, and the
characters after it. -/
def readSign : List Char → Bool × List Char
  | '-' :: r => (true, r)
  | '+' :: r => (false, r)
  | r => (false, r)

/-- Library function `std::stoi` in base 10: leading white space is skipped, an
optional sign is read, then the longest run of digits; no digit raises
`invalid_argument`, a value outside `int` raises `out_of_range`. -/
def stoi (s : String) : Except OptError Int :=
  let signed := readSign (s.data.dropWhile isspace)
  let ds := signed.2.takeWhile isdigit
  if ds = [] then Except.error OptError.invalidArgument
  else
    let v : Int := if signed.1 then -(decimalValue ds : Int) else (decimalValue ds : Int)
    if v < INT_MIN ∨ INT_MAX < v then Except.error OptError.outOfRange
    else Except.ok v

/-- Method `toInt` (lines 41-43). -/
def toInt (s : String) : Except OptError Int := stoi s

/-- Reduction of an integer to the 32-bit two's-complement range. -/
def wrapInt (z : Int) : Int := (z + 2147483648) % 4294967296 - 2147483648

/-! ## Parser -/

/-- State of a `stringstream` being read: the unread characters and the
`eofbit` and `failbit` flags. -/
structure IStream where
  buf : List Char
  eof : Bool := false
  fail : Bool := false
deriving DecidableEq, Repr

/-- Formatted extraction `ss >> str`: when the stream is not good, or only
white space is left, the stream fails and `str` keeps its old value;
otherwise `str` receives the next white-space-delimited token. -/
def extract (ss : IStream) (old : String) : IStream × String :=
  if ss.eof || ss.fail then ({ ss with fail := true }, old)
  else
    let b := ss.buf.dropWhile isspace
    if b = [] then ({ buf := [], eof := true, fail := true }, old)
    else
      let tok := b.takeWhile (fun c => !isspace c)
      let rest := b.dropWhile (fun c => !isspace c)
      ({ buf := rest, eof := decide (rest = []), fail := false }, String.mk tok)

/-- Method `parseStatement` (lines 46-70). -/
def parseStatement (line : String) : Statement :=
  let ss0 : IStream := { buf := line.data }
  let r1 := extract ss0 ""
  let r2 := extract r1.1 ""
  let r3 := extract r2.1 ""
  let r4 := extract r3.1 ""
  let r5 := extract r4.1 ""
  if !r5.1.fail then
    { target := r1.2, operand1 := r3.2, op := r4.2, operand2 := r5.2 }
  else
    { target := r1.2, operand1 := r3.2, op := "", operand2 := "" }

/-- Method `addStatement` (lines 250-253). -/
def addStatement (o : CodeOptimizer) (line : String) : CodeOptimizer :=
  { o with statements := o.statements ++ [parseStatement line] }

/-- A fresh optimizer fed the given lines, as in `main` (lines 374-377). -/
def addStatements (lines : List String) : CodeOptimizer :=
  lines.foldl addStatement {}

/-! ## Pass 1: constant folding -/

/-- Computation of `result` in `constantFolding` (lines 94-98): 32-bit integer
arithmetic, division truncating toward zero and trapping on a zero divisor;
an operator outside `+ - * /` leaves `result` at its initial 0. -/
def foldResult (op : String) (val1 val2 : Int) : Except OptError Int :=
  if op = "+" then Except.ok (wrapInt (val1 + val2))
  else if op = "-" then Except.ok (wrapInt (val1 - val2))
  else if op = "*" then Except.ok (wrapInt (val1 * val2))
  else if op = "/" then
    (if val2 = 0 then Except.error OptError.divisionByZero
     else Except.ok (wrapInt (Int.tdiv val1 val2)))
  else Except.ok 0

/-- Body of the loop of `constantFolding` (lines 77-106) for one statement. -/
def foldStatement (stmt : Statement) (cv : StrMap Int) :
    Except OptError (Statement × StrMap Int) :=
  if stmt.op = "" then Except.ok (stmt, cv)
  else if isNumber stmt.operand1 && isNumber stmt.operand2 then
    match toInt stmt.operand1 with
    | Except.error e => Except.error e
    | Except.ok val1 =>
      match toInt stmt.operand2 with
      | Except.error e => Except.error e
      | Except.ok val2 =>
        match foldResult stmt.op val1 val2 with
        | Except.error e => Except.error e
        | Except.ok r =>
          Except.ok ({ stmt with isConstant := true, constantValue := r },
                     cv.insert stmt.target r)
  else Except.ok (stmt, cv)

/-- Loop of `constantFolding` over the statements, threading `constantValues`. -/
def constantFoldingLoop :
    List Statement → StrMap Int → Except OptError (List Statement × StrMap Int)
  | [], cv => Except.ok ([], cv)
  | stmt :: rest, cv =>
    match foldStatement stmt cv with
    | Except.error e => Except.error e
    | Except.ok (stmt1, cv1) =>
      match constantFoldingLoop rest cv1 with
      | Except.error e => Except.error e
      | Except.ok (rest1, cv2) => Except.ok (stmt1 :: rest1, cv2)

/-- Method `constantFolding` (lines 73-108). -/
def constantFolding (o : CodeOptimizer) : Except OptError CodeOptimizer :=
  match constantFoldingLoop o.statements o.constantValues with
  | Except.error e => Except.error e
  | Except.ok (stmts, cv) => Except.ok { o with statements := stmts, constantValues := cv }

/-! ## Pass 2: strength reduction -/

/-- Body of the loop of `strengthReduction` (lines 115-175) for one statement. -/
def reduceStatement (stmt : Statement) (cv : StrMap Int) : Statement × StrMap Int :=
  if stmt.op = "" ∨ stmt.isConstant = true then (stmt, cv)
  else if stmt.op = "*" then
    if stmt.operand2 = "1" then ({ stmt with op := "", operand2 := "" }, cv)
    else if stmt.operand1 = "1" then
      ({ stmt with operand1 := stmt.operand2, op := "", operand2 := "" }, cv)
    else if stmt.operand2 = "0" ∨ stmt.operand1 = "0" then
      ({ stmt with operand1 := "0", op := "", operand2 := "", isConstant := true,
                   constantValue := 0 },
       cv.insert stmt.target 0)
    else (stmt, cv)
  else if stmt.op = "+" then
    if stmt.operand2 = "0" then ({ stmt with op := "", operand2 := "" }, cv)
    else if stmt.operand1 = "0" then
      ({ stmt with operand1 := stmt.operand2, op := "", operand2 := "" }, cv)
    else (stmt, cv)
  else if stmt.op = "-" then
    if stmt.operand2 = "0" then ({ stmt with op := "", operand2 := "" }, cv)
    else (stmt, cv)
  else if stmt.op = "/" then
    if stmt.operand2 = "1" then ({ stmt with op := "", operand2 := "" }, cv)
    else (stmt, cv)
  else (stmt, cv)

/-- Condition under which `reduceStatement` takes the multiplication-by-zero
branch (lines 132-141), the only one that writes `constantValues`. -/
def zeroRewrite (stmt : Statement) : Prop :=
  stmt.op = "*" ∧ stmt.isConstant = false ∧ stmt.operand2 ≠ "1" ∧ stmt.operand1 ≠ "1" ∧
    (stmt.operand2 = "0" ∨ stmt.operand1 = "0")

/-- Decidability of `zeroRewrite`. -/
instance zeroRewrite.decide (stmt : Statement) : Decidable (zeroRewrite stmt) := by
  unfold zeroRewrite; infer_instance

/-- Loop of `strengthReduction` over the statements, threading `constantValues`. -/
def strengthReductionLoop : List Statement → StrMap Int → List Statement × StrMap Int
  | [], cv => ([], cv)
  | stmt :: rest, cv =>
    let r := reduceStatement stmt cv
    let rs := strengthReductionLoop rest r.2
    (r.1 :: rs.1, rs.2)

/-- Method `strengthReduction` (lines 111-177). -/
def strengthReduction (o : CodeOptimizer) : CodeOptimizer :=
  let r := strengthReductionLoop o.statements o.constantValues
  { o with statements := r.1, constantValues := r.2 }

/-! ## Pass 3: copy propagation -/

/-- Test of the first loop of `copyPropagation` (line 186). -/
def isCopy (stmt : Statement) : Bool :=
  decide (stmt.op = "") && !stmt.isConstant && !isNumber stmt.operand1

/-- First loop of `copyPropagation` (lines 185-190): the alias map. -/
def buildAliases (stmts : List Statement) : StrMap String :=
  stmts.foldl (fun m stmt => if isCopy stmt then m.insert stmt.target stmt.operand1 else m)
    StrMap.empty

/-- Body of the second loop of `copyPropagation` (lines 195-207). -/
def substitute (aliases : StrMap String) (stmt : Statement) : Statement :=
  let stmt1 : Statement :=
    if stmt.op ≠ "" ∧ (aliases stmt.operand1).isSome then
      { stmt with operand1 := (aliases stmt.operand1).getD "" }
    else stmt
  if stmt1.op = "" ∧ stmt1.isConstant = false ∧ (aliases stmt1.operand1).isSome then
    { stmt1 with operand1 := (aliases stmt1.operand1).getD "" }
  else stmt1

/-- Method `copyPropagation` (lines 180-209). -/
def copyPropagation (o : CodeOptimizer) : CodeOptimizer :=
  let aliases := buildAliases o.statements
  { o with statements := o.statements.map (substitute aliases) }

/-! ## Pass 4: dead-code elimination -/

/-- Body of the second loop of `deadCodeElimination` (lines 222-231). -/
def markUses (used : StrMap Bool) (stmt : Statement) : StrMap Bool :=
  if stmt.op ≠ "" then
    let used1 := if !isNumber stmt.operand1 then used.insert stmt.operand1 true else used
    if !isNumber stmt.operand2 then used1.insert stmt.operand2 true else used1
  else if stmt.operand1 ≠ "" ∧ isNumber stmt.operand1 = false then
    used.insert stmt.operand1 true
  else used

/-- Condition under which `markUses` executes `variableUsed[k] = true` for
the statement: `k` is a non-literal operand of a statement with an operator,
or the non-empty non-literal `operand1` of a simple assignment. -/
def marksKey (stmt : Statement) (k : String) : Prop :=
  (stmt.op ≠ "" ∧ ((isNumber stmt.operand1 = false ∧ k = stmt.operand1) ∨
      (isNumber stmt.operand2 = false ∧ k = stmt.operand2))) ∨
    (stmt.op = "" ∧ stmt.operand1 ≠ "" ∧ isNumber stmt.operand1 = false ∧ k = stmt.operand1)

/-- Decidability of `marksKey`. -/
instance marksKey.decide (stmt : Statement) (k : String) : Decidable (marksKey stmt k) := by
  unfold marksKey; infer_instance

/-- Map `variableUsed` as it stands before the last loop of
`deadCodeElimination` (lines 216-238). -/
def usageMap (stmts : List Statement) (prior : StrMap Bool) : StrMap Bool :=
  let used0 := stmts.foldl (fun m stmt => m.insert stmt.target false) prior
  let used1 := stmts.foldl markUses used0
  match stmts.getLast? with
  | some last => used1.insert last.target true
  | none => used1

/-- Body of the last loop of `deadCodeElimination` (lines 242-245). -/
def flagDead (used : StrMap Bool) (stmt : Statement) : Statement :=
  if !((used stmt.target).getD false) then { stmt with isDead := true } else stmt

/-- Method `deadCodeElimination` (lines 212-247). -/
def deadCodeElimination (o : CodeOptimizer) : CodeOptimizer :=
  let used := usageMap o.statements o.variableUsed
  { o with statements := o.statements.map (flagDead used), variableUsed := used }

/-! ## Driver and rendering -/

/-- Method `optimize` (lines 255-269). -/
def optimize (o : CodeOptimizer) : Except OptError CodeOptimizer :=
  match constantFolding o with
  | Except.error e => Except.error e
  | Except.ok o1 => Except.ok (deadCodeElimination (copyPropagation (strengthReduction o1)))

/-- Line written by `printOptimizedCode` for a statement that is not dead
(lines 299-313), without the newline. -/
def renderStatement (stmt : Statement) : String :=
  stmt.target ++ " = " ++
    (if stmt.isConstant then toString stmt.constantValue
     else if stmt.op = "" then stmt.operand1
     else stmt.operand1 ++ " " ++ stmt.op ++ " " ++ stmt.operand2)

/-- Statement lines written by `printOptimizedCode` (lines 294-315). -/
def optimizedCode (o : CodeOptimizer) : List String :=
  (o.statements.filter (fun stmt => !stmt.isDead)).map renderStatement

/-- Input of `main` (lines 368-372). -/
def inputCode : List String := ["x = 2 * 8", "y = x * 1", "z = y + 0"]

/-! ## Specification-side notions -/

/-- Grammar of numeric literals as documented: an optional leading minus sign
followed by one or more decimal digits; the result is the integer denoted. -/
def Spec.literalValue (s : String) : Option Int :=
  match s.data with
  | '-' :: ds =>
    if ds ≠ [] ∧ ds.all isdigit = true then
      some (-((Nat.ofDigits 10 (ds.reverse.map digitVal) : Nat) : Int))
    else none
  | ds =>
    if ds ≠ [] ∧ ds.all isdigit = true then
      some ((Nat.ofDigits 10 (ds.reverse.map digitVal) : Nat) : Int)
    else none

/-- Integer arithmetic of the four operators, division truncating toward zero. -/
def Spec.applyOp (op : String) (a b : Int) : Int :=
  if op = "+" then a + b
  else if op = "-" then a - b
  else if op = "*" then a * b
  else if op = "/" then Int.tdiv a b
  else 0

/-- Value of an operand text under an assignment of integers to variable
names: the integer denoted when the text is a literal, the value of the
variable otherwise. -/
def Spec.operandValue (env : String → Int) (s : String) : Int :=
  match Spec.literalValue s with
  | some v => v
  | none => env s

/-- Value computed by a statement: `constantValue` when it is marked constant,
otherwise the value of `operand1`, or `operand1 op operand2`. -/
def Spec.stmtValue (env : String → Int) (stmt : Statement) : Int :=
  if stmt.isConstant then stmt.constantValue
  else if stmt.op = "" then Spec.operandValue env stmt.operand1
  else Spec.applyOp stmt.op (Spec.operandValue env stmt.operand1)
    (Spec.operandValue env stmt.operand2)

/-- Membership of an integer in the range of `int`. -/
def Spec.inIntRange (z : Int) : Prop := INT_MIN ≤ z ∧ z ≤ INT_MAX

/-- Decidability of the range test. -/
instance Spec.decInIntRange (z : Int) : Decidable (Spec.inIntRange z) :=
  inferInstanceAs (Decidable (INT_MIN ≤ z ∧ z ≤ INT_MAX))

/-! ## Repeated optimization and the summary -/

/-- Calls of `optimize` one after the other on the same object, `n` times. -/
def optimizeTimes : Nat → CodeOptimizer → Except OptError CodeOptimizer
  | 0, o => Except.ok o
  | n + 1, o =>
    match optimize o with
    | Except.error e => Except.error e
    | Except.ok o1 => optimizeTimes n o1

/-- Numbers printed by `printOptimizationSummary` (lines 333-336). -/
structure Summary where
  totalStatements : Int
  constantFolded : Int
  deadStatements : Int
  finalStatements : Int
deriving DecidableEq, Repr

/-- Body of the counting loop of `printOptimizationSummary` (lines 329-330);
the pair is (`deadStatements`, `constantFolded`). -/
def countStatement (acc : Int × Int) (stmt : Statement) : Int × Int :=
  (if stmt.isDead then acc.1 + 1 else acc.1, if stmt.isConstant then acc.2 + 1 else acc.2)

/-- Method `printOptimizationSummary` (lines 318-337): the four numbers it
prints. The counters are far below the `int` range for any program that fits
in memory and are kept as integers. -/
def printOptimizationSummary (o : CodeOptimizer) : Summary :=
  let totalStatements : Int := o.statements.length
  let counts := o.statements.foldl countStatement (0, 0)
  { totalStatements := totalStatements
    constantFolded := counts.2
    deadStatements := counts.1
    finalStatements := totalStatements - counts.1 }

/-- A non-empty token without white space. -/
def Spec.IsToken (s : String) : Prop := s ≠ "" ∧ ∀ c ∈ s.data, isspace c = false

/-- Decidability of `Spec.IsToken`. -/
instance Spec.decIsToken (s : String) : Decidable (Spec.IsToken s) := by
  unfold Spec.IsToken; infer_instance


/-! ## Execution of straight-line code (specification side) -/

/-- Arithmetic of the machine on `int`: the result of the operator reduced to
32 bits, the convention `foldResult` follows. -/
def Spec.hostOp (op : String) (a b : Int) : Int := wrapInt (Spec.applyOp op a b)

/-- Value a statement assigns when it is executed as `printOptimizedCode`
renders it: `constantValue` for a statement marked constant, otherwise the
value of `operand1`, or of `operand1 op operand2` in machine arithmetic. -/
def Spec.hostValue (env : String → Int) (stmt : Statement) : Int :=
  if stmt.isConstant then stmt.constantValue
  else if stmt.op = "" then Spec.operandValue env stmt.operand1
  else Spec.hostOp stmt.op (Spec.operandValue env stmt.operand1)
    (Spec.operandValue env stmt.operand2)

/-- Environment after the assignment `k = v`. -/
def Spec.assign (env : String → Int) (k : String) (v : Int) : String → Int :=
  fun x => if x = k then v else env x

/-- Environment after executing the statements in order. -/
def Spec.exec (env : String → Int) (stmts : List Statement) : String → Int :=
  stmts.foldl (fun e stmt => Spec.assign e stmt.target (Spec.hostValue e stmt)) env

/-- Environment after executing the statements that are not dead, the ones
`printOptimizedCode` writes. -/
def Spec.execRendered (env : String → Int) (stmts : List Statement) : String → Int :=
  Spec.exec env (stmts.filter (fun stmt => !stmt.isDead))

/-- A variable name: a non-empty text that the literal test rejects. -/
def Spec.IsName (x : String) : Prop := x ≠ "" ∧ isNumber x = false

/-- Decidability of `Spec.IsName`. -/
instance Spec.decIsName (x : String) : Decidable (Spec.IsName x) := by
  unfold Spec.IsName; infer_instance

/-- A valid integer literal: a text of the documented grammar whose value is
in the range of `int`. -/
def Spec.IsLiteral (x : String) : Prop :=
  match Spec.literalValue x with
  | some v => Spec.inIntRange v
  | none => False

/-- Decidability of `Spec.IsLiteral`. -/
instance Spec.decIsLiteral (x : String) : Decidable (Spec.IsLiteral x) := by
  unfold Spec.IsLiteral; split <;> infer_instance

/-- An operand is admissible before the statements with targets `ts`: it is
a valid literal, or a variable name that none of them assigns. -/
def Spec.Admissible (ts : List String) (x : String) : Prop :=
  Spec.IsLiteral x ∨ (Spec.IsName x ∧ x ∉ ts)

/-- Decidability of `Spec.Admissible`. -/
instance Spec.decAdmissible (ts : List String) (x : String) :
    Decidable (Spec.Admissible ts x) := by
  unfold Spec.Admissible; infer_instance

/-- Every operand read by a statement is a valid literal or a variable name
that is assigned neither by that statement nor by a later one, so that it is
never assigned or assigned strictly earlier. -/
def Spec.OperandsAdmissible : List Statement → Prop
  | [] => True
  | stmt :: rest =>
    Spec.Admissible ((stmt :: rest).map Statement.target) stmt.operand1 ∧
    (stmt.op ≠ "" → Spec.Admissible ((stmt :: rest).map Statement.target) stmt.operand2) ∧
    Spec.OperandsAdmissible rest

/-- Decidability of `Spec.OperandsAdmissible`. -/
instance Spec.decOperandsAdmissible : (l : List Statement) →
    Decidable (Spec.OperandsAdmissible l)
  | [] => isTrue trivial
  | _ :: rest =>
    have : Decidable (Spec.OperandsAdmissible rest) := Spec.decOperandsAdmissible rest
    inferInstanceAs (Decidable (_ ∧ _ ∧ _))

/-- Single-assignment programs: freshly added statements whose targets are
pairwise distinct variable names, whose operators are among `+ - * /`, whose
operands are admissible, and in which no division of two literals has the
divisor zero. -/
def Spec.SingleAssignment (p : List Statement) : Prop :=
  (p.map Statement.target).Nodup ∧
  (∀ stmt ∈ p, stmt.isConstant = false ∧ stmt.isDead = false ∧ Spec.IsName stmt.target ∧
    (stmt.op = "" ∨ stmt.op = "+" ∨ stmt.op = "-" ∨ stmt.op = "*" ∨ stmt.op = "/") ∧
    ¬ (stmt.op = "/" ∧ Spec.IsLiteral stmt.operand1 ∧
        Spec.literalValue stmt.operand2 = some 0)) ∧
  Spec.OperandsAdmissible p

/-- Decidability of `Spec.SingleAssignment`. -/
instance Spec.decSingleAssignment (p : List Statement) :
    Decidable (Spec.SingleAssignment p) := by
  unfold Spec.SingleAssignment; infer_instance

/-- Every variable is assigned before it is read: each operand that is a
variable name is among `assigned`, the targets of the statements already
executed. -/
def Spec.AssignedBeforeRead (assigned : List String) : List Statement → Prop
  | [] => True
  | stmt :: rest =>
    (Spec.IsName stmt.operand1 → stmt.operand1 ∈ assigned) ∧
    (stmt.op ≠ "" → Spec.IsName stmt.operand2 → stmt.operand2 ∈ assigned) ∧
    Spec.AssignedBeforeRead (stmt.target :: assigned) rest

/-- Decidability of `Spec.AssignedBeforeRead`. -/
instance Spec.decAssignedBeforeRead : (assigned : List String) → (l : List Statement) →
    Decidable (Spec.AssignedBeforeRead assigned l)
  | _, [] => isTrue trivial
  | assigned, stmt :: rest =>
    have : Decidable (Spec.AssignedBeforeRead (stmt.target :: assigned) rest) :=
      Spec.decAssignedBeforeRead (stmt.target :: assigned) rest
    inferInstanceAs (Decidable (_ ∧ _ ∧ _))

/-- A program that assigns `x` again after copying it. -/
def Spec.reassignedCode : List String := ["x = 1", "a = x", "x = 5", "c = a + 1"]
end Optimizer

/-!
# Table-driven automata (`RE_to_DFA_Converter/index.c`, `Strings.c`)

Both files declare the same `DFA` record and the same `getSymbolIndex` and
`validateString`; they differ in the table they fill in. Arrays are functions
of the index, the counts and states are natural numbers (every value the
source stores is a non-negative constant), and a C string is the `String` of
its characters before the terminating NUL. The record passed to an `initDFA`
function stands for the uninitialised object of `main`.
-/

namespace Dfa

/-- Record `DFA` (index.c lines 10-19, Strings.c lines 11-20). -/
structure DFA where
  num_states : Nat
  num_symbols : Nat
  symbols : Nat → Char
  transition_table : Nat → Nat → Nat
  start_state : Nat
  accepting_states : Nat → Bool
  state_names : Nat → String
  regex : String

/-- Assignment `a[i] = v` to an array. -/
def setAt {α : Type} (a : Nat → α) (i : Nat) (v : α) : Nat → α :=
  fun k => if k = i then v else a k

/-- Assignment `t[i][j] = v` to a two-dimensional array. -/
def setAt2 {α : Type} (t : Nat → Nat → α) (i j : Nat) (v : α) : Nat → Nat → α :=
  fun k l => if k = i ∧ l = j then v else t k l

/-- Function `initDFA_Pattern_abb` (index.c lines 22-58). -/
def initDFA_Pattern_abb (dfa : DFA) : DFA :=
  { regex := "(a|b)*abb"
    num_states := 4
    num_symbols := 2
    symbols := setAt (setAt dfa.symbols 0 'a') 1 'b'
    start_state := 0
    state_names := setAt (setAt (setAt (setAt dfa.state_names 0 "q0") 1 "q1") 2 "q2") 3 "q3"
    accepting_states :=
      setAt (setAt (setAt (setAt dfa.accepting_states 0 false) 1 false) 2 false) 3 true
    transition_table :=
      setAt2 (setAt2 (setAt2 (setAt2 (setAt2 (setAt2 (setAt2 (setAt2 dfa.transition_table
        0 0 1) 0 1 0) 1 0 1) 1 1 2) 2 0 1) 2 1 3) 3 0 1) 3 1 0 }

/-- Function `initDFA_Pattern01` (Strings.c lines 23-53). -/
def initDFA_Pattern01 (dfa : DFA) : DFA :=
  { regex := "(0|1)*01"
    num_states := 3
    num_symbols := 2
    symbols := setAt (setAt dfa.symbols 0 '0') 1 '1'
    start_state := 0
    state_names := setAt (setAt (setAt dfa.state_names 0 "q0") 1 "q1") 2 "q2"
    accepting_states := setAt (setAt (setAt dfa.accepting_states 0 false) 1 false) 2 true
    transition_table :=
      setAt2 (setAt2 (setAt2 (setAt2 (setAt2 (setAt2 dfa.transition_table
        0 0 1) 0 1 0) 1 0 1) 1 1 2) 2 0 1) 2 1 0 }

/-- Loop of `getSymbolIndex` with `n` iterations left, at index `i`. -/
def getSymbolIndexFrom (dfa : DFA) (symbol : Char) : Nat → Nat → Int
  | 0, _ => -1
  | n + 1, i =>
    if dfa.symbols i = symbol then (i : Int)
    else getSymbolIndexFrom dfa symbol n (i + 1)

/-- Function `getSymbolIndex` (index.c lines 61-68, Strings.c lines 56-63). -/
def getSymbolIndex (dfa : DFA) (symbol : Char) : Int :=
  getSymbolIndexFrom dfa symbol dfa.num_symbols 0

/-- Loop of `validateString` from `current_state` over the rest of the string,
followed by the final test. -/
def validateLoop (dfa : DFA) : Nat → List Char → Bool
  | current_state, [] => dfa.accepting_states current_state
  | current_state, c :: rest =>
    if getSymbolIndex dfa c = -1 then false
    else validateLoop dfa (dfa.transition_table current_state (getSymbolIndex dfa c).toNat) rest

/-- Function `validateString` (index.c lines 71-103, Strings.c lines 66-98),
without the trace it prints. -/
def validateString (dfa : DFA) (str : String) : Bool :=
  validateLoop dfa dfa.start_state str.data

end Dfa

/-!
# Code generator for a stack machine (`Code_Generator/code_generator.cpp`)

The operator stack is a list with the top at the head; `postfix` is the list
of characters appended so far; `generate` returns the new contents of
`assemblyCode`. The extraction `ss >> token` is `Optimizer.extract`.
`simulate` takes the contents of `assemblyCode` and returns the final
`evalStack`, top at the head; `substr` may throw, so it returns `Except`.
-/

namespace CodeGen

/-- C `isalnum` in the default locale. -/
def isalnum (c : Char) : Bool :=
  Optimizer.isdigit c || (decide (97 ≤ c.toNat) && decide (c.toNat ≤ 122)) ||
    (decide (65 ≤ c.toNat) && decide (c.toNat ≤ 90))

/-- Method `isOperator` (lines 15-17). -/
def isOperator (c : Char) : Bool :=
  c == '+' || c == '-' || c == '*' || c == '/'

/-- Method `getPrecedence` (lines 20-24). -/
def getPrecedence (op : Char) : Nat :=
  if op = '+' ∨ op = '-' then 1
  else if op = '*' ∨ op = '/' then 2
  else 0

/-- Loop run at a closing parenthesis (lines 48-52): pop to the output until
the stack is empty or its top is an opening parenthesis. -/
def popToParen : List Char → List Char → List Char × List Char
  | [], postfixText => ([], postfixText)
  | top :: rest, postfixText =>
    if top ≠ '(' then popToParen rest (postfixText ++ [top, ' '])
    else (top :: rest, postfixText)

/-- Loop run at an operator `c` (lines 57-62): pop to the output while the top
is not an opening parenthesis and has precedence at least that of `c`. -/
def popWhileHigher (c : Char) : List Char → List Char → List Char × List Char
  | [], postfixText => ([], postfixText)
  | top :: rest, postfixText =>
    if top ≠ '(' ∧ getPrecedence top ≥ getPrecedence c then
      popWhileHigher c rest (postfixText ++ [top, ' '])
    else (top :: rest, postfixText)

/-- Body of the main loop of `infixToPostfix` (lines 32-64) on the pair
(`operators`, `postfix`). -/
def step (st : List Char × List Char) (c : Char) : List Char × List Char :=
  if Optimizer.isspace c then st
  else if isalnum c then (st.1, st.2 ++ [c, ' '])
  else if c = '(' then (c :: st.1, st.2)
  else if c = ')' then
    let r := popToParen st.1 st.2
    (r.1.tail, r.2)
  else if isOperator c then
    let r := popWhileHigher c st.1 st.2
    (c :: r.1, r.2)
  else st

/-- Final loop of `infixToPostfix` (lines 68-74). -/
def popRemaining : List Char → List Char → List Char
  | [], postfixText => postfixText
  | top :: rest, postfixText =>
    popRemaining rest (if top ≠ '(' then postfixText ++ [top, ' '] else postfixText)

/-- Method `infixToPostfix` (lines 27-77); its parameter and its local
`postfix` carry the suffix `Text` here because the bare words are reserved. -/
def infixToPostfix (infixText : String) : String :=
  let st := infixText.data.foldl step ([], [])
  String.mk (popRemaining st.1 st.2)

/-- Method `getOperatorInstruction` (lines 80-88). -/
def getOperatorInstruction (op : Char) : String :=
  if op = '+' then "ADD"
  else if op = '-' then "SUB"
  else if op = '*' then "MUL"
  else if op = '/' then "DIV"
  else ""

/-- Loop `while (ss >> token)` with at most `n` extractions: the tokens read. -/
def readTokens : Nat → Optimizer.IStream → List String
  | 0, _ => []
  | n + 1, ss =>
    if (Optimizer.extract ss "").1.fail then []
    else (Optimizer.extract ss "").2 :: readTokens n (Optimizer.extract ss "").1

/-- Body of the loop of `generateFromPostfix` (lines 96-103): the instruction
pushed for a token. -/
def instructionFor (token : String) : String :=
  match token.data with
  | [c] => if isOperator c then getOperatorInstruction c else "PUSH " ++ token
  | _ => "PUSH " ++ token

/-- Method `generateFromPostfix` (lines 91-105). Every successful extraction
consumes a character, so `postfix.length + 1` extractions reach the failing
one. -/
def generateFromPostfix (assemblyCode : List String) (postfixText : String) : List String :=
  assemblyCode ++
    (readTokens (postfixText.length + 1) { buf := postfixText.data }).map instructionFor

/-- Method `generate` (lines 109-127): the contents of `assemblyCode` after
the call. -/
def generate (expression : String) : List String :=
  generateFromPostfix [] (infixToPostfix expression)

/-! ## Specification-side notions -/

/-- Parse tree of an infix expression. -/
inductive Spec.Expr where
  | operand (c : Char)
  | binary (op : Char) (left right : Spec.Expr)
deriving DecidableEq, Repr

/-- Well-formed infix expressions and their parse trees, by level: level 0 is
a sum (`+`, `-`, left associative), level 1 a product (`*`, `/`, left
associative, binding tighter), level 2 a single alphanumeric operand or a
parenthesised sum. -/
inductive Spec.Parses : Nat → List Char → Spec.Expr → Prop where
  | operand (c : Char) : isalnum c = true → Spec.Parses 2 [c] (Spec.Expr.operand c)
  | paren (s : List Char) (t : Spec.Expr) :
      Spec.Parses 0 s t → Spec.Parses 2 ('(' :: s ++ [')']) t
  | factor (s : List Char) (t : Spec.Expr) : Spec.Parses 2 s t → Spec.Parses 1 s t
  | product (s1 s2 : List Char) (t1 t2 : Spec.Expr) (op : Char) :
      op = '*' ∨ op = '/' → Spec.Parses 1 s1 t1 → Spec.Parses 2 s2 t2 →
      Spec.Parses 1 (s1 ++ op :: s2) (Spec.Expr.binary op t1 t2)
  | term (s : List Char) (t : Spec.Expr) : Spec.Parses 1 s t → Spec.Parses 0 s t
  | sum (s1 s2 : List Char) (t1 t2 : Spec.Expr) (op : Char) :
      op = '+' ∨ op = '-' → Spec.Parses 0 s1 t1 → Spec.Parses 1 s2 t2 →
      Spec.Parses 0 (s1 ++ op :: s2) (Spec.Expr.binary op t1 t2)

/-- Mnemonic of an operator: ADD, SUB, MUL, DIV for `+`, `-`, `*`, `/`. -/
def Spec.mnemonic (op : Char) : String :=
  if op = '+' then "ADD"
  else if op = '-' then "SUB"
  else if op = '*' then "MUL"
  else "DIV"

/-- Post-order traversal of a parse tree as instructions: `PUSH c` for an
operand, the mnemonic for an operator after both subtrees. -/
def Spec.postOrder : Spec.Expr → List String
  | Spec.Expr.operand c => ["PUSH " ++ String.singleton c]
  | Spec.Expr.binary op l r => Spec.postOrder l ++ Spec.postOrder r ++ [Spec.mnemonic op]

/-- Post-order traversal of a parse tree as characters. -/
def Spec.postOrderChars : Spec.Expr → List Char
  | Spec.Expr.operand c => [c]
  | Spec.Expr.binary op l r => Spec.postOrderChars l ++ Spec.postOrderChars r ++ [op]

/-- Characters each followed by one blank. -/
def Spec.spaced : List Char → List Char
  | [] => []
  | c :: cs => c :: ' ' :: Spec.spaced cs


/-! ## Stack-machine simulation -/

/-- Exception thrown by `std::string::substr` when the position lies past the
end of the string. -/
inductive SimError where
  | outOfRange
deriving DecidableEq, Repr

/-- Call `s.substr(0, len)`: the first `len` characters, or the whole string
when it is shorter. -/
def substrTo (s : String) (len : Nat) : String := String.mk (s.data.take len)

/-- Call `s.substr(pos)`: the characters from `pos` on; it throws when `pos`
exceeds the length. -/
def substrFrom (s : String) (pos : Nat) : Except SimError String :=
  if pos > s.length then Except.error SimError.outOfRange
  else Except.ok (String.mk (s.data.drop pos))

/-- Body of the loop of `simulate` (lines 164-175) on `evalStack`, the top at
the head; the trace it prints is left out. -/
def simulateStep (evalStack : List String) (instruction : String) :
    Except SimError (List String) :=
  if substrTo instruction 4 = "PUSH" then
    match substrFrom instruction 5 with
    | Except.error e => Except.error e
    | Except.ok operand => Except.ok (operand :: evalStack)
  else
    match evalStack with
    | op2 :: op1 :: rest =>
      Except.ok (("(" ++ op1 ++ substrTo instruction 3 ++ op2 ++ ")") :: rest)
    | _ => Except.ok evalStack

/-- Loop of `simulate` over the instructions, from the given `evalStack`. -/
def simulateLoop : List String → List String → Except SimError (List String)
  | evalStack, [] => Except.ok evalStack
  | evalStack, instruction :: rest =>
    match simulateStep evalStack instruction with
    | Except.error e => Except.error e
    | Except.ok evalStack1 => simulateLoop evalStack1 rest

/-- Method `simulate` (lines 146-196) on the contents of `assemblyCode`: the
final `evalStack`. -/
def simulate (assemblyCode : List String) : Except SimError (List String) :=
  simulateLoop [] assemblyCode

/-- Symbolic string of a parse tree: the operand itself for a leaf, and
`(` left MNEMONIC right `)` for a node. -/
def Spec.render : Spec.Expr → String
  | Spec.Expr.operand c => String.singleton c
  | Spec.Expr.binary op l r => "(" ++ Spec.render l ++ Spec.mnemonic op ++ Spec.render r ++ ")"
end CodeGen

/-! # Theorems -/

namespace Optimizer

/-! ## Literals and `toInt` -/

lemma decimalValue_append_singleton (ds : List Char) (c : Char) :
    decimalValue (ds ++ [c]) = 10 * decimalValue ds + digitVal c := by
  simp [decimalValue, List.foldl_append]

lemma decimalValue_eq_ofDigits (ds : List Char) :
    decimalValue ds = Nat.ofDigits 10 (ds.reverse.map digitVal) := by
  induction ds using List.reverseRecOn with
  | nil => simp [decimalValue]
  | append_singleton ds c ih =>
    rw [decimalValue_append_singleton, ih]
    simp [Nat.ofDigits_cons]
    ring

lemma takeWhile_isdigit_of_all (ds : List Char) (h : ds.all isdigit = true) :
    ds.takeWhile isdigit = ds := by
  induction ds with
  | nil => rfl
  | cons c cs ih =>
    simp only [List.all_cons, Bool.and_eq_true] at h
    simp [List.takeWhile_cons, h.1, ih h.2]

lemma isdigit_not_isspace {c : Char} (h : isdigit c = true) : isspace c = false := by
  unfold isspace
  simp only [Bool.or_eq_false_iff, beq_eq_false_iff_ne]
  refine ⟨⟨⟨⟨⟨?_, ?_⟩, ?_⟩, ?_⟩, ?_⟩, ?_⟩ <;> (rintro rfl; revert h; decide)

lemma isdigit_ne_minus {c : Char} (h : isdigit c = true) : c ≠ '-' := by
  rintro rfl; revert h; decide

lemma isdigit_ne_plus {c : Char} (h : isdigit c = true) : c ≠ '+' := by
  rintro rfl; revert h; decide

lemma readSign_of_digit {c : Char} (cs : List Char) (h : isdigit c = true) :
    readSign (c :: cs) = (false, c :: cs) := by
  unfold readSign
  split
  · rename_i heq; injection heq with h1 _; exact absurd h1 (isdigit_ne_minus h)
  · rename_i heq; injection heq with h1 _; exact absurd h1 (isdigit_ne_plus h)
  · rfl

lemma stoi_digits (ds : List Char) (hne : ds ≠ []) (hall : ds.all isdigit = true)
    (hr : Spec.inIntRange (decimalValue ds : Int)) :
    stoi (String.mk ds) = Except.ok (decimalValue ds : Int) := by
  obtain ⟨c, cs, rfl⟩ := List.exists_cons_of_ne_nil hne
  have hc : isdigit c = true := by
    simp only [List.all_cons, Bool.and_eq_true] at hall; exact hall.1
  have hd : List.dropWhile isspace (c :: cs) = c :: cs := by
    simp [List.dropWhile_cons, isdigit_not_isspace hc]
  have hnot : ¬ ((decimalValue (c :: cs) : Int) < INT_MIN ∨ INT_MAX < (decimalValue (c :: cs) : Int)) := by
    unfold Spec.inIntRange at hr; omega
  unfold stoi
  simp only [hd, readSign_of_digit cs hc, takeWhile_isdigit_of_all _ hall]
  simp [hnot]

lemma stoi_minus_digits (ds : List Char) (hne : ds ≠ []) (hall : ds.all isdigit = true)
    (hr : Spec.inIntRange (-(decimalValue ds : Int))) :
    stoi (String.mk ('-' :: ds)) = Except.ok (-(decimalValue ds : Int)) := by
  have hd : List.dropWhile isspace ('-' :: ds) = '-' :: ds := by
    simp [List.dropWhile_cons, isspace]
  have hs : readSign ('-' :: ds) = (true, ds) := rfl
  have hnot : ¬ (-(decimalValue ds : Int) < INT_MIN ∨ INT_MAX < -(decimalValue ds : Int)) := by
    unfold Spec.inIntRange at hr; omega
  unfold stoi
  simp only [hd, hs, takeWhile_isdigit_of_all _ hall]
  simp [hnot, hne]

/-- On a documented literal whose value fits in `int`, `toInt` returns that value. -/
lemma toInt_of_literalValue (s : String) (a : Int) (h : Spec.literalValue s = some a)
    (hr : Spec.inIntRange a) : toInt s = Except.ok a := by
  obtain ⟨cs⟩ := s
  unfold Spec.literalValue at h
  unfold toInt
  split at h
  · rename_i ds heq
    simp only at heq
    subst heq
    split_ifs at h with hc
    simp only [Option.some.injEq] at h
    subst h
    rw [← decimalValue_eq_ofDigits] at hr ⊢
    exact stoi_minus_digits ds hc.1 hc.2 hr
  · rename_i ds hneg
    split_ifs at h with hc
    simp only [Option.some.injEq] at h
    subst h
    rw [← decimalValue_eq_ofDigits] at hr ⊢
    exact stoi_digits cs hc.1 hc.2 hr

lemma isNumberFrom_succ (i : Nat) (cs : List Char) :
    isNumberFrom (i + 1) cs = cs.all isdigit := by
  induction cs generalizing i with
  | nil => rfl
  | cons c cs ih =>
    unfold isNumberFrom
    cases hc : isdigit c <;> simp [hc, ih]

lemma isNumber_mk_cons (c : Char) (cs : List Char) :
    isNumber (String.mk (c :: cs)) = ((c == '-' || isdigit c) && cs.all isdigit) := by
  have hne : String.mk (c :: cs) ≠ "" := by
    intro h
    have h2 : (c :: cs) = [] := congrArg String.data h
    exact List.cons_ne_nil _ _ h2
  unfold isNumber
  rw [if_neg hne]
  show isNumberFrom 0 (c :: cs) = _
  unfold isNumberFrom
  by_cases hm : c = '-'
  · subst hm; simp [isNumberFrom_succ]
  · cases hc : isdigit c <;> simp [hm, hc, isNumberFrom_succ]

lemma isNumber_empty : isNumber "" = false := rfl

/-- A documented literal passes the literal test of the code. -/
lemma isNumber_of_literalValue (s : String) (a : Int) (h : Spec.literalValue s = some a) :
    isNumber s = true := by
  obtain ⟨cs⟩ := s
  unfold Spec.literalValue at h
  split at h
  · rename_i ds heq
    simp only at heq
    subst heq
    split_ifs at h with hc
    rw [isNumber_mk_cons]; simp [hc.2]
  · split_ifs at h with hc
    obtain ⟨c, r, rfl⟩ := List.exists_cons_of_ne_nil hc.1
    have := hc.2
    simp only [List.all_cons, Bool.and_eq_true] at this
    rw [isNumber_mk_cons]; simp [this.1, this.2]

lemma wrapInt_of_inIntRange {z : Int} (h : Spec.inIntRange z) : wrapInt z = z := by
  unfold Spec.inIntRange INT_MIN INT_MAX at h
  unfold wrapInt
  omega

/-! ## Constant folding -/

lemma foldResult_of_inIntRange (op : String) (a b : Int)
    (hop : op = "+" ∨ op = "-" ∨ op = "*" ∨ op = "/")
    (hres : Spec.inIntRange (Spec.applyOp op a b)) (hdiv : op = "/" → b ≠ 0) :
    foldResult op a b = Except.ok (Spec.applyOp op a b) := by
  have hw := wrapInt_of_inIntRange hres
  rcases hop with h | h | h | h
  · subst h; simp [Spec.applyOp] at hw; simp [foldResult, Spec.applyOp, hw]
  · subst h; simp [Spec.applyOp] at hw; simp [foldResult, Spec.applyOp, hw]
  · subst h; simp [Spec.applyOp] at hw; simp [foldResult, Spec.applyOp, hw]
  · have hb0 := hdiv h
    subst h; simp [Spec.applyOp] at hw; simp [foldResult, Spec.applyOp, hw, hb0]

/-- What the loop body does to a statement it folds. -/
lemma foldStatement_literals (stmt : Statement) (cv : StrMap Int) (a b : Int)
    (ha : Spec.literalValue stmt.operand1 = some a)
    (hb : Spec.literalValue stmt.operand2 = some b)
    (hra : Spec.inIntRange a) (hrb : Spec.inIntRange b)
    (hop : stmt.op = "+" ∨ stmt.op = "-" ∨ stmt.op = "*" ∨ stmt.op = "/")
    (hres : Spec.inIntRange (Spec.applyOp stmt.op a b))
    (hdiv : stmt.op = "/" → b ≠ 0) :
    foldStatement stmt cv =
      Except.ok ({ stmt with isConstant := true, constantValue := Spec.applyOp stmt.op a b },
                 cv.insert stmt.target (Spec.applyOp stmt.op a b)) := by
  have hne : stmt.op ≠ "" := by
    rcases hop with h | h | h | h <;> rw [h] <;> decide
  have hn1 := isNumber_of_literalValue _ _ ha
  have hn2 := isNumber_of_literalValue _ _ hb
  have ht1 := toInt_of_literalValue _ _ ha hra
  have ht2 := toInt_of_literalValue _ _ hb hrb
  unfold foldStatement
  rw [if_neg hne]
  simp only [hn1, hn2, Bool.and_self, if_true, ht1, ht2,
    foldResult_of_inIntRange _ a b hop hres hdiv]

/-- The loop body writes at most the entry of the statement's own target. -/
lemma foldStatement_other_key {stmt st1 : Statement} {cv cv1 : StrMap Int}
    (h : foldStatement stmt cv = Except.ok (st1, cv1)) {k : String} (hk : stmt.target ≠ k) :
    cv1 k = cv k := by
  unfold foldStatement at h
  split_ifs at h with h1 h2
  · cases h; rfl
  · split at h
    · cases h
    · split at h
      · cases h
      · split at h
        · cases h
        · cases h
          simp [StrMap.insert, Ne.symm hk]
  · cases h; rfl

lemma constantFoldingLoop_cons_ok {stmt : Statement} {rest out : List Statement}
    {cv cv2 : StrMap Int}
    (h : constantFoldingLoop (stmt :: rest) cv = Except.ok (out, cv2)) :
    ∃ st1 cv1 rest1, foldStatement stmt cv = Except.ok (st1, cv1) ∧
      constantFoldingLoop rest cv1 = Except.ok (rest1, cv2) ∧ out = st1 :: rest1 := by
  unfold constantFoldingLoop at h
  split at h
  · cases h
  · rename_i st1 cv1 hf
    split at h
    · cases h
    · rename_i rest1 cv3 hl
      cases h
      exact ⟨st1, cv1, rest1, hf, hl, rfl⟩

/-- Entry `k` of `constantValues` is untouched when no statement assigns `k`. -/
lemma constantFoldingLoop_other_key {stmts out : List Statement} {cv cv2 : StrMap Int}
    (h : constantFoldingLoop stmts cv = Except.ok (out, cv2)) {k : String}
    (hk : ∀ s ∈ stmts, s.target ≠ k) : cv2 k = cv k := by
  induction stmts generalizing cv out with
  | nil =>
    unfold constantFoldingLoop at h
    cases h; rfl
  | cons stmt rest ih =>
    obtain ⟨st1, cv1, rest1, hf, hl, -⟩ := constantFoldingLoop_cons_ok h
    rw [ih hl (fun s hs => hk s (List.mem_cons_of_mem _ hs))]
    exact foldStatement_other_key hf (hk stmt (List.mem_cons_self _ _))

/-- Each output statement is the loop body applied to the input statement at
the same index, and the final map is the one the rest of the loop computes
from the map the body left. -/
lemma constantFoldingLoop_getElem {stmts out : List Statement} {cv cv2 : StrMap Int}
    (h : constantFoldingLoop stmts cv = Except.ok (out, cv2)) {i : Nat} {stmt : Statement}
    (hi : stmts[i]? = some stmt) :
    ∃ cvi st1 cv1 rest1, foldStatement stmt cvi = Except.ok (st1, cv1) ∧ out[i]? = some st1 ∧
      constantFoldingLoop (stmts.drop (i + 1)) cv1 = Except.ok (rest1, cv2) := by
  induction stmts generalizing cv out i with
  | nil => simp at hi
  | cons s rest ih =>
    obtain ⟨st1, cv1, rest1, hf, hl, rfl⟩ := constantFoldingLoop_cons_ok h
    cases i with
    | zero =>
      simp only [List.getElem?_cons_zero, Option.some.injEq] at hi
      subst hi
      exact ⟨cv, st1, cv1, rest1, hf, by simp, by simpa using hl⟩
    | succ j =>
      simp only [List.getElem?_cons_succ] at hi
      obtain ⟨cvi, st2, cv3, rest2, hf2, hget, hrest⟩ := ih hl hi
      exact ⟨cvi, st2, cv3, rest2, hf2, by simpa using hget, by simpa using hrest⟩

lemma constantFoldingLoop_length {stmts out : List Statement} {cv cv2 : StrMap Int}
    (h : constantFoldingLoop stmts cv = Except.ok (out, cv2)) : out.length = stmts.length := by
  induction stmts generalizing cv out with
  | nil => unfold constantFoldingLoop at h; cases h; rfl
  | cons s rest ih =>
    obtain ⟨st1, cv1, rest1, -, hl, rfl⟩ := constantFoldingLoop_cons_ok h
    simp [ih hl]

lemma constantFolding_ok {o o1 : CodeOptimizer} (h : constantFolding o = Except.ok o1) :
    constantFoldingLoop o.statements o.constantValues =
      Except.ok (o1.statements, o1.constantValues) ∧ o1.variableUsed = o.variableUsed := by
  unfold constantFolding at h
  split at h
  · cases h
  · rename_i stmts cv hl
    cases h
    exact ⟨hl, rfl⟩

/-- C1. Constant folding is correct. For a statement `x = a op b` whose
operands are documented literals with values `a` and `b` in the `int` range,
`op` one of `+ - * /`, the result in range and `b ≠ 0` under `/`:
the loop body of `constantFolding` sets `isConstant`, sets `constantValue` to
`a op b` (division truncating toward zero) and records `constantValues[x]`
with that value; on the one-statement program the pass returns exactly that;
and in every program on which the pass returns, the statement at that index
is so rewritten and the recorded entry is still there at the end when no
later statement assigns `x`. -/
theorem C1_constantFolding_folds_literals (stmt : Statement) (a b : Int)
    (ha : Spec.literalValue stmt.operand1 = some a)
    (hb : Spec.literalValue stmt.operand2 = some b)
    (hra : Spec.inIntRange a) (hrb : Spec.inIntRange b)
    (hop : stmt.op = "+" ∨ stmt.op = "-" ∨ stmt.op = "*" ∨ stmt.op = "/")
    (hres : Spec.inIntRange (Spec.applyOp stmt.op a b))
    (hdiv : stmt.op = "/" → b ≠ 0) :
    (∀ cv : StrMap Int, foldStatement stmt cv =
      Except.ok ({ stmt with isConstant := true, constantValue := Spec.applyOp stmt.op a b },
                 cv.insert stmt.target (Spec.applyOp stmt.op a b))) ∧
    (∀ (cv : StrMap Int) (vu : StrMap Bool),
      (constantFolding { statements := [stmt], constantValues := cv, variableUsed := vu }).toOption.map
          (fun o1 => (o1.statements, o1.constantValues stmt.target)) =
        some ([{ stmt with isConstant := true, constantValue := Spec.applyOp stmt.op a b }],
              some (Spec.applyOp stmt.op a b))) ∧
    (∀ (o o1 : CodeOptimizer) (i : Nat), constantFolding o = Except.ok o1 →
      o.statements[i]? = some stmt →
      o1.statements[i]? =
          some { stmt with isConstant := true, constantValue := Spec.applyOp stmt.op a b } ∧
        ((∀ s ∈ o.statements.drop (i + 1), s.target ≠ stmt.target) →
          o1.constantValues stmt.target = some (Spec.applyOp stmt.op a b))) := by
  have hbody := fun cv => foldStatement_literals stmt cv a b ha hb hra hrb hop hres hdiv
  refine ⟨hbody, ?_, ?_⟩
  · intro cv vu
    simp [constantFolding, constantFoldingLoop, hbody, Except.toOption, StrMap.insert]
  · intro o o1 i hcf hi
    obtain ⟨hl, -⟩ := constantFolding_ok hcf
    obtain ⟨cvi, st1, cv1, rest1, hf, hget, hrest⟩ := constantFoldingLoop_getElem hl hi
    rw [hbody cvi] at hf
    cases hf
    refine ⟨hget, fun hlater => ?_⟩
    rw [constantFoldingLoop_other_key hrest hlater]
    simp [StrMap.insert]

/-- Witness for C1: `x = -7 / 2` folds to `-7 / 2`, which is `-3`. -/
theorem C1_constantFolding_folds_literals_witness :
    Spec.literalValue "-7" = some (-7) ∧ Spec.literalValue "2" = some 2 ∧
    Spec.applyOp "/" (-7) 2 = -3 ∧
    foldStatement { target := "x", operand1 := "-7", op := "/", operand2 := "2" } StrMap.empty =
      Except.ok ({ target := "x", operand1 := "-7", op := "/", operand2 := "2",
                   isConstant := true, constantValue := Spec.applyOp "/" (-7) 2 },
                 (StrMap.empty : StrMap Int).insert "x" (Spec.applyOp "/" (-7) 2)) :=
  ⟨by decide, by decide, by decide,
   (C1_constantFolding_folds_literals
    { target := "x", operand1 := "-7", op := "/", operand2 := "2" } (-7) 2
    (by decide) (by decide) (by decide) (by decide) (by decide) (by decide) (by decide)).1
    StrMap.empty⟩

/-! ## Dead-code elimination -/

lemma StrMap.insert_apply {α : Type} (m : StrMap α) (k : String) (v : α) (j : String) :
    m.insert k v j = if j = k then some v else m j := rfl

lemma markUses_apply (used : StrMap Bool) (stmt : Statement) (k : String) :
    markUses used stmt k = if marksKey stmt k then some true else used k := by
  unfold markUses marksKey
  by_cases hop : stmt.op = ""
  · by_cases h1 : isNumber stmt.operand1 = true <;> by_cases he : stmt.operand1 = "" <;>
      by_cases hk1 : k = stmt.operand1 <;>
      simp [StrMap.insert_apply, hop, h1, he, hk1]
  · by_cases h1 : isNumber stmt.operand1 = true <;>
      by_cases h2 : isNumber stmt.operand2 = true <;> by_cases hk1 : k = stmt.operand1 <;>
      by_cases hk2 : k = stmt.operand2 <;>
      simp [StrMap.insert_apply, hop, h1, h2, hk1, hk2]

lemma foldl_markUses_apply (stmts : List Statement) (used : StrMap Bool) (k : String) :
    stmts.foldl markUses used k =
      if ∃ s ∈ stmts, marksKey s k then some true else used k := by
  induction stmts generalizing used with
  | nil => simp
  | cons s rest ih =>
    rw [List.foldl_cons, ih, markUses_apply]
    by_cases h1 : ∃ u ∈ rest, marksKey u k
    · have : ∃ u ∈ s :: rest, marksKey u k := by
        obtain ⟨u, hu, hm⟩ := h1; exact ⟨u, List.mem_cons_of_mem _ hu, hm⟩
      rw [if_pos h1, if_pos this]
    · rw [if_neg h1]
      by_cases h2 : marksKey s k
      · rw [if_pos h2, if_pos ⟨s, List.mem_cons_self _ _, h2⟩]
      · have : ¬ ∃ u ∈ s :: rest, marksKey u k := by
          rintro ⟨u, hu, hm⟩
          rcases List.mem_cons.mp hu with rfl | hu
          · exact h2 hm
          · exact h1 ⟨u, hu, hm⟩
        rw [if_neg h2, if_neg this]

lemma foldl_reset_apply (stmts : List Statement) (prior : StrMap Bool) (k : String) :
    stmts.foldl (fun m stmt => m.insert stmt.target false) prior k =
      if ∃ s ∈ stmts, s.target = k then some false else prior k := by
  induction stmts generalizing prior with
  | nil => simp
  | cons s rest ih =>
    rw [List.foldl_cons, ih, StrMap.insert_apply]
    by_cases h1 : ∃ u ∈ rest, u.target = k
    · have : ∃ u ∈ s :: rest, u.target = k := by
        obtain ⟨u, hu, hm⟩ := h1; exact ⟨u, List.mem_cons_of_mem _ hu, hm⟩
      rw [if_pos h1, if_pos this]
    · rw [if_neg h1]
      by_cases h2 : k = s.target
      · rw [if_pos h2, if_pos ⟨s, List.mem_cons_self _ _, h2.symm⟩]
      · have : ¬ ∃ u ∈ s :: rest, u.target = k := by
          rintro ⟨u, hu, hm⟩
          rcases List.mem_cons.mp hu with rfl | hu
          · exact h2 hm.symm
          · exact h1 ⟨u, hu, hm⟩
        rw [if_neg h2, if_neg this]

/-- Closed form of `variableUsed` before the last loop of `deadCodeElimination`. -/
lemma usageMap_apply (stmts : List Statement) (prior : StrMap Bool) (k : String) :
    usageMap stmts prior k =
      if stmts.getLast?.map Statement.target = some k then some true
      else if ∃ s ∈ stmts, marksKey s k then some true
      else if ∃ s ∈ stmts, s.target = k then some false
      else prior k := by
  unfold usageMap
  cases hl : stmts.getLast? with
  | none =>
    simp only [Option.map_none', foldl_markUses_apply, foldl_reset_apply]
    simp
  | some last =>
    simp only [Option.map_some', StrMap.insert_apply, foldl_markUses_apply, foldl_reset_apply,
      Option.some.injEq]
    by_cases hk : k = last.target
    · simp [hk]
    · have : ¬ last.target = k := fun h => hk h.symm
      simp [hk, this]

/-- The flag a target receives: a statement of the program is marked used
exactly when its target is the last target or is marked by some statement. -/
lemma usageMap_target {stmts : List Statement} (prior : StrMap Bool) {st : Statement}
    (hst : st ∈ stmts) :
    (usageMap stmts prior st.target).getD false =
      decide (stmts.getLast?.map Statement.target = some st.target ∨
        ∃ s ∈ stmts, marksKey s st.target) := by
  rw [usageMap_apply]
  by_cases h1 : stmts.getLast?.map Statement.target = some st.target
  · simp [h1]
  · by_cases h2 : ∃ s ∈ stmts, marksKey s st.target
    · simp [h1, h2]
    · have h3 : ∃ s ∈ stmts, s.target = st.target := ⟨st, hst, rfl⟩
      rw [if_neg h1, if_neg h2, if_pos h3]
      simp [h1, h2]

lemma marksKey_iff (u : Statement) (k : String) :
    marksKey u k ↔ (isNumber k = false ∧
      ((u.op ≠ "" ∧ (u.operand1 = k ∨ u.operand2 = k)) ∨
       (u.op = "" ∧ u.operand1 ≠ "" ∧ u.operand1 = k))) := by
  unfold marksKey
  constructor
  · rintro (⟨hop, ⟨hn, rfl⟩ | ⟨hn, rfl⟩⟩ | ⟨hop, hne, hn, rfl⟩)
    · exact ⟨hn, Or.inl ⟨hop, Or.inl rfl⟩⟩
    · exact ⟨hn, Or.inl ⟨hop, Or.inr rfl⟩⟩
    · exact ⟨hn, Or.inr ⟨hop, hne, rfl⟩⟩
  · rintro ⟨hn, ⟨hop, rfl | rfl⟩ | ⟨hop, hne, rfl⟩⟩
    · exact Or.inl ⟨hop, Or.inl ⟨hn, rfl⟩⟩
    · exact Or.inl ⟨hop, Or.inr ⟨hn, rfl⟩⟩
    · exact Or.inr ⟨hop, hne, hn, rfl⟩

/-- C2 (as amended). For a program in which no statement is dead yet,
`deadCodeElimination` keeps the number of statements, changes nothing but
`isDead`, and flags a statement dead if and only if its target differs from
the last statement's target and is not read by any statement, where a
statement reads a non-literal name (one `isNumber` rejects) through `operand1`
or `operand2` when it has an operator, and through a non-empty `operand1`
when it is a simple assignment. -/
theorem C2_deadCodeElimination_flags_unread (o : CodeOptimizer)
    (hlive : ∀ st ∈ o.statements, st.isDead = false) :
    (deadCodeElimination o).statements.length = o.statements.length ∧
    ∀ (i : Nat) (st : Statement), o.statements[i]? = some st →
      ∃ st1, (deadCodeElimination o).statements[i]? = some st1 ∧
        st1 = { st with isDead := st1.isDead } ∧
        (st1.isDead = true ↔
          (o.statements.getLast?.map Statement.target ≠ some st.target ∧
           ¬ ∃ u ∈ o.statements, isNumber st.target = false ∧
               ((u.op ≠ "" ∧ (u.operand1 = st.target ∨ u.operand2 = st.target)) ∨
                (u.op = "" ∧ u.operand1 ≠ "" ∧ u.operand1 = st.target)))) := by
  refine ⟨by simp [deadCodeElimination], ?_⟩
  intro i st hi
  have hmem : st ∈ o.statements := List.getElem?_mem hi
  have hd : st.isDead = false := hlive st hmem
  refine ⟨flagDead (usageMap o.statements o.variableUsed) st, ?_, ?_, ?_⟩
  · simp [deadCodeElimination, List.getElem?_map, hi]
  · unfold flagDead; split_ifs <;> rfl
  · have hu := usageMap_target o.variableUsed hmem
    have hex : (∃ s ∈ o.statements, marksKey s st.target) ↔
        ∃ u ∈ o.statements, isNumber st.target = false ∧
          ((u.op ≠ "" ∧ (u.operand1 = st.target ∨ u.operand2 = st.target)) ∨
           (u.op = "" ∧ u.operand1 ≠ "" ∧ u.operand1 = st.target)) := by
      constructor
      · rintro ⟨u, hu, hm⟩; exact ⟨u, hu, (marksKey_iff u _).mp hm⟩
      · rintro ⟨u, hu, hm⟩; exact ⟨u, hu, (marksKey_iff u _).mpr hm⟩
    rw [← hex]
    unfold flagDead
    rw [hu]
    by_cases h1 : o.statements.getLast?.map Statement.target = some st.target
    · simp [h1, hd]
    · by_cases h2 : ∃ s ∈ o.statements, marksKey s st.target
      · simp [h1, h2, hd]
      · simp [h1, h2]

set_option maxRecDepth 100000 in
/-- Witness for C2 on the program `a = 5`, `b = a`, `c = 7`. -/
theorem C2_deadCodeElimination_flags_unread_witness :
    (∀ st ∈ (addStatements ["a = 5", "b = a", "c = 7"]).statements, st.isDead = false) ∧
    (deadCodeElimination (addStatements ["a = 5", "b = a", "c = 7"])).statements.length =
      (addStatements ["a = 5", "b = a", "c = 7"]).statements.length :=
  ⟨by decide,
   (C2_deadCodeElimination_flags_unread (addStatements ["a = 5", "b = a", "c = 7"])
     (by decide)).1⟩

set_option maxRecDepth 100000 in
/-- Counterexample to C2 as stated: in the program built from the lines `""`
and `"z = 5"` no statement is dead, the first statement has the empty target
and the empty `operand1`, and `deadCodeElimination` flags it dead, although
the condition of the claim does not hold for it: its target differs from the
last target `z` but it does occur as the non-literal `operand1` of a
statement (itself). -/
theorem C2_deadCodeElimination_flags_unread_counterexample :
    (∀ st ∈ (addStatements ["", "z = 5"]).statements, st.isDead = false) ∧
    (addStatements ["", "z = 5"]).statements[0]? = some { target := "", operand1 := "" } ∧
    (deadCodeElimination (addStatements ["", "z = 5"])).statements[0]? =
      some { target := "", operand1 := "", isDead := true } ∧
    ¬ ((addStatements ["", "z = 5"]).statements.getLast?.map Statement.target ≠ some "" ∧
       ¬ ∃ u ∈ (addStatements ["", "z = 5"]).statements, isNumber "" = false ∧
           (u.operand1 = "" ∨ (u.op ≠ "" ∧ u.operand2 = ""))) := by
  decide

/-! ## The program of `main` -/

set_option maxRecDepth 100000 in
/-- Counterexample to C3 as stated: on the program of `main`, `optimize`
returns and exactly one statement is flagged dead, not zero. -/
theorem C3_main_program_counterexample :
    (optimize (addStatements inputCode)).toOption.map
        (fun o => (o.statements.filter (fun st => st.isDead)).length) = some 1 := by
  decide

set_option maxRecDepth 100000 in
/-- C3 (as amended). On the program `x = 2 * 8`, `y = x * 1`, `z = y + 0` of
`main`, one call of `optimize` returns with `x` folded to 16 and live,
`y = x` flagged dead (copy propagation has rewritten `z = y` to `z = x`, so
`y` is no longer read) and `z = x` live; the optimized code is `x = 16`,
`z = x`. -/
theorem C3_main_program_dead_flags :
    (optimize (addStatements inputCode)).toOption.map (fun o => o.statements) =
      some [{ target := "x", operand1 := "2", op := "*", operand2 := "8",
              isConstant := true, constantValue := 16, isDead := false },
            { target := "y", operand1 := "x", isDead := true },
            { target := "z", operand1 := "x", isDead := false }] ∧
    (optimize (addStatements inputCode)).toOption.map optimizedCode =
      some ["x = 16", "z = x"] := by
  decide

/-! ## What each pass leaves alone -/

lemma addStatements_statements_aux (lines : List String) (o : CodeOptimizer) :
    (lines.foldl addStatement o).statements = o.statements ++ lines.map parseStatement := by
  induction lines generalizing o with
  | nil => simp
  | cons l rest ih => rw [List.foldl_cons, ih]; simp [addStatement]

/-- Statements of a program built with `addStatement` from the given lines. -/
lemma addStatements_statements (lines : List String) :
    (addStatements lines).statements = lines.map parseStatement := by
  unfold addStatements
  rw [addStatements_statements_aux]
  rfl

lemma parseStatement_fresh (line : String) :
    (parseStatement line).isConstant = false ∧ (parseStatement line).constantValue = 0 ∧
      (parseStatement line).isDead = false := by
  simp only [parseStatement]
  split_ifs <;> exact ⟨rfl, rfl, rfl⟩

/-- Constant folding changes nothing but `isConstant` and `constantValue`. -/
lemma foldStatement_frame {stmt st1 : Statement} {cv cv1 : StrMap Int}
    (h : foldStatement stmt cv = Except.ok (st1, cv1)) :
    st1.target = stmt.target ∧ st1.operand1 = stmt.operand1 ∧ st1.op = stmt.op ∧
      st1.operand2 = stmt.operand2 ∧ st1.isDead = stmt.isDead := by
  unfold foldStatement at h
  split_ifs at h with h1 h2
  · cases h; exact ⟨rfl, rfl, rfl, rfl, rfl⟩
  · split at h
    · cases h
    · split at h
      · cases h
      · split at h
        · cases h
        · cases h; exact ⟨rfl, rfl, rfl, rfl, rfl⟩
  · cases h; exact ⟨rfl, rfl, rfl, rfl, rfl⟩

/-- Statement by statement, the output of the folding loop is the loop body
applied to the input. -/
lemma constantFoldingLoop_forall₂ {stmts out : List Statement} {cv cv2 : StrMap Int}
    (h : constantFoldingLoop stmts cv = Except.ok (out, cv2)) :
    List.Forall₂ (fun s t => ∃ cvi cvo, foldStatement s cvi = Except.ok (t, cvo)) stmts out := by
  induction stmts generalizing cv out with
  | nil => unfold constantFoldingLoop at h; cases h; exact List.Forall₂.nil
  | cons s rest ih =>
    obtain ⟨st1, cv1, rest1, hf, hl, rfl⟩ := constantFoldingLoop_cons_ok h
    exact List.Forall₂.cons ⟨cv, cv1, hf⟩ (ih hl)

/-- The statement computed by `reduceStatement` does not depend on the map. -/
lemma reduceStatement_fst (stmt : Statement) (cv cv0 : StrMap Int) :
    (reduceStatement stmt cv).1 = (reduceStatement stmt cv0).1 := by
  unfold reduceStatement
  split_ifs <;> rfl

/-- Statements after `strengthReduction`: the loop body mapped over the input. -/
lemma strengthReductionLoop_fst (stmts : List Statement) (cv : StrMap Int) :
    (strengthReductionLoop stmts cv).1 =
      stmts.map (fun s => (reduceStatement s StrMap.empty).1) := by
  induction stmts generalizing cv with
  | nil => rfl
  | cons s rest ih =>
    simp only [strengthReductionLoop, List.map_cons, ih]
    rw [reduceStatement_fst s cv StrMap.empty]

/-- Strength reduction keeps `target` and `isDead`. -/
lemma reduceStatement_frame (stmt : Statement) (cv : StrMap Int) :
    (reduceStatement stmt cv).1.target = stmt.target ∧
      (reduceStatement stmt cv).1.isDead = stmt.isDead := by
  unfold reduceStatement
  split_ifs <;> exact ⟨rfl, rfl⟩

/-- The two tests of the second loop of `copyPropagation` exclude each other:
`operand1` is looked up once, in a statement that has an operator or is not
constant. -/
lemma substitute_eq (aliases : StrMap String) (stmt : Statement) :
    substitute aliases stmt =
      if (stmt.op ≠ "" ∨ stmt.isConstant = false) ∧ (aliases stmt.operand1).isSome = true then
        { stmt with operand1 := (aliases stmt.operand1).getD "" }
      else stmt := by
  simp only [substitute]
  by_cases hop : stmt.op = "" <;> by_cases hc : stmt.isConstant = false <;>
    by_cases hs : (aliases stmt.operand1).isSome = true <;> simp [hop, hc, hs]

/-- Copy propagation changes nothing but `operand1`. -/
lemma substitute_frame (aliases : StrMap String) (stmt : Statement) :
    substitute aliases stmt = { stmt with operand1 := (substitute aliases stmt).operand1 } := by
  rw [substitute_eq]
  split_ifs <;> rfl

/-- Dead-code elimination changes nothing but `isDead`. -/
lemma flagDead_frame (used : StrMap Bool) (stmt : Statement) :
    flagDead used stmt = { stmt with isDead := (flagDead used stmt).isDead } := by
  unfold flagDead
  split_ifs <;> rfl

lemma flagDead_isDead (used : StrMap Bool) (stmt : Statement) :
    (flagDead used stmt).isDead = (stmt.isDead || !((used stmt.target).getD false)) := by
  unfold flagDead
  split_ifs with h <;> simp_all

lemma constantFoldingLoop_mem {stmts out : List Statement} {cv cv2 : StrMap Int}
    (h : constantFoldingLoop stmts cv = Except.ok (out, cv2)) {t : Statement} (ht : t ∈ out) :
    ∃ s ∈ stmts, ∃ cvi cvo, foldStatement s cvi = Except.ok (t, cvo) := by
  induction stmts generalizing cv out with
  | nil => unfold constantFoldingLoop at h; cases h; simp at ht
  | cons s rest ih =>
    obtain ⟨st1, cv1, rest1, hf, hl, rfl⟩ := constantFoldingLoop_cons_ok h
    rcases List.mem_cons.mp ht with rfl | ht
    · exact ⟨s, List.mem_cons_self _ _, cv, cv1, hf⟩
    · obtain ⟨u, hu, hx⟩ := ih hl ht
      exact ⟨u, List.mem_cons_of_mem _ hu, hx⟩

/-- The result of `optimize`, when it returns, is the three later passes
applied to the result of `constantFolding`. -/
lemma optimize_ok {o o1 : CodeOptimizer} (h : optimize o = Except.ok o1) :
    ∃ oc, constantFolding o = Except.ok oc ∧
      o1 = deadCodeElimination (copyPropagation (strengthReduction oc)) := by
  unfold optimize at h
  split at h
  · cases h
  · rename_i oc hc
    cases h
    exact ⟨oc, hc, rfl⟩

/-- The first three passes keep the number of statements and do not touch
`isDead`. -/
lemma before_deadCodeElimination {o oc : CodeOptimizer}
    (hc : constantFolding o = Except.ok oc) (hlive : ∀ st ∈ o.statements, st.isDead = false) :
    (copyPropagation (strengthReduction oc)).statements.length = o.statements.length ∧
      ∀ st ∈ (copyPropagation (strengthReduction oc)).statements, st.isDead = false := by
  obtain ⟨hl, -⟩ := constantFolding_ok hc
  constructor
  · simp [copyPropagation, strengthReduction, strengthReductionLoop_fst,
      constantFoldingLoop_length hl]
  · intro st hst
    simp only [copyPropagation, strengthReduction, strengthReductionLoop_fst, List.map_map,
      List.mem_map, Function.comp] at hst
    obtain ⟨t, ht, rfl⟩ := hst
    obtain ⟨s, hs, cvi, cvo, hf⟩ := constantFoldingLoop_mem hl ht
    rw [substitute_frame]
    simp only
    rw [(reduceStatement_frame t _).2, (foldStatement_frame hf).2.2.2.2]
    exact hlive s hs

/-- After `deadCodeElimination` on a program with no dead statement, no
statement that assigns the target of the last statement is dead. -/
lemma deadCodeElimination_last_target_live (o : CodeOptimizer)
    (hlive : ∀ st ∈ o.statements, st.isDead = false) :
    ∀ st ∈ (deadCodeElimination o).statements,
      (deadCodeElimination o).statements.getLast?.map Statement.target = some st.target →
      st.isDead = false := by
  intro st hst hlast
  simp only [deadCodeElimination, List.mem_map] at hst
  obtain ⟨s, hs, rfl⟩ := hst
  have htgt : (flagDead (usageMap o.statements o.variableUsed) s).target = s.target := by
    rw [flagDead_frame]
  have hlast2 : o.statements.getLast?.map Statement.target = some s.target := by
    rw [← htgt, ← hlast]
    simp only [deadCodeElimination, List.getLast?_map, Option.map_map]
    congr 1
    funext x
    simp only [Function.comp]
    rw [flagDead_frame]
  rw [flagDead_isDead, usageMap_target _ hs, hlive s hs]
  simp [hlast2]

/-- C4. The last statement's target is always live. For every non-empty list
of input lines, when `optimize` returns on the program built from them with
`addStatement`, the last statement is not flagged dead, no statement that
assigns the same target as the last statement is flagged dead, and the
optimized code is not empty. -/
theorem C4_last_target_live (lines : List String) (hne : lines ≠ []) (o1 : CodeOptimizer)
    (h : optimize (addStatements lines) = Except.ok o1) :
    (∃ last, o1.statements.getLast? = some last ∧ last.isDead = false) ∧
    (∀ st ∈ o1.statements,
      o1.statements.getLast?.map Statement.target = some st.target → st.isDead = false) ∧
    optimizedCode o1 ≠ [] := by
  obtain ⟨oc, hc, rfl⟩ := optimize_ok h
  have hfresh : ∀ st ∈ (addStatements lines).statements, st.isDead = false := by
    intro st hst
    rw [addStatements_statements, List.mem_map] at hst
    obtain ⟨l, -, rfl⟩ := hst
    exact (parseStatement_fresh l).2.2
  obtain ⟨hlen, hlive⟩ := before_deadCodeElimination hc hfresh
  have hall := deadCodeElimination_last_target_live _ hlive
  have hne1 : (deadCodeElimination (copyPropagation (strengthReduction oc))).statements ≠ [] := by
    intro hnil
    have h0 := congrArg List.length hnil
    simp only [deadCodeElimination, List.length_map, List.length_nil] at h0
    rw [hlen, addStatements_statements, List.length_map] at h0
    exact hne (List.length_eq_zero.mp h0)
  obtain ⟨last, hlast⟩ : ∃ last,
      (deadCodeElimination (copyPropagation (strengthReduction oc))).statements.getLast? =
        some last := by
    rw [List.getLast?_eq_getLast _ hne1]; exact ⟨_, rfl⟩
  have hmem : last ∈ (deadCodeElimination (copyPropagation (strengthReduction oc))).statements :=
    List.mem_of_getLast?_eq_some hlast
  have hld : last.isDead = false := hall last hmem (by rw [hlast]; rfl)
  refine ⟨⟨last, hlast, hld⟩, hall, ?_⟩
  intro hnil
  have : renderStatement last ∈
      optimizedCode (deadCodeElimination (copyPropagation (strengthReduction oc))) := by
    unfold optimizedCode
    exact List.mem_map_of_mem _ (List.mem_filter.mpr ⟨hmem, by simp [hld]⟩)
  rw [hnil] at this
  simp at this

set_option maxRecDepth 100000 in
/-- Witness for C4 on the program `a = 1 + 2`, `b = a`, `a = b`: `optimize`
returns and leaves both statements assigning `a` live. -/
theorem C4_last_target_live_witness :
    (optimize (addStatements ["a = 1 + 2", "b = a", "a = b"])).toOption.map
        (fun o => o.statements.map (fun st => st.isDead)) = some [false, false, false] ∧
    optimizedCode (deadCodeElimination (copyPropagation (strengthReduction
      { statements := [{ target := "a", operand1 := "1", op := "+", operand2 := "2",
                         isConstant := true, constantValue := 3 },
                       { target := "b", operand1 := "a" }, { target := "a", operand1 := "b" }],
        constantValues := (StrMap.empty : StrMap Int).insert "a" 3 }))) ≠ [] :=
  ⟨by decide,
   (C4_last_target_live ["a = 1 + 2", "b = a", "a = b"] (by decide) _ rfl).2.2⟩

/-! ## Strength reduction -/

lemma strengthReduction_statements (o : CodeOptimizer) :
    (strengthReduction o).statements =
      o.statements.map (fun s => (reduceStatement s StrMap.empty).1) := by
  simp [strengthReduction, strengthReductionLoop_fst]

lemma reduceStatement_snd (stmt : Statement) (cv : StrMap Int) :
    (reduceStatement stmt cv).2 = if zeroRewrite stmt then cv.insert stmt.target 0 else cv := by
  unfold reduceStatement zeroRewrite
  by_cases h0 : stmt.op = ""
  · have : stmt.op ≠ "*" := by rw [h0]; decide
    simp [h0, this]
  · by_cases hc : stmt.isConstant = true
    · simp [hc]
    · by_cases hm : stmt.op = "*"
      · by_cases h1 : stmt.operand2 = "1"
        · simp [h0, hc, hm, h1]
        · by_cases h2 : stmt.operand1 = "1"
          · simp [h0, hc, hm, h1, h2]
          · by_cases h3 : stmt.operand2 = "0" ∨ stmt.operand1 = "0"
            · simp [hc, hm, h1, h2, h3]
            · simp [hc, hm, h1, h2, h3]
      · simp only [h0, hc, hm, false_or, false_and, if_false]
        split_ifs <;> rfl

/-- Closed form of `constantValues` after the loop of `strengthReduction`. -/
lemma strengthReductionLoop_snd (stmts : List Statement) (cv : StrMap Int) (k : String) :
    (strengthReductionLoop stmts cv).2 k =
      if ∃ s ∈ stmts, zeroRewrite s ∧ s.target = k then some 0 else cv k := by
  induction stmts generalizing cv with
  | nil => simp [strengthReductionLoop]
  | cons s rest ih =>
    simp only [strengthReductionLoop, ih, reduceStatement_snd]
    by_cases h1 : ∃ u ∈ rest, zeroRewrite u ∧ u.target = k
    · have : ∃ u ∈ s :: rest, zeroRewrite u ∧ u.target = k := by
        obtain ⟨u, hu, hm⟩ := h1; exact ⟨u, List.mem_cons_of_mem _ hu, hm⟩
      rw [if_pos h1, if_pos this]
    · rw [if_neg h1]
      by_cases h2 : zeroRewrite s ∧ s.target = k
      · rw [if_pos h2.1, if_pos ⟨s, List.mem_cons_self _ _, h2⟩]
        simp [StrMap.insert_apply, h2.2]
      · have : ¬ ∃ u ∈ s :: rest, zeroRewrite u ∧ u.target = k := by
          rintro ⟨u, hu, hm⟩
          rcases List.mem_cons.mp hu with rfl | hu
          · exact h2 hm
          · exact h1 ⟨u, hu, hm⟩
        rw [if_neg this]
        by_cases hz : zeroRewrite s
        · have hk : ¬ k = s.target := fun e => h2 ⟨hz, e.symm⟩
          simp [hz, StrMap.insert_apply, hk]
        · simp [hz]

/-- C5. Strength reduction applies the identity table. For a statement of the
program that is not constant and has one of the shapes `x * 1`, `1 * x`,
`x + 0`, `0 + x`, `x - 0`, `x / 1` (for any operand text `x`, in particular
every non-literal one), `strengthReduction` leaves at the same index the
simple assignment of `x`: `operand1 = x`, `op` and `operand2` empty,
`isConstant` still false, the other fields as they were. -/
theorem C5_strengthReduction_identity_table (o : CodeOptimizer) (i : Nat) (stmt : Statement)
    (x : String) (hi : o.statements[i]? = some stmt) (hconst : stmt.isConstant = false)
    (hpat : (stmt.op = "*" ∧ stmt.operand1 = x ∧ stmt.operand2 = "1") ∨
            (stmt.op = "*" ∧ stmt.operand1 = "1" ∧ stmt.operand2 = x) ∨
            (stmt.op = "+" ∧ stmt.operand1 = x ∧ stmt.operand2 = "0") ∨
            (stmt.op = "+" ∧ stmt.operand1 = "0" ∧ stmt.operand2 = x) ∨
            (stmt.op = "-" ∧ stmt.operand1 = x ∧ stmt.operand2 = "0") ∨
            (stmt.op = "/" ∧ stmt.operand1 = x ∧ stmt.operand2 = "1")) :
    (strengthReduction o).statements[i]? =
      some { target := stmt.target, operand1 := x, op := "", operand2 := "",
             isConstant := false, constantValue := stmt.constantValue,
             isDead := stmt.isDead } := by
  rw [strengthReduction_statements, List.getElem?_map, hi, Option.map_some']
  congr 1
  obtain ⟨t, p, q, r, c, v, d⟩ := stmt
  simp only at hconst hpat
  subst hconst
  rcases hpat with ⟨h1, h2, h3⟩ | ⟨h1, h2, h3⟩ | ⟨h1, h2, h3⟩ | ⟨h1, h2, h3⟩ | ⟨h1, h2, h3⟩ |
    ⟨h1, h2, h3⟩ <;> subst h1 h2 h3
  · simp [reduceStatement]
  · by_cases hx : r = "1" <;> simp [reduceStatement, hx]
  · simp [reduceStatement]
  · by_cases hx : r = "0" <;> simp [reduceStatement, hx]
  · simp [reduceStatement]
  · simp [reduceStatement]

set_option maxRecDepth 100000 in
/-- Witness for C5: `y = x * 1` becomes `y = x`. -/
theorem C5_strengthReduction_identity_table_witness :
    (strengthReduction (addStatements ["y = x * 1"])).statements[0]? =
      some { target := "y", operand1 := "x", op := "", operand2 := "",
             isConstant := false, constantValue := 0, isDead := false } :=
  C5_strengthReduction_identity_table (addStatements ["y = x * 1"]) 0
    { target := "y", operand1 := "x", op := "*", operand2 := "1" } "x"
    (by decide) (by decide) (by decide)

lemma literalValue_one : Spec.literalValue "1" = some 1 := by decide

lemma literalValue_zero : Spec.literalValue "0" = some 0 := by decide

/-- C6. Multiplication by zero becomes a constant. For a statement of the
program that is not constant and has the shape `x * 0` or `0 * x` with `x`
not a literal, `strengthReduction` leaves at the same index the statement
with `operand1 = "0"`, `op` and `operand2` empty, `isConstant = true` and
`constantValue = 0`; after the pass `constantValues` maps the target to 0;
and the statement is rendered as `t = 0`. -/
theorem C6_strengthReduction_times_zero (o : CodeOptimizer) (i : Nat) (stmt : Statement)
    (x : String) (hi : o.statements[i]? = some stmt) (hconst : stmt.isConstant = false)
    (hx : Spec.literalValue x = none)
    (hpat : stmt.op = "*" ∧ ((stmt.operand1 = x ∧ stmt.operand2 = "0") ∨
                             (stmt.operand1 = "0" ∧ stmt.operand2 = x))) :
    (strengthReduction o).statements[i]? =
      some { target := stmt.target, operand1 := "0", op := "", operand2 := "",
             isConstant := true, constantValue := 0, isDead := stmt.isDead } ∧
    (strengthReduction o).constantValues stmt.target = some 0 ∧
    renderStatement { target := stmt.target, operand1 := "0", op := "", operand2 := "",
                      isConstant := true, constantValue := 0, isDead := stmt.isDead } =
      stmt.target ++ " = 0" := by
  have hx1 : x ≠ "1" := by
    rintro rfl; rw [literalValue_one] at hx; cases hx
  have hz : zeroRewrite stmt := by
    obtain ⟨hop, ⟨h1, h2⟩ | ⟨h1, h2⟩⟩ := hpat
    · exact ⟨hop, hconst, by rw [h2]; decide, by rw [h1]; exact hx1, Or.inl h2⟩
    · exact ⟨hop, hconst, by rw [h2]; exact hx1, by rw [h1]; decide, Or.inr h1⟩
  refine ⟨?_, ?_, ?_⟩
  · rw [strengthReduction_statements, List.getElem?_map, hi, Option.map_some']
    congr 1
    obtain ⟨hop, hc, h2, h1, h0⟩ := hz
    have hne : stmt.op ≠ "" := by rw [hop]; decide
    simp [reduceStatement, hne, hc, hop, h2, h1, h0]
  · simp only [strengthReduction]
    rw [strengthReductionLoop_snd, if_pos ⟨stmt, List.getElem?_mem hi, hz, rfl⟩]
  · have h0 : " = " ++ toString (0 : Int) = " = 0" := by decide
    simp only [renderStatement, if_true]
    rw [String.append_assoc, h0]

set_option maxRecDepth 100000 in
/-- Witness for C6: `x = 0 * y` becomes the constant `x = 0`. -/
theorem C6_strengthReduction_times_zero_witness :
    (strengthReduction (addStatements ["x = 0 * y"])).statements[0]? =
      some { target := "x", operand1 := "0", op := "", operand2 := "",
             isConstant := true, constantValue := 0, isDead := false } ∧
    (strengthReduction (addStatements ["x = 0 * y"])).constantValues "x" = some 0 ∧
    renderStatement { target := "x", operand1 := "0", op := "", operand2 := "",
                      isConstant := true, constantValue := 0, isDead := false } = "x" ++ " = 0" :=
  C6_strengthReduction_times_zero (addStatements ["x = 0 * y"]) 0
    { target := "x", operand1 := "0", op := "*", operand2 := "y" } "y"
    (by decide) (by decide) (by decide) (by decide)

lemma operandValue_one (env : String → Int) : Spec.operandValue env "1" = 1 := by
  simp [Spec.operandValue, literalValue_one]

lemma operandValue_zero (env : String → Int) : Spec.operandValue env "0" = 0 := by
  simp [Spec.operandValue, literalValue_zero]

/-- The loop body of `strengthReduction` does not change the value of a
statement. -/
lemma reduceStatement_value (env : String → Int) (stmt : Statement) (cv : StrMap Int) :
    Spec.stmtValue env (reduceStatement stmt cv).1 = Spec.stmtValue env stmt := by
  obtain ⟨t, p, q, r, c, v, d⟩ := stmt
  unfold reduceStatement
  simp only
  by_cases h0 : q = ""
  · simp [h0]
  · by_cases hc : c = true
    · simp [hc]
    · have hc2 : c = false := by simpa using hc
      subst hc2
      rw [if_neg (by simp [h0])]
      by_cases hm : q = "*"
      · subst hm
        rw [if_pos rfl]
        by_cases h1 : r = "1"
        · subst h1
          simp [Spec.stmtValue, Spec.applyOp, operandValue_one]
        · rw [if_neg h1]
          by_cases h2 : p = "1"
          · subst h2
            simp [Spec.stmtValue, Spec.applyOp, operandValue_one]
          · rw [if_neg h2]
            by_cases h3 : r = "0" ∨ p = "0"
            · rw [if_pos h3]
              rcases h3 with h3 | h3 <;> subst h3 <;>
                simp [Spec.stmtValue, Spec.applyOp, operandValue_zero]
            · rw [if_neg h3]
      · rw [if_neg hm]
        by_cases hp : q = "+"
        · subst hp
          rw [if_pos rfl]
          by_cases h1 : r = "0"
          · subst h1
            simp [Spec.stmtValue, Spec.applyOp, operandValue_zero]
          · rw [if_neg h1]
            by_cases h2 : p = "0"
            · subst h2
              simp [Spec.stmtValue, Spec.applyOp, operandValue_zero]
            · rw [if_neg h2]
        · rw [if_neg hp]
          by_cases hs : q = "-"
          · subst hs
            rw [if_pos rfl]
            by_cases h1 : r = "0"
            · subst h1
              simp [Spec.stmtValue, Spec.applyOp, operandValue_zero]
            · rw [if_neg h1]
          · rw [if_neg hs]
            by_cases hd : q = "/"
            · subst hd
              rw [if_pos rfl]
              by_cases h1 : r = "1"
              · subst h1
                simp [Spec.stmtValue, Spec.applyOp, operandValue_one]
              · rw [if_neg h1]
            · rw [if_neg hd]

/-- C7. Strength reduction preserves meaning. Under every assignment `env` of
integers to variable names, the value of a statement (its `constantValue` when
marked constant, otherwise the value of `operand1`, or `operand1 op operand2`
in integer arithmetic with truncating division) is the same after the loop
body of `strengthReduction` as before, and so the values of the statements of
a program are the same after the pass as before. -/
theorem C7_strengthReduction_preserves_value (env : String → Int) :
    (∀ (stmt : Statement) (cv : StrMap Int),
      Spec.stmtValue env (reduceStatement stmt cv).1 = Spec.stmtValue env stmt) ∧
    (∀ o : CodeOptimizer,
      (strengthReduction o).statements.map (Spec.stmtValue env) =
        o.statements.map (Spec.stmtValue env)) := by
  refine ⟨reduceStatement_value env, fun o => ?_⟩
  rw [strengthReduction_statements, List.map_map]
  apply List.map_congr_left
  intro s _
  exact reduceStatement_value env s StrMap.empty

/-! ## Copy propagation -/

lemma foldl_aliases_apply (stmts : List Statement) (m : StrMap String) (t : String) :
    stmts.foldl (fun m stmt => if isCopy stmt then m.insert stmt.target stmt.operand1 else m) m t =
      match (stmts.filter (fun s => isCopy s && decide (s.target = t))).getLast? with
      | some src => some src.operand1
      | none => m t := by
  induction stmts generalizing m with
  | nil => rfl
  | cons s rest ih =>
    rw [List.foldl_cons, ih]
    by_cases hp : (isCopy s && decide (s.target = t)) = true
    · rw [List.filter_cons, if_pos hp]
      have hc : isCopy s = true := by
        simp only [Bool.and_eq_true] at hp; exact hp.1
      have ht : s.target = t := by
        simp only [Bool.and_eq_true, decide_eq_true_eq] at hp; exact hp.2
      cases hr : List.filter (fun s => isCopy s && decide (s.target = t)) rest with
      | nil => simp [hc, StrMap.insert_apply, ht]
      | cons u us =>
        rw [List.getLast?_cons_cons, List.getLast?_eq_getLast _ (List.cons_ne_nil u us)]
    · rw [List.filter_cons, if_neg hp]
      cases hl : (List.filter (fun s => isCopy s && decide (s.target = t)) rest).getLast? with
      | some src => rfl
      | none =>
        simp only
        by_cases hc : isCopy s = true
        · have ht : ¬ t = s.target := by
            intro e; apply hp; simp [hc, e]
          simp [hc, StrMap.insert_apply, ht]
        · simp [hc]

/-- The alias map built by the first loop of `copyPropagation`: each target is
mapped to the `operand1` of the last statement in program order that assigns
it and passes the copy test. -/
lemma buildAliases_apply (stmts : List Statement) (t : String) :
    buildAliases stmts t =
      ((stmts.filter (fun s => isCopy s && decide (s.target = t))).getLast?).map
        Statement.operand1 := by
  unfold buildAliases
  rw [foldl_aliases_apply]
  cases (List.filter (fun s => isCopy s && decide (s.target = t)) stmts).getLast? <;> rfl

/-- C8 (as amended). Let the alias of a name be the `operand1` of the last
statement in program order that assigns that name, has no operator, is not
constant and whose `operand1` is not accepted by `isNumber`. After
`copyPropagation`, every statement that has an operator or is not constant
has its `operand1` replaced by the alias of the old `operand1` when there is
one and is unchanged otherwise; a constant statement without operator is
unchanged. -/
theorem C8_copyPropagation_single_lookup (o : CodeOptimizer) :
    (copyPropagation o).statements =
      o.statements.map (fun st =>
        if st.op ≠ "" ∨ st.isConstant = false then
          match (o.statements.filter
              (fun s => isCopy s && decide (s.target = st.operand1))).getLast? with
          | some src => { st with operand1 := src.operand1 }
          | none => st
        else st) := by
  simp only [copyPropagation]
  apply List.map_congr_left
  intro st _
  rw [substitute_eq, buildAliases_apply]
  cases (List.filter (fun s => isCopy s && decide (s.target = st.operand1))
      o.statements).getLast? with
  | none => simp
  | some src =>
    by_cases h : st.op ≠ "" ∨ st.isConstant = false
    · simp [h]
    · simp [h]

set_option maxRecDepth 100000 in
/-- Counterexample to C8 as stated. From the lines `0 = x` and `z = k * 0`,
constant folding and strength reduction produce the copy `0 = x` and the
constant statement `z` with `operand1 = "0"` and no operator; the name `0`
has the alias `x`, yet `copyPropagation` leaves `operand1 = "0"` in the
statement of `z`. -/
theorem C8_copyPropagation_single_lookup_counterexample :
    (constantFolding (addStatements ["0 = x", "z = k * 0"])).toOption.map
        (fun oc => (strengthReduction oc).statements) =
      some [{ target := "0", operand1 := "x" },
            { target := "z", operand1 := "0", isConstant := true }] ∧
    (([{ target := "0", operand1 := "x" },
       { target := "z", operand1 := "0", isConstant := true }] : List Statement).filter
        (fun s => decide (s.op = "") && !s.isConstant && !isNumber s.operand1 &&
          decide (s.target = "0"))).getLast?.map Statement.operand1 = some "x" ∧
    ((copyPropagation
        { statements := [{ target := "0", operand1 := "x" },
                         { target := "z", operand1 := "0", isConstant := true }] }).statements.map
      Statement.operand1) = ["x", "0"] := by
  decide

/-- C9. Copy propagation rewrites `operand1` only. For every program the pass
keeps the number and order of the statements and leaves `target`, `op`,
`operand2`, `isConstant`, `constantValue` and `isDead` of each statement as
they were, and it does not touch the two maps; in particular in
`y = a; z = b op y` the `operand2` of `z` is still `y` afterwards although
`y` has the alias `a`. -/
theorem C9_copyPropagation_operand1_only :
    (∀ o : CodeOptimizer,
      (copyPropagation o).statements.map
          (fun st => (st.target, st.op, st.operand2, st.isConstant, st.constantValue, st.isDead)) =
        o.statements.map
          (fun st => (st.target, st.op, st.operand2, st.isConstant, st.constantValue, st.isDead)) ∧
      (copyPropagation o).constantValues = o.constantValues ∧
      (copyPropagation o).variableUsed = o.variableUsed) ∧
    (∀ y a z b op : String,
      (copyPropagation
        { statements := [{ target := y, operand1 := a },
                         { target := z, operand1 := b, op := op, operand2 := y }] }).statements.map
        Statement.operand2 = ["", y]) := by
  have hframe : ∀ o : CodeOptimizer,
      (copyPropagation o).statements.map
          (fun st => (st.target, st.op, st.operand2, st.isConstant, st.constantValue, st.isDead)) =
        o.statements.map
          (fun st => (st.target, st.op, st.operand2, st.isConstant, st.constantValue,
            st.isDead)) := by
    intro o
    simp only [copyPropagation, List.map_map]
    apply List.map_congr_left
    intro st _
    simp only [Function.comp]
    rw [substitute_frame]
  refine ⟨fun o => ⟨hframe o, rfl, rfl⟩, ?_⟩
  intro y a z b op
  have h := hframe { statements := [{ target := y, operand1 := a },
                                    { target := z, operand1 := b, op := op, operand2 := y }] }
  have h2 := congrArg (List.map (fun t => t.2.2.1)) h
  simpa [List.map_map, Function.comp] using h2

/-- When some copy assigns `t` and every copy that assigns `t` has
`operand1 = v`, the alias of `t` is `v`. -/
lemma buildAliases_of_unique {stmts : List Statement} {t v : String}
    (hex : ∃ s ∈ stmts, isCopy s = true ∧ s.target = t)
    (hall : ∀ s ∈ stmts, isCopy s = true → s.target = t → s.operand1 = v) :
    buildAliases stmts t = some v := by
  rw [buildAliases_apply]
  obtain ⟨s, hs, hc, ht⟩ := hex
  have hne : stmts.filter (fun s => isCopy s && decide (s.target = t)) ≠ [] := by
    intro hnil
    have : s ∈ stmts.filter (fun s => isCopy s && decide (s.target = t)) :=
      List.mem_filter.mpr ⟨hs, by simp [hc, ht]⟩
    rw [hnil] at this
    simp at this
  rw [List.getLast?_eq_getLast _ hne, Option.map_some']
  obtain ⟨hin, hp⟩ := List.mem_filter.mp (List.getLast_mem hne)
  simp only [Bool.and_eq_true, decide_eq_true_eq] at hp
  rw [hall _ hin hp.1 hp.2]

/-- C10. Substitution is a single lookup. In a program whose only copies are
`a = x` and `b = a`, with `a`, `b`, `x` distinct, the alias map sends `b` to
`a` and `a` to `x`, and a statement with an operator whose `operand1` is `b`
has `operand1 = a` after one `copyPropagation`, not `x`; its other fields are
unchanged. -/
theorem C10_copyPropagation_not_transitive (o : CodeOptimizer) (a b x : String)
    (hab : a ≠ b) (hax : a ≠ x) (hbx : b ≠ x)
    (honly : ∀ s ∈ o.statements, isCopy s = true →
      (s.target = a ∧ s.operand1 = x) ∨ (s.target = b ∧ s.operand1 = a))
    (ha : ∃ s ∈ o.statements, isCopy s = true ∧ s.target = a ∧ s.operand1 = x)
    (hb : ∃ s ∈ o.statements, isCopy s = true ∧ s.target = b ∧ s.operand1 = a)
    (i : Nat) (stmt : Statement) (hi : o.statements[i]? = some stmt)
    (hop : stmt.op ≠ "") (h1 : stmt.operand1 = b) :
    buildAliases o.statements b = some a ∧ buildAliases o.statements a = some x ∧
      buildAliases o.statements x = none ∧
      (copyPropagation o).statements[i]? = some { stmt with operand1 := a } ∧
      ({ stmt with operand1 := a } : Statement).operand1 ≠ x := by
  have halias : buildAliases o.statements b = some a := by
    obtain ⟨s, hs, hc, ht, -⟩ := hb
    refine buildAliases_of_unique ⟨s, hs, hc, ht⟩ (fun u hu huc hut => ?_)
    rcases honly u hu huc with ⟨h, -⟩ | ⟨-, h⟩
    · exact absurd (h.symm.trans hut) hab
    · exact h
  have halias2 : buildAliases o.statements a = some x := by
    obtain ⟨s, hs, hc, ht, -⟩ := ha
    refine buildAliases_of_unique ⟨s, hs, hc, ht⟩ (fun u hu huc hut => ?_)
    rcases honly u hu huc with ⟨-, h⟩ | ⟨h, -⟩
    · exact h
    · exact absurd (hut.symm.trans h) hab
  have halias3 : buildAliases o.statements x = none := by
    rw [buildAliases_apply]
    have hnil : o.statements.filter (fun s => isCopy s && decide (s.target = x)) = [] := by
      rw [List.filter_eq_nil_iff]
      intro u hu hp
      simp only [Bool.and_eq_true, decide_eq_true_eq] at hp
      rcases honly u hu hp.1 with ⟨h, -⟩ | ⟨h, -⟩
      · exact hax (h.symm.trans hp.2)
      · exact hbx (h.symm.trans hp.2)
    rw [hnil]; rfl
  refine ⟨halias, halias2, halias3, ?_, hax⟩
  simp only [copyPropagation]
  rw [List.getElem?_map, hi, Option.map_some', substitute_eq, h1, halias]
  simp [hop]

set_option maxRecDepth 100000 in
/-- Witness for C10 on the program `a = x`, `b = a`, `c = b + d`. -/
theorem C10_copyPropagation_not_transitive_witness :
    (copyPropagation (addStatements ["a = x", "b = a", "c = b + d"])).statements[2]? =
      some { target := "c", operand1 := "a", op := "+", operand2 := "d" } ∧
    "a" ≠ "x" :=
  (C10_copyPropagation_not_transitive (addStatements ["a = x", "b = a", "c = b + d"])
    "a" "b" "x" (by decide) (by decide) (by decide) (by decide) (by decide) (by decide)
    2 { target := "c", operand1 := "b", op := "+", operand2 := "d" } (by decide) (by decide)
    (by decide)).2.2.2

/-! ## The parser -/

lemma dropWhile_isspace_append (ws rest : List Char) (hws : ∀ c ∈ ws, isspace c = true)
    (hrest : ∀ c ∈ rest.head?, isspace c = false) :
    (ws ++ rest).dropWhile isspace = rest := by
  induction ws with
  | nil =>
    cases rest with
    | nil => rfl
    | cons c cs =>
      have : isspace c = false := hrest c (by simp)
      simp [List.dropWhile_cons, this]
  | cons w ws ih =>
    have hw : isspace w = true := hws w (List.mem_cons_self _ _)
    simp only [List.cons_append, List.dropWhile_cons, hw, if_true]
    exact ih (fun c hc => hws c (List.mem_cons_of_mem _ hc))

lemma takeWhile_token (tok rest : List Char) (htok : ∀ c ∈ tok, isspace c = false)
    (hrest : ∀ c ∈ rest.head?, isspace c = true) :
    (tok ++ rest).takeWhile (fun c => !isspace c) = tok := by
  induction tok with
  | nil =>
    cases rest with
    | nil => rfl
    | cons c cs =>
      have : isspace c = true := hrest c (by simp)
      simp [List.takeWhile_cons, this]
  | cons t ts ih =>
    have ht : isspace t = false := htok t (List.mem_cons_self _ _)
    simp only [List.cons_append, List.takeWhile_cons, ht, Bool.not_false, if_true]
    rw [ih (fun c hc => htok c (List.mem_cons_of_mem _ hc))]

lemma dropWhile_token (tok rest : List Char) (htok : ∀ c ∈ tok, isspace c = false)
    (hrest : ∀ c ∈ rest.head?, isspace c = true) :
    (tok ++ rest).dropWhile (fun c => !isspace c) = rest := by
  induction tok with
  | nil =>
    cases rest with
    | nil => rfl
    | cons c cs =>
      have : isspace c = true := hrest c (by simp)
      simp [List.dropWhile_cons, this]
  | cons t ts ih =>
    have ht : isspace t = false := htok t (List.mem_cons_self _ _)
    simp only [List.cons_append, List.dropWhile_cons, ht, Bool.not_false, if_true]
    exact ih (fun c hc => htok c (List.mem_cons_of_mem _ hc))

/-- Extraction from a good stream whose unread characters are white space,
then a non-empty token, then nothing or white space: the token is read and
`eofbit` is set exactly when the token ends the stream. -/
lemma extract_token (ws tok rest : List Char) (old : String)
    (hws : ∀ c ∈ ws, isspace c = true) (hne : tok ≠ [])
    (htok : ∀ c ∈ tok, isspace c = false) (hrest : ∀ c ∈ rest.head?, isspace c = true) :
    extract { buf := ws ++ (tok ++ rest), eof := false, fail := false } old =
      ({ buf := rest, eof := decide (rest = []), fail := false }, String.mk tok) := by
  obtain ⟨t, ts, rfl⟩ := List.exists_cons_of_ne_nil hne
  have hd : (ws ++ (t :: ts ++ rest)).dropWhile isspace = t :: ts ++ rest :=
    dropWhile_isspace_append ws _ hws (by
      intro c hc
      simp only [List.cons_append, List.head?_cons, Option.mem_def, Option.some.injEq] at hc
      subst hc
      exact htok _ (List.mem_cons_self _ _))
  unfold extract
  simp only [Bool.or_self, Bool.false_eq_true, if_false, hd]
  rw [if_neg (by simp)]
  simp only [takeWhile_token _ _ htok hrest, dropWhile_token _ _ htok hrest]

/-- Extraction from a stream that is not good fails and keeps the old string. -/
lemma extract_not_good (ss : IStream) (old : String) (h : (ss.eof || ss.fail) = true) :
    extract ss old = ({ ss with fail := true }, old) := by
  unfold extract
  rw [if_pos h]


lemma space_isspace : isspace ' ' = true := by decide
lemma eq_not_isspace : isspace '=' = false := by decide

lemma head?_space (r : List Char) : ∀ c ∈ (' ' :: r).head?, isspace c = true := by
  intro c hc
  simp only [List.head?_cons, Option.mem_def, Option.some.injEq] at hc
  subst hc; exact space_isspace

lemma head?_nil_isspace : ∀ c ∈ ([] : List Char).head?, isspace c = true := by
  intro c hc; simp at hc

lemma mem_singleton_space : ∀ c ∈ [' '], isspace c = true := by
  intro c hc; simp only [List.mem_singleton] at hc; subst hc; exact space_isspace

/-- Streams left by reading `t` and `=` from a line that starts with `t = `. -/
lemma extract_target_equals (t rest : List Char) (ht : t ≠ [])
    (hts : ∀ c ∈ t, isspace c = false) :
    extract { buf := t ++ (' ' :: '=' :: ' ' :: rest) } "" =
        ({ buf := ' ' :: '=' :: ' ' :: rest, eof := false, fail := false }, String.mk t) ∧
    extract { buf := ' ' :: '=' :: ' ' :: rest, eof := false, fail := false } "" =
        ({ buf := ' ' :: rest, eof := false, fail := false }, "=") := by
  constructor
  · have h := extract_token [] t (' ' :: '=' :: ' ' :: rest) "" (by simp) ht hts (head?_space _)
    simpa using h
  · have h := extract_token [' '] ['='] (' ' :: rest) "" mem_singleton_space (by simp)
      (by intro c hc; simp only [List.mem_singleton] at hc; subst hc; exact eq_not_isspace)
      (head?_space _)
    simpa using h


/-- Extraction of a token that follows one blank. -/
lemma extract_after_space (tok rest : List Char) (hne : tok ≠ [])
    (htok : ∀ c ∈ tok, isspace c = false) (hrest : ∀ c ∈ rest.head?, isspace c = true) :
    extract { buf := ' ' :: (tok ++ rest), eof := false, fail := false } "" =
      ({ buf := rest, eof := decide (rest = []), fail := false }, String.mk tok) :=
  extract_token [' '] tok rest "" mem_singleton_space hne htok hrest

lemma parseStatement_assignment (t a : List Char) (ht : t ≠ []) (ha : a ≠ [])
    (hts : ∀ c ∈ t, isspace c = false) (has : ∀ c ∈ a, isspace c = false) :
    parseStatement (String.mk (t ++ (' ' :: '=' :: ' ' :: a))) =
      { target := String.mk t, operand1 := String.mk a } := by
  obtain ⟨e1, e2⟩ := extract_target_equals t a ht hts
  have e3 := extract_after_space a [] ha has head?_nil_isspace
  rw [List.append_nil] at e3
  simp only [parseStatement, e1, e2, e3]
  simp [extract]

lemma parseStatement_dangling (t a o : List Char) (ht : t ≠ []) (ha : a ≠ []) (ho : o ≠ [])
    (hts : ∀ c ∈ t, isspace c = false) (has : ∀ c ∈ a, isspace c = false)
    (hos : ∀ c ∈ o, isspace c = false) :
    parseStatement (String.mk (t ++ (' ' :: '=' :: ' ' :: (a ++ (' ' :: o))))) =
      { target := String.mk t, operand1 := String.mk a } := by
  obtain ⟨e1, e2⟩ := extract_target_equals t (a ++ (' ' :: o)) ht hts
  have e3 := extract_after_space a (' ' :: o) ha has (head?_space _)
  have e4 := extract_after_space o [] ho hos head?_nil_isspace
  rw [List.append_nil] at e4
  simp only [parseStatement, e1, e2, e3]
  simp only [List.cons_ne_nil, decide_False, e4]
  simp [extract]

lemma parseStatement_expression (t a o b : List Char) (ht : t ≠ []) (ha : a ≠ []) (ho : o ≠ [])
    (hb : b ≠ []) (hts : ∀ c ∈ t, isspace c = false) (has : ∀ c ∈ a, isspace c = false)
    (hos : ∀ c ∈ o, isspace c = false) (hbs : ∀ c ∈ b, isspace c = false) :
    parseStatement (String.mk (t ++ (' ' :: '=' :: ' ' :: (a ++ (' ' :: (o ++ (' ' :: b))))))) =
      { target := String.mk t, operand1 := String.mk a, op := String.mk o,
        operand2 := String.mk b } := by
  obtain ⟨e1, e2⟩ := extract_target_equals t (a ++ (' ' :: (o ++ (' ' :: b)))) ht hts
  have e3 := extract_after_space a (' ' :: (o ++ (' ' :: b))) ha has (head?_space _)
  have e4 := extract_after_space o (' ' :: b) ho hos (head?_space _)
  have e5 := extract_after_space b [] hb hbs head?_nil_isspace
  rw [List.append_nil] at e5
  simp only [parseStatement, e1, e2, e3]
  simp only [List.cons_ne_nil, decide_False, e4, e5]
  simp


lemma isToken_mk {l : List Char} (h : Spec.IsToken (String.mk l)) :
    l ≠ [] ∧ ∀ c ∈ l, isspace c = false := by
  refine ⟨?_, h.2⟩
  rintro rfl
  exact h.1 rfl

/-- C11. The parser recognises the two shapes. For non-empty tokens `t`, `a`,
`o`, `b` without white space, the line `t = a` is parsed as the simple
assignment with target `t` and `operand1 = a`, the line `t = a o b` as the
expression with `op = o` and `operand2 = b`, and the line `t = a o`, with a
single token after `operand1`, as the simple assignment `t = a`; in all three
`isConstant = false`, `constantValue = 0` and `isDead = false`. -/
theorem C11_parseStatement_shapes (t a o b : String) (ht : Spec.IsToken t)
    (ha : Spec.IsToken a) (ho : Spec.IsToken o) (hb : Spec.IsToken b) :
    parseStatement (t ++ " = " ++ a) =
      { target := t, operand1 := a, op := "", operand2 := "",
        isConstant := false, constantValue := 0, isDead := false } ∧
    parseStatement (t ++ " = " ++ a ++ " " ++ o ++ " " ++ b) =
      { target := t, operand1 := a, op := o, operand2 := b,
        isConstant := false, constantValue := 0, isDead := false } ∧
    parseStatement (t ++ " = " ++ a ++ " " ++ o) =
      { target := t, operand1 := a, op := "", operand2 := "",
        isConstant := false, constantValue := 0, isDead := false } := by
  obtain ⟨tl⟩ := t
  obtain ⟨al⟩ := a
  obtain ⟨ol⟩ := o
  obtain ⟨bl⟩ := b
  obtain ⟨ht1, ht2⟩ := isToken_mk ht
  obtain ⟨ha1, ha2⟩ := isToken_mk ha
  obtain ⟨ho1, ho2⟩ := isToken_mk ho
  obtain ⟨hb1, hb2⟩ := isToken_mk hb
  have e1 : String.mk tl ++ " = " ++ String.mk al =
      String.mk (tl ++ (' ' :: '=' :: ' ' :: al)) := by
    apply String.ext; simp [String.data_append]
  have e2 : String.mk tl ++ " = " ++ String.mk al ++ " " ++ String.mk ol ++ " " ++ String.mk bl =
      String.mk (tl ++ (' ' :: '=' :: ' ' :: (al ++ (' ' :: (ol ++ (' ' :: bl)))))) := by
    apply String.ext; simp [String.data_append]
  have e3 : String.mk tl ++ " = " ++ String.mk al ++ " " ++ String.mk ol =
      String.mk (tl ++ (' ' :: '=' :: ' ' :: (al ++ (' ' :: ol)))) := by
    apply String.ext; simp [String.data_append]
  rw [e2, e3, e1]
  exact ⟨parseStatement_assignment tl al ht1 ha1 ht2 ha2,
    parseStatement_expression tl al ol bl ht1 ha1 ho1 hb1 ht2 ha2 ho2 hb2,
    parseStatement_dangling tl al ol ht1 ha1 ho1 ht2 ha2 ho2⟩

/-- Witness for C11 with the tokens `x`, `2`, `*`, `8`. -/
theorem C11_parseStatement_shapes_witness :
    parseStatement ("x" ++ " = " ++ "2") =
      { target := "x", operand1 := "2", op := "", operand2 := "",
        isConstant := false, constantValue := 0, isDead := false } ∧
    parseStatement ("x" ++ " = " ++ "2" ++ " " ++ "*" ++ " " ++ "8") =
      { target := "x", operand1 := "2", op := "*", operand2 := "8",
        isConstant := false, constantValue := 0, isDead := false } ∧
    parseStatement ("x" ++ " = " ++ "2" ++ " " ++ "*") =
      { target := "x", operand1 := "2", op := "", operand2 := "",
        isConstant := false, constantValue := 0, isDead := false } :=
  C11_parseStatement_shapes "x" "2" "*" "8" (by decide) (by decide) (by decide) (by decide)


/-! ## The literal test -/

/-- The literal test accepts exactly the documented literals and the bare
minus sign. -/
lemma isNumber_iff (s : String) :
    isNumber s = true ↔ ((Spec.literalValue s).isSome = true ∨ s = "-") := by
  obtain ⟨cs⟩ := s
  cases cs with
  | nil => simp [isNumber_empty, Spec.literalValue]
  | cons c r =>
    rw [isNumber_mk_cons]
    by_cases hm : c = '-'
    · subst hm
      cases r with
      | nil => simp [Spec.literalValue]
      | cons d ds =>
        have hne : String.mk ('-' :: d :: ds) ≠ "-" := by
          intro h
          have h2 : ('-' :: d :: ds) = ['-'] := congrArg String.data h
          simp at h2
        simp [Spec.literalValue, hne]
    · have hne : String.mk (c :: r) ≠ "-" := by
        intro h
        have h2 : (c :: r) = ['-'] := congrArg String.data h
        simp only [List.cons.injEq] at h2
        exact hm h2.1
      unfold Spec.literalValue
      split
      · rename_i ds heq
        simp only [List.cons.injEq] at heq
        exact absurd heq.1 hm
      · simp [hm, hne]

set_option maxRecDepth 100000 in
/-- C12 (failing input and exact extent). The literal test accepts the bare
minus sign: `isNumber "-"` is true although `-` is not a documented literal
(no digit follows the sign), and `toInt "-"` then raises `invalid_argument`,
so constant folding of `x = - + 1` throws. This is the only divergence: a
string passes `isNumber` if and only if it is a documented literal or is
`-`. -/
theorem C12_isNumber_accepts_bare_minus :
    isNumber "-" = true ∧ Spec.literalValue "-" = none ∧
    toInt "-" = Except.error OptError.invalidArgument ∧
    (constantFolding (addStatements ["x = - + 1"])).toOption.map
        (fun o => o.statements) = none ∧
    (∀ s : String, isNumber s = true ↔ ((Spec.literalValue s).isSome = true ∨ s = "-")) :=
  ⟨by decide, by decide, rfl, by decide, isNumber_iff⟩


/-! ## Statement by statement through `optimize` -/

/-- The loop body of `constantFolding` either leaves the statement as it is or
marks it constant, the latter only when it has an operator and two operands
that pass the literal test. -/
lemma foldStatement_cases {stmt st1 : Statement} {cv cv1 : StrMap Int}
    (h : foldStatement stmt cv = Except.ok (st1, cv1)) :
    st1 = stmt ∨ (stmt.op ≠ "" ∧ isNumber stmt.operand1 = true ∧
      isNumber stmt.operand2 = true ∧
      ∃ r, st1 = { stmt with isConstant := true, constantValue := r }) := by
  unfold foldStatement at h
  split_ifs at h with h1 h2
  · cases h; exact Or.inl rfl
  · simp only [Bool.and_eq_true] at h2
    split at h
    · cases h
    · split at h
      · cases h
      · split at h
        · cases h
        · rename_i r _
          cases h
          exact Or.inr ⟨h1, h2.1, h2.2, r, rfl⟩
  · cases h; exact Or.inl rfl

/-- The loop body of `strengthReduction` either leaves the statement as it is
or clears `op` and `operand2` of a non-constant statement with an operator. -/
lemma reduceStatement_cases (stmt : Statement) (cv : StrMap Int) :
    (reduceStatement stmt cv).1 = stmt ∨
      ((reduceStatement stmt cv).1.op = "" ∧ (reduceStatement stmt cv).1.operand2 = "" ∧
        stmt.op ≠ "" ∧ stmt.isConstant = false) := by
  unfold reduceStatement
  by_cases h0 : stmt.op = "" ∨ stmt.isConstant = true
  · rw [if_pos h0]; exact Or.inl rfl
  · rw [if_neg h0]
    have hop : stmt.op ≠ "" := fun h => h0 (Or.inl h)
    have hc : stmt.isConstant = false := by
      cases hcc : stmt.isConstant
      · rfl
      · exact absurd (Or.inr hcc) h0
    split_ifs <;> first | exact Or.inl rfl | exact Or.inr ⟨rfl, rfl, hop, hc⟩

lemma constantFoldingLoop_getElem_out {stmts out : List Statement} {cv cv2 : StrMap Int}
    (h : constantFoldingLoop stmts cv = Except.ok (out, cv2)) {i : Nat} {t : Statement}
    (hi : out[i]? = some t) :
    ∃ s, stmts[i]? = some s ∧ ∃ cvi cvo, foldStatement s cvi = Except.ok (t, cvo) := by
  induction stmts generalizing cv out i with
  | nil => unfold constantFoldingLoop at h; cases h; simp at hi
  | cons s rest ih =>
    obtain ⟨st1, cv1, rest1, hf, hl, rfl⟩ := constantFoldingLoop_cons_ok h
    cases i with
    | zero =>
      simp only [List.getElem?_cons_zero, Option.some.injEq] at hi
      subst hi
      exact ⟨s, by simp, cv, cv1, hf⟩
    | succ j =>
      simp only [List.getElem?_cons_succ] at hi
      obtain ⟨u, hu, hx⟩ := ih hl hi
      exact ⟨u, by simpa using hu, hx⟩

/-- Each statement after `optimize` is obtained from the statement at the
same index before by the four loop bodies in turn. -/
lemma optimize_getElem {o o1 : CodeOptimizer} (h : optimize o = Except.ok o1) {i : Nat}
    {st : Statement} (hi : o1.statements[i]? = some st) :
    ∃ s, o.statements[i]? = some s ∧ ∃ cvi s1 cvo aliases used,
      foldStatement s cvi = Except.ok (s1, cvo) ∧
      st = flagDead used (substitute aliases (reduceStatement s1 StrMap.empty).1) := by
  obtain ⟨oc, hc, rfl⟩ := optimize_ok h
  obtain ⟨hl, -⟩ := constantFolding_ok hc
  simp only [deadCodeElimination, copyPropagation, strengthReduction_statements,
    List.getElem?_map, Option.map_eq_some'] at hi
  obtain ⟨a, ⟨b, ⟨c, hc1, rfl⟩, rfl⟩, rfl⟩ := hi
  obtain ⟨s, hs, cvi, cvo, hf⟩ := constantFoldingLoop_getElem_out hl hc1
  exact ⟨s, hs, cvi, c, cvo, _, _, hf, rfl⟩

lemma optimize_length {o o1 : CodeOptimizer} (h : optimize o = Except.ok o1) :
    o1.statements.length = o.statements.length := by
  obtain ⟨oc, hc, rfl⟩ := optimize_ok h
  obtain ⟨hl, -⟩ := constantFolding_ok hc
  simp [deadCodeElimination, copyPropagation, strengthReduction_statements,
    constantFoldingLoop_length hl]


/-- The last two loop bodies keep `op`, `operand2` and `isConstant`. -/
lemma flagDead_substitute_frame (used : StrMap Bool) (aliases : StrMap String)
    (r : Statement) :
    (flagDead used (substitute aliases r)).op = r.op ∧
      (flagDead used (substitute aliases r)).operand2 = r.operand2 ∧
      (flagDead used (substitute aliases r)).isConstant = r.isConstant ∧
      (flagDead used (substitute aliases r)).target = r.target := by
  rw [flagDead_frame, substitute_frame]
  exact ⟨rfl, rfl, rfl, rfl⟩

/-- C13 (as amended). After `optimize` on a program built with `addStatement`,
a statement marked constant either has an empty operator and an empty
`operand2` (it was marked by the multiplication-by-zero rule of strength
reduction), or it was folded by `constantFolding` from two operands that pass
the literal test and still has the non-empty operator and the `operand2` it
was written with. -/
theorem C13_constant_statement_shape (lines : List String) (o1 : CodeOptimizer)
    (h : optimize (addStatements lines) = Except.ok o1) (i : Nat) (st : Statement)
    (hi : o1.statements[i]? = some st) (hc : st.isConstant = true) :
    (st.op = "" ∧ st.operand2 = "") ∨
    (∃ l, lines[i]? = some l ∧ isNumber (parseStatement l).operand1 = true ∧
      isNumber (parseStatement l).operand2 = true ∧ st.op ≠ "" ∧
      st.op = (parseStatement l).op ∧ st.operand2 = (parseStatement l).operand2) := by
  obtain ⟨s, hs, cvi, s1, cvo, aliases, used, hf, rfl⟩ := optimize_getElem h hi
  rw [addStatements_statements, List.getElem?_map, Option.map_eq_some'] at hs
  obtain ⟨l, hl, rfl⟩ := hs
  obtain ⟨e1, e2, e3, -⟩ :=
    flagDead_substitute_frame used aliases (reduceStatement s1 StrMap.empty).1
  rw [e3] at hc
  rw [e1, e2]
  rcases reduceStatement_cases s1 StrMap.empty with hr | ⟨hr1, hr2, -, -⟩
  · rw [hr] at hc ⊢
    rcases foldStatement_cases hf with rfl | ⟨hop, hn1, hn2, r, rfl⟩
    · rw [(parseStatement_fresh l).1] at hc; cases hc
    · exact Or.inr ⟨l, hl, hn1, hn2, hop, rfl, rfl⟩
  · exact Or.inl ⟨hr1, hr2⟩

set_option maxRecDepth 100000 in
/-- Witness for C13 on the program `p = 3 + 4`, `q = p * 0`: the first
statement is folded and keeps `+` and `4`. -/
theorem C13_constant_statement_shape_witness :
    (optimize (addStatements ["p = 3 + 4", "q = p * 0"])).toOption.map
        (fun o => o.statements.map (fun st => (st.isConstant, st.op, st.operand2))) =
      some [(true, "+", "4"), (true, "", "")] ∧
    (("+" = "" ∧ "4" = "") ∨
     (∃ l, ["p = 3 + 4", "q = p * 0"][0]? = some l ∧
        isNumber (parseStatement l).operand1 = true ∧
        isNumber (parseStatement l).operand2 = true ∧ "+" ≠ "" ∧
        "+" = (parseStatement l).op ∧ "4" = (parseStatement l).operand2)) :=
  ⟨by decide,
   C13_constant_statement_shape ["p = 3 + 4", "q = p * 0"] _ rfl 0
     { target := "p", operand1 := "3", op := "+", operand2 := "4", isConstant := true,
       constantValue := 7, isDead := true } (by decide) rfl⟩

set_option maxRecDepth 100000 in
/-- Counterexample to C13 as stated: after `optimize` on the program
`p = 3 + 4` the statement is marked constant and still has the operator `+`
and the `operand2` `4`. -/
theorem C13_constant_statement_shape_counterexample :
    (optimize (addStatements ["p = 3 + 4"])).toOption.map (fun o => o.statements) =
      some [{ target := "p", operand1 := "3", op := "+", operand2 := "4",
              isConstant := true, constantValue := 7, isDead := false }] := by
  decide


/-! ## The operator invariant -/

lemma head?_dropWhile_isspace (l : List Char) :
    ∀ c ∈ (l.dropWhile isspace).head?, isspace c = false := by
  induction l with
  | nil => intro c hc; simp at hc
  | cons a l ih =>
    intro c hc
    by_cases ha : isspace a = true
    · rw [List.dropWhile_cons, if_pos ha] at hc
      exact ih c hc
    · rw [List.dropWhile_cons, if_neg ha] at hc
      simp only [List.head?_cons, Option.mem_def, Option.some.injEq] at hc
      subst hc
      simpa using ha

lemma string_mk_ne_empty {l : List Char} (h : l ≠ []) : String.mk l ≠ "" := by
  intro e
  exact h (congrArg String.data e)

/-- A successful extraction starts from a good stream and reads a non-empty
token. -/
lemma extract_success {ss : IStream} {old : String} (h : (extract ss old).1.fail = false) :
    ss.fail = false ∧ (extract ss old).2 ≠ "" := by
  unfold extract at h ⊢
  by_cases hg : (ss.eof || ss.fail) = true
  · rw [if_pos hg] at h; simp at h
  · rw [if_neg hg] at h ⊢
    simp only [Bool.or_eq_true, not_or, Bool.not_eq_true] at hg
    refine ⟨hg.2, ?_⟩
    by_cases hb : ss.buf.dropWhile isspace = []
    · simp only [hb, if_true] at h; simp at h
    · simp only [hb, if_false]
      apply string_mk_ne_empty
      obtain ⟨c, r, hcr⟩ := List.exists_cons_of_ne_nil hb
      have hc : isspace c = false := head?_dropWhile_isspace ss.buf c (by rw [hcr]; simp)
      rw [hcr, List.takeWhile_cons]
      simp [hc]

/-- The parser establishes the invariant: `op` is empty exactly when
`operand2` is. -/
lemma parseStatement_op_iff (line : String) :
    (parseStatement line).op = "" ↔ (parseStatement line).operand2 = "" := by
  simp only [parseStatement]
  split_ifs with h
  · simp only [Bool.not_eq_true'] at h
    obtain ⟨h4, h5⟩ := extract_success h
    obtain ⟨-, h4'⟩ := extract_success h4
    simp only
    constructor
    · intro e; exact absurd e h4'
    · intro e; exact absurd e h5
  · simp

lemma foldStatement_op_iff {stmt st1 : Statement} {cv cv1 : StrMap Int}
    (h : foldStatement stmt cv = Except.ok (st1, cv1))
    (hw : stmt.op = "" ↔ stmt.operand2 = "") : st1.op = "" ↔ st1.operand2 = "" := by
  obtain ⟨-, -, e1, e2, -⟩ := foldStatement_frame h
  rw [e1, e2]; exact hw

lemma reduceStatement_op_iff (stmt : Statement) (cv : StrMap Int)
    (hw : stmt.op = "" ↔ stmt.operand2 = "") :
    (reduceStatement stmt cv).1.op = "" ↔ (reduceStatement stmt cv).1.operand2 = "" := by
  rcases reduceStatement_cases stmt cv with h | ⟨h1, h2, -, -⟩
  · rw [h]; exact hw
  · rw [h1, h2]

lemma substitute_op_iff (aliases : StrMap String) (stmt : Statement)
    (hw : stmt.op = "" ↔ stmt.operand2 = "") :
    (substitute aliases stmt).op = "" ↔ (substitute aliases stmt).operand2 = "" := by
  rw [substitute_frame]; exact hw

lemma flagDead_op_iff (used : StrMap Bool) (stmt : Statement)
    (hw : stmt.op = "" ↔ stmt.operand2 = "") :
    (flagDead used stmt).op = "" ↔ (flagDead used stmt).operand2 = "" := by
  rw [flagDead_frame]; exact hw

lemma constantFolding_op_iff {o o1 : CodeOptimizer} (h : constantFolding o = Except.ok o1)
    (hw : ∀ st ∈ o.statements, (st.op = "" ↔ st.operand2 = "")) :
    ∀ st ∈ o1.statements, (st.op = "" ↔ st.operand2 = "") := by
  intro st hst
  obtain ⟨hl, -⟩ := constantFolding_ok h
  obtain ⟨s, hs, cvi, cvo, hf⟩ := constantFoldingLoop_mem hl hst
  exact foldStatement_op_iff hf (hw s hs)

lemma strengthReduction_op_iff (o : CodeOptimizer)
    (hw : ∀ st ∈ o.statements, (st.op = "" ↔ st.operand2 = "")) :
    ∀ st ∈ (strengthReduction o).statements, (st.op = "" ↔ st.operand2 = "") := by
  intro st hst
  rw [strengthReduction_statements, List.mem_map] at hst
  obtain ⟨s, hs, rfl⟩ := hst
  exact reduceStatement_op_iff s _ (hw s hs)

lemma copyPropagation_op_iff (o : CodeOptimizer)
    (hw : ∀ st ∈ o.statements, (st.op = "" ↔ st.operand2 = "")) :
    ∀ st ∈ (copyPropagation o).statements, (st.op = "" ↔ st.operand2 = "") := by
  intro st hst
  simp only [copyPropagation, List.mem_map] at hst
  obtain ⟨s, hs, rfl⟩ := hst
  exact substitute_op_iff _ s (hw s hs)

lemma deadCodeElimination_op_iff (o : CodeOptimizer)
    (hw : ∀ st ∈ o.statements, (st.op = "" ↔ st.operand2 = "")) :
    ∀ st ∈ (deadCodeElimination o).statements, (st.op = "" ↔ st.operand2 = "") := by
  intro st hst
  simp only [deadCodeElimination, List.mem_map] at hst
  obtain ⟨s, hs, rfl⟩ := hst
  exact flagDead_op_iff _ s (hw s hs)

lemma optimize_op_iff {o o1 : CodeOptimizer} (h : optimize o = Except.ok o1)
    (hw : ∀ st ∈ o.statements, (st.op = "" ↔ st.operand2 = "")) :
    ∀ st ∈ o1.statements, (st.op = "" ↔ st.operand2 = "") := by
  obtain ⟨oc, hc, rfl⟩ := optimize_ok h
  exact deadCodeElimination_op_iff _ (copyPropagation_op_iff _
    (strengthReduction_op_iff _ (constantFolding_op_iff hc hw)))

lemma optimizeTimes_op_iff (n : Nat) {o o1 : CodeOptimizer}
    (h : optimizeTimes n o = Except.ok o1)
    (hw : ∀ st ∈ o.statements, (st.op = "" ↔ st.operand2 = "")) :
    ∀ st ∈ o1.statements, (st.op = "" ↔ st.operand2 = "") := by
  induction n generalizing o with
  | zero => unfold optimizeTimes at h; cases h; exact hw
  | succ n ih =>
    unfold optimizeTimes at h
    split at h
    · cases h
    · rename_i o2 h2
      exact ih h (optimize_op_iff h2 hw)

/-- C14. Data-model invariant on operators. The parser produces statements
whose operator is empty exactly when `operand2` is; each of the four passes
preserves this for all statements of a program; hence after any number of
calls of `optimize` on a program built with `addStatement` from any lines,
every statement has an empty operator if and only if it has an empty
`operand2`. -/
theorem C14_operator_iff_operand2 :
    (∀ line : String, (parseStatement line).op = "" ↔ (parseStatement line).operand2 = "") ∧
    (∀ o o1 : CodeOptimizer, constantFolding o = Except.ok o1 →
      (∀ st ∈ o.statements, (st.op = "" ↔ st.operand2 = "")) →
      ∀ st ∈ o1.statements, (st.op = "" ↔ st.operand2 = "")) ∧
    (∀ o : CodeOptimizer, (∀ st ∈ o.statements, (st.op = "" ↔ st.operand2 = "")) →
      (∀ st ∈ (strengthReduction o).statements, (st.op = "" ↔ st.operand2 = "")) ∧
      (∀ st ∈ (copyPropagation o).statements, (st.op = "" ↔ st.operand2 = "")) ∧
      (∀ st ∈ (deadCodeElimination o).statements, (st.op = "" ↔ st.operand2 = ""))) ∧
    (∀ (lines : List String) (n : Nat) (o1 : CodeOptimizer),
      optimizeTimes n (addStatements lines) = Except.ok o1 →
      ∀ st ∈ o1.statements, (st.op = "" ↔ st.operand2 = "")) := by
  refine ⟨parseStatement_op_iff, fun o o1 h hw => constantFolding_op_iff h hw,
    fun o hw => ⟨strengthReduction_op_iff o hw, copyPropagation_op_iff o hw,
      deadCodeElimination_op_iff o hw⟩, ?_⟩
  intro lines n o1 h
  refine optimizeTimes_op_iff n h ?_
  intro st hst
  rw [addStatements_statements, List.mem_map] at hst
  obtain ⟨l, -, rfl⟩ := hst
  exact parseStatement_op_iff l

set_option maxRecDepth 100000 in
/-- Witness for C14: two calls of `optimize` on `a = x`, `b = a`, `c = b + 0`
return, and the invariant holds for the statements they leave. -/
theorem C14_operator_iff_operand2_witness :
    (optimizeTimes 2 (addStatements ["a = x", "b = a", "c = b + 0"])).toOption.map
        (fun o => o.statements.map (fun st => (st.op, st.operand2))) =
      some [("", ""), ("", ""), ("", "")] ∧
    ∀ st ∈ (deadCodeElimination (copyPropagation (strengthReduction
        (deadCodeElimination (copyPropagation (strengthReduction
          (addStatements ["a = x", "b = a", "c = b + 0"]))))))).statements,
      (st.op = "" ↔ st.operand2 = "") :=
  ⟨by decide,
   C14_operator_iff_operand2.2.2.2 ["a = x", "b = a", "c = b + 0"] 2 _ rfl⟩


/-! ## Scenarios -/

set_option maxRecDepth 100000 in
/-- C15. On the program `a = 5`, `b = 3`, `c = a + 1` one call of `optimize`
returns, flags the statement assigning `b` dead and leaves the statements
assigning `a` and `c` live; the statements are otherwise as written. -/
theorem C15_dead_code_scenario :
    (optimize (addStatements ["a = 5", "b = 3", "c = a + 1"])).toOption.map
        (fun o => o.statements) =
      some [{ target := "a", operand1 := "5", isDead := false },
            { target := "b", operand1 := "3", isDead := true },
            { target := "c", operand1 := "a", op := "+", operand2 := "1", isDead := false }] ∧
    (optimize (addStatements ["a = 5", "b = 3", "c = a + 1"])).toOption.map optimizedCode =
      some ["a = 5", "c = a + 1"] := by
  decide

set_option maxRecDepth 100000 in
/-- C16. `optimize` is not idempotent. On the program `a = x`, `b = a`,
`c = b + d` the first call returns `a = x`, `b = x` (dead), `c = a + d`; a
second call on the same object returns a different statement sequence: it
rewrites the `operand1` of `c` from `a` to `x` and flags `a` dead as well. -/
theorem C16_optimize_not_idempotent :
    ∃ (lines : List String) (o1 o2 : CodeOptimizer),
      optimize (addStatements lines) = Except.ok o1 ∧ optimize o1 = Except.ok o2 ∧
      o2.statements ≠ o1.statements ∧
      o1.statements =
        [{ target := "a", operand1 := "x" },
         { target := "b", operand1 := "x", isDead := true },
         { target := "c", operand1 := "a", op := "+", operand2 := "d" }] ∧
      o2.statements =
        [{ target := "a", operand1 := "x", isDead := true },
         { target := "b", operand1 := "x", isDead := true },
         { target := "c", operand1 := "x", op := "+", operand2 := "d" }] :=
  ⟨["a = x", "b = a", "c = b + d"], _, _, rfl, rfl, by decide, by decide, by decide⟩

/-! ## The summary -/

lemma foldl_countStatement (stmts : List Statement) (acc : Int × Int) :
    stmts.foldl countStatement acc =
      (acc.1 + ((stmts.filter (fun st => st.isDead)).length : Int),
       acc.2 + ((stmts.filter (fun st => st.isConstant)).length : Int)) := by
  induction stmts generalizing acc with
  | nil => simp
  | cons s rest ih =>
    rw [List.foldl_cons, ih]
    unfold countStatement
    cases hd : s.isDead <;> cases hc : s.isConstant <;>
      simp [List.filter_cons, hd, hc, add_assoc, add_comm (1 : Int)]

lemma length_filter_add_not {α : Type} (p : α → Bool) (l : List α) :
    (l.filter p).length + (l.filter (fun a => !p a)).length = l.length := by
  induction l with
  | nil => rfl
  | cons a l ih =>
    cases h : p a <;> simp [List.filter_cons, h] <;> omega

/-- C17. Summary counts are consistent. For every program, the numbers of
`printOptimizationSummary` satisfy: the total is the number of statements,
which is the number marked constant plus the number not marked constant; the
dead count is the number of statements flagged dead; and the final count,
total minus dead, is the number of lines `printOptimizedCode` renders. -/
theorem C17_summary_counts (o : CodeOptimizer) :
    (printOptimizationSummary o).totalStatements = (o.statements.length : Int) ∧
    (printOptimizationSummary o).constantFolded =
      ((o.statements.filter (fun st => st.isConstant)).length : Int) ∧
    (printOptimizationSummary o).deadStatements =
      ((o.statements.filter (fun st => st.isDead)).length : Int) ∧
    (printOptimizationSummary o).totalStatements =
      (printOptimizationSummary o).constantFolded +
        ((o.statements.filter (fun st => !st.isConstant)).length : Int) ∧
    (printOptimizationSummary o).finalStatements =
      (printOptimizationSummary o).totalStatements -
        (printOptimizationSummary o).deadStatements ∧
    (printOptimizationSummary o).finalStatements = ((optimizedCode o).length : Int) := by
  have hc := length_filter_add_not (fun st : Statement => st.isConstant) o.statements
  have hd := length_filter_add_not (fun st : Statement => st.isDead) o.statements
  simp only [printOptimizationSummary, foldl_countStatement, optimizedCode, List.length_map,
    zero_add, true_and]
  constructor <;> omega


/-! ## Frames of the passes -/

/-- When the loop body of `constantFolding` returns a changed statement, both
conversions by `toInt` have succeeded. -/
lemma foldStatement_folded {stmt st1 : Statement} {cv cv1 : StrMap Int}
    (h : foldStatement stmt cv = Except.ok (st1, cv1)) :
    st1 = stmt ∨ (stmt.op ≠ "" ∧ isNumber stmt.operand1 = true ∧
      isNumber stmt.operand2 = true ∧
      ∃ v1 v2 r, toInt stmt.operand1 = Except.ok v1 ∧ toInt stmt.operand2 = Except.ok v2 ∧
        foldResult stmt.op v1 v2 = Except.ok r ∧
        st1 = { stmt with isConstant := true, constantValue := r } ∧
        cv1 = cv.insert stmt.target r) := by
  unfold foldStatement at h
  split_ifs at h with h1 h2
  · cases h; exact Or.inl rfl
  · simp only [Bool.and_eq_true] at h2
    split at h
    · cases h
    · rename_i v1 hv1
      split at h
      · cases h
      · rename_i v2 hv2
        split at h
        · cases h
        · rename_i r hr
          cases h
          exact Or.inr ⟨h1, h2.1, h2.2, v1, v2, r, hv1, hv2, hr, rfl, rfl⟩
  · cases h; exact Or.inl rfl

lemma toInt_bare_minus : toInt "-" = Except.error OptError.invalidArgument := rfl

/-- An operand that passes the literal test and that `toInt` converts is a
documented literal. -/
lemma literalValue_isSome_of_toInt {s : String} {v : Int} (hn : isNumber s = true)
    (ht : toInt s = Except.ok v) : (Spec.literalValue s).isSome = true := by
  rcases (isNumber_iff s).mp hn with h | h
  · exact h
  · subst h; rw [toInt_bare_minus] at ht; cases ht

/-- C24. Constant folding touches only the fold result. Whenever
`constantFolding` returns, it keeps the number and order of the statements
and the map `variableUsed`; the statement at each index keeps `target`,
`operand1`, `op`, `operand2` and `isDead`; and a simple assignment or a
statement with an operand that is not a documented literal is left exactly
as it was. -/
theorem C24_constantFolding_frame (o o1 : CodeOptimizer)
    (h : constantFolding o = Except.ok o1) :
    o1.statements.length = o.statements.length ∧ o1.variableUsed = o.variableUsed ∧
    ∀ (i : Nat) (s : Statement), o.statements[i]? = some s →
      ∃ s1, o1.statements[i]? = some s1 ∧
        s1 = { s with isConstant := s1.isConstant, constantValue := s1.constantValue } ∧
        ((s.op = "" ∨ Spec.literalValue s.operand1 = none ∨
            Spec.literalValue s.operand2 = none) → s1 = s) := by
  obtain ⟨hl, hvu⟩ := constantFolding_ok h
  refine ⟨constantFoldingLoop_length hl, hvu, ?_⟩
  intro i s hi
  obtain ⟨cvi, s1, cv1, rest1, hf, hget, -⟩ := constantFoldingLoop_getElem hl hi
  refine ⟨s1, hget, ?_, ?_⟩
  · rcases foldStatement_folded hf with rfl | ⟨-, -, -, v1, v2, r, -, -, -, rfl, -⟩ <;> rfl
  · intro hcond
    rcases foldStatement_folded hf with rfl | ⟨hop, hn1, hn2, v1, v2, r, ht1, ht2, -, -, -⟩
    · rfl
    · have h1 := literalValue_isSome_of_toInt hn1 ht1
      have h2 := literalValue_isSome_of_toInt hn2 ht2
      rcases hcond with hc | hc | hc
      · exact absurd hc hop
      · rw [hc] at h1; cases h1
      · rw [hc] at h2; cases h2

set_option maxRecDepth 100000 in
/-- Witness for C24 on the program `p = 3 + 4`, `q = p + 1`. -/
theorem C24_constantFolding_frame_witness :
    (constantFolding (addStatements ["p = 3 + 4", "q = p + 1"])).toOption.map
        (fun o => o.statements) =
      some [{ target := "p", operand1 := "3", op := "+", operand2 := "4",
              isConstant := true, constantValue := 7 },
            { target := "q", operand1 := "p", op := "+", operand2 := "1" }] ∧
    [({ target := "p", operand1 := "3", op := "+", operand2 := "4",
        isConstant := true, constantValue := 7 } : Statement),
     { target := "q", operand1 := "p", op := "+", operand2 := "1" }].length =
      (addStatements ["p = 3 + 4", "q = p + 1"]).statements.length :=
  ⟨by decide,
   (C24_constantFolding_frame (addStatements ["p = 3 + 4", "q = p + 1"])
     { statements := [{ target := "p", operand1 := "3", op := "+", operand2 := "4",
                        isConstant := true, constantValue := 7 },
                      { target := "q", operand1 := "p", op := "+", operand2 := "1" }],
       constantValues := (StrMap.empty : StrMap Int).insert "p" 7 } rfl).1⟩


/-- The loop body of `strengthReduction` returns its arguments unchanged on a
constant statement, on a simple assignment and on a statement that matches no
pattern of the table. -/
lemma reduceStatement_unchanged (stmt : Statement) (cv : StrMap Int)
    (h : stmt.isConstant = true ∨ stmt.op = "" ∨
      ¬ ((stmt.op = "*" ∧ (stmt.operand2 = "1" ∨ stmt.operand1 = "1" ∨
            stmt.operand2 = "0" ∨ stmt.operand1 = "0")) ∨
         (stmt.op = "+" ∧ (stmt.operand2 = "0" ∨ stmt.operand1 = "0")) ∨
         (stmt.op = "-" ∧ stmt.operand2 = "0") ∨
         (stmt.op = "/" ∧ stmt.operand2 = "1"))) :
    reduceStatement stmt cv = (stmt, cv) := by
  unfold reduceStatement
  by_cases h0 : stmt.op = "" ∨ stmt.isConstant = true
  · rw [if_pos h0]
  · rw [if_neg h0]
    have hm : ¬ ((stmt.op = "*" ∧ (stmt.operand2 = "1" ∨ stmt.operand1 = "1" ∨
            stmt.operand2 = "0" ∨ stmt.operand1 = "0")) ∨
         (stmt.op = "+" ∧ (stmt.operand2 = "0" ∨ stmt.operand1 = "0")) ∨
         (stmt.op = "-" ∧ stmt.operand2 = "0") ∨
         (stmt.op = "/" ∧ stmt.operand2 = "1")) := by
      rcases h with h | h | h
      · exact absurd (Or.inr h) h0
      · exact absurd (Or.inl h) h0
      · exact h
    simp only [not_or, not_and] at hm
    obtain ⟨hmul, hadd, hsub, hdiv⟩ := hm
    by_cases e1 : stmt.op = "*"
    · obtain ⟨a, b, c, d⟩ := hmul e1
      simp [e1, a, b, c, d]
    · by_cases e2 : stmt.op = "+"
      · obtain ⟨a, b⟩ := hadd e2
        simp [e2, a, b]
      · by_cases e3 : stmt.op = "-"
        · simp [e3, hsub e3]
        · by_cases e4 : stmt.op = "/"
          · simp [e4, hdiv e4]
          · simp [e1, e2, e3, e4]

/-- C25. Strength reduction rewrites only statements that match the table. The
loop body, and hence the pass at every index, leaves unchanged every
statement that is already constant, every simple assignment and every
statement with an operator that matches none of `_ * 1`, `1 * _`, `_ * 0`,
`0 * _`, `_ + 0`, `0 + _`, `_ - 0`, `_ / 1`; in particular `0 - x`, `1 / x`,
`0 / x` and `x - x` with `x` not a literal are not rewritten. -/
theorem C25_strengthReduction_frame :
    (∀ (o : CodeOptimizer) (i : Nat) (stmt : Statement), o.statements[i]? = some stmt →
      (stmt.isConstant = true ∨ stmt.op = "" ∨
        ¬ ((stmt.op = "*" ∧ (stmt.operand2 = "1" ∨ stmt.operand1 = "1" ∨
              stmt.operand2 = "0" ∨ stmt.operand1 = "0")) ∨
           (stmt.op = "+" ∧ (stmt.operand2 = "0" ∨ stmt.operand1 = "0")) ∨
           (stmt.op = "-" ∧ stmt.operand2 = "0") ∨
           (stmt.op = "/" ∧ stmt.operand2 = "1"))) →
      (strengthReduction o).statements[i]? = some stmt) ∧
    (∀ (t x : String) (cv : StrMap Int), Spec.literalValue x = none →
      reduceStatement { target := t, operand1 := "0", op := "-", operand2 := x } cv =
        ({ target := t, operand1 := "0", op := "-", operand2 := x }, cv) ∧
      reduceStatement { target := t, operand1 := "1", op := "/", operand2 := x } cv =
        ({ target := t, operand1 := "1", op := "/", operand2 := x }, cv) ∧
      reduceStatement { target := t, operand1 := "0", op := "/", operand2 := x } cv =
        ({ target := t, operand1 := "0", op := "/", operand2 := x }, cv) ∧
      reduceStatement { target := t, operand1 := x, op := "-", operand2 := x } cv =
        ({ target := t, operand1 := x, op := "-", operand2 := x }, cv)) := by
  constructor
  · intro o i stmt hi hcond
    rw [strengthReduction_statements, List.getElem?_map, hi, Option.map_some',
      reduceStatement_unchanged stmt _ hcond]
  · intro t x cv hx
    have hx0 : x ≠ "0" := by rintro rfl; rw [literalValue_zero] at hx; cases hx
    have hx1 : x ≠ "1" := by rintro rfl; rw [literalValue_one] at hx; cases hx
    refine ⟨?_, ?_, ?_, ?_⟩ <;> apply reduceStatement_unchanged <;> right <;> right <;>
      simp [hx0, hx1]

set_option maxRecDepth 100000 in
/-- Witness for C25: `d = 0 - x` is left as it is. -/
theorem C25_strengthReduction_frame_witness :
    (strengthReduction (addStatements ["d = 0 - x"])).statements[0]? =
      some { target := "d", operand1 := "0", op := "-", operand2 := "x" } :=
  C25_strengthReduction_frame.1 (addStatements ["d = 0 - x"]) 0
    { target := "d", operand1 := "0", op := "-", operand2 := "x" } (by decide) (by decide)

/-! ## Dead-code elimination and the prior contents of `variableUsed` -/

/-- C27. Dead-code elimination rebuilds its usage information from scratch.
For every program and any two prior contents of `variableUsed`, the pass
produces the same statements, hence the same `isDead` flag for every
statement. -/
theorem C27_deadCodeElimination_ignores_prior (stmts : List Statement) (cv : StrMap Int)
    (vu1 vu2 : StrMap Bool) :
    (deadCodeElimination
        { statements := stmts, constantValues := cv, variableUsed := vu1 }).statements =
      (deadCodeElimination
        { statements := stmts, constantValues := cv, variableUsed := vu2 }).statements := by
  simp only [deadCodeElimination]
  apply List.map_congr_left
  intro st hst
  have h1 := usageMap_target vu1 hst
  have h2 := usageMap_target vu2 hst
  unfold flagDead
  rw [h1, h2]


/-! ## Idempotence of strength reduction -/

lemma reduceStatement_zero {stmt : Statement} (cv : StrMap Int) (hz : zeroRewrite stmt) :
    (reduceStatement stmt cv).1 =
      { stmt with operand1 := "0", op := "", operand2 := "", isConstant := true,
                  constantValue := 0 } := by
  obtain ⟨hop, hc, h2, h1, h0⟩ := hz
  have hne : stmt.op ≠ "" := by rw [hop]; decide
  simp [reduceStatement, hne, hc, hop, h2, h1, h0]

/-- No statement produced by the loop body of `strengthReduction` takes the
multiplication-by-zero branch again. -/
lemma not_zeroRewrite_reduceStatement (stmt : Statement) (cv : StrMap Int) :
    ¬ zeroRewrite (reduceStatement stmt cv).1 := by
  intro hz
  rcases reduceStatement_cases stmt cv with h | ⟨h, -, -, -⟩
  · rw [h] at hz
    have h2 := reduceStatement_zero cv hz
    rw [h] at h2
    have h3 := congrArg Statement.op h2
    simp only at h3
    rw [hz.1] at h3
    revert h3; decide
  · rw [hz.1] at h
    revert h; decide

/-- The loop body of `strengthReduction` applied to its own result changes
nothing. -/
lemma reduceStatement_idem (stmt : Statement) (cv cv0 : StrMap Int) :
    reduceStatement (reduceStatement stmt cv).1 cv0 = ((reduceStatement stmt cv).1, cv0) := by
  have hsnd := reduceStatement_snd (reduceStatement stmt cv).1 cv0
  rw [if_neg (not_zeroRewrite_reduceStatement stmt cv)] at hsnd
  have hfst : (reduceStatement (reduceStatement stmt cv).1 cv0).1 = (reduceStatement stmt cv).1 := by
    rcases reduceStatement_cases stmt cv with h | ⟨h, -, -, -⟩
    · rw [h, reduceStatement_fst stmt cv0 cv, h]
    · rw [reduceStatement_unchanged _ _ (Or.inr (Or.inl h))]
  exact Prod.ext hfst hsnd

/-- C28. Strength reduction is idempotent as a pass: applied twice it yields
the same statements, the same `constantValues` and the same `variableUsed` as
applied once. -/
theorem C28_strengthReduction_idempotent (o : CodeOptimizer) :
    (strengthReduction (strengthReduction o)).statements = (strengthReduction o).statements ∧
    (strengthReduction (strengthReduction o)).constantValues =
      (strengthReduction o).constantValues ∧
    (strengthReduction (strengthReduction o)).variableUsed =
      (strengthReduction o).variableUsed := by
  refine ⟨?_, ?_, rfl⟩
  · rw [strengthReduction_statements (strengthReduction o), strengthReduction_statements o,
      List.map_map]
    apply List.map_congr_left
    intro s _
    simp only [Function.comp]
    rw [reduceStatement_idem]
  · funext k
    show (strengthReductionLoop (strengthReduction o).statements
      (strengthReduction o).constantValues).2 k = _
    rw [strengthReductionLoop_snd, if_neg]
    rintro ⟨s, hs, hz, -⟩
    rw [strengthReduction_statements, List.mem_map] at hs
    obtain ⟨u, -, rfl⟩ := hs
    exact not_zeroRewrite_reduceStatement u _ hz

/-! ## `optimize` keeps the statements in place -/

lemma constantFoldingLoop_map_target {stmts out : List Statement} {cv cv2 : StrMap Int}
    (h : constantFoldingLoop stmts cv = Except.ok (out, cv2)) :
    out.map Statement.target = stmts.map Statement.target := by
  induction stmts generalizing cv out with
  | nil => unfold constantFoldingLoop at h; cases h; rfl
  | cons s rest ih =>
    obtain ⟨st1, cv1, rest1, hf, hl, rfl⟩ := constantFoldingLoop_cons_ok h
    simp [ih hl, (foldStatement_frame hf).1]

lemma optimize_map_target {o o1 : CodeOptimizer} (h : optimize o = Except.ok o1) :
    o1.statements.map Statement.target = o.statements.map Statement.target := by
  obtain ⟨oc, hc, rfl⟩ := optimize_ok h
  obtain ⟨hl, -⟩ := constantFolding_ok hc
  rw [← constantFoldingLoop_map_target hl]
  simp only [deadCodeElimination, copyPropagation, strengthReduction_statements, List.map_map]
  apply List.map_congr_left
  intro s _
  simp only [Function.comp]
  rw [(flagDead_substitute_frame _ _ _).2.2.2, (reduceStatement_frame s _).1]

/-- C29. `optimize` never adds, removes, reorders or renames statements.
Whenever it returns, the statement sequence has the same length as before
and the statement at each index has the same target as the statement at
that index before; dead statements are still in the sequence. -/
theorem C29_optimize_keeps_targets (o o1 : CodeOptimizer) (h : optimize o = Except.ok o1) :
    o1.statements.length = o.statements.length ∧
    o1.statements.map Statement.target = o.statements.map Statement.target ∧
    ∀ (i : Nat) (s : Statement), o.statements[i]? = some s →
      ∃ s1, o1.statements[i]? = some s1 ∧ s1.target = s.target := by
  have hlen := optimize_length h
  have hmap := optimize_map_target h
  refine ⟨hlen, hmap, ?_⟩
  intro i s hi
  have hi2 : (o.statements.map Statement.target)[i]? = some s.target := by
    rw [List.getElem?_map, hi]; rfl
  rw [← hmap, List.getElem?_map, Option.map_eq_some'] at hi2
  exact hi2

set_option maxRecDepth 100000 in
/-- Witness for C29 on the program of `main`, where `y` is flagged dead. -/
theorem C29_optimize_keeps_targets_witness :
    (optimize (addStatements inputCode)).toOption.map
        (fun o => o.statements.map (fun st => (st.target, st.isDead))) =
      some [("x", false), ("y", true), ("z", false)] ∧
    (deadCodeElimination (copyPropagation (strengthReduction
      { statements := [{ target := "x", operand1 := "2", op := "*", operand2 := "8",
                         isConstant := true, constantValue := 16 },
                       { target := "y", operand1 := "x", op := "*", operand2 := "1" },
                       { target := "z", operand1 := "y", op := "+", operand2 := "0" }],
        constantValues := (StrMap.empty : StrMap Int).insert "x" 16 }))).statements.length =
      (addStatements inputCode).statements.length :=
  ⟨by decide, (C29_optimize_keeps_targets (addStatements inputCode) _ rfl).1⟩


/-! ## Which statements end up constant -/

lemma foldStatement_isConstant_iff {stmt st1 : Statement} {cv cv1 : StrMap Int}
    (h : foldStatement stmt cv = Except.ok (st1, cv1)) (hc : stmt.isConstant = false) :
    st1.isConstant = true ↔
      (stmt.op ≠ "" ∧ (Spec.literalValue stmt.operand1).isSome = true ∧
        (Spec.literalValue stmt.operand2).isSome = true) := by
  rcases foldStatement_folded h with rfl | ⟨hop, hn1, hn2, v1, v2, r, hv1, hv2, -, rfl, -⟩
  · rw [hc]
    constructor
    · intro hf; cases hf
    · rintro ⟨hop, h1, h2⟩
      exfalso
      have hn1 : isNumber st1.operand1 = true := (isNumber_iff _).mpr (Or.inl h1)
      have hn2 : isNumber st1.operand2 = true := (isNumber_iff _).mpr (Or.inl h2)
      unfold foldStatement at h
      rw [if_neg hop, hn1, hn2] at h
      simp only [Bool.and_self, if_true] at h
      split at h
      · cases h
      · split at h
        · cases h
        · split at h
          · cases h
          · simp only [Except.ok.injEq, Prod.mk.injEq] at h
            have hk := congrArg Statement.isConstant h.1
            rw [hc] at hk
            cases hk
  · exact ⟨fun _ => ⟨hop, literalValue_isSome_of_toInt hn1 hv1,
      literalValue_isSome_of_toInt hn2 hv2⟩, fun _ => rfl⟩

lemma reduceStatement_isConstant (stmt : Statement) (cv : StrMap Int) :
    (reduceStatement stmt cv).1.isConstant = true ↔
      (stmt.isConstant = true ∨ zeroRewrite stmt) := by
  by_cases hz : zeroRewrite stmt
  · rw [reduceStatement_zero cv hz]
    exact ⟨fun _ => Or.inr hz, fun _ => rfl⟩
  · by_cases hu : stmt.isConstant = true
    · rw [reduceStatement_unchanged stmt cv (Or.inl hu)]
      exact ⟨fun h => Or.inl h, fun _ => hu⟩
    · have hcf : stmt.isConstant = false := by
        cases hcc : stmt.isConstant
        · rfl
        · exact absurd hcc hu
      constructor
      · intro h
        exfalso
        unfold zeroRewrite at hz
        unfold reduceStatement at h
        split_ifs at h <;> simp_all
      · rintro (h | h)
        · exact absurd h hu
        · exact absurd h hz

/-- C23. Folding does not cascade. For a program of freshly added statements
on which `optimize` returns, the statement at an index is marked constant
afterwards if and only if, as written, it has an operator and either both
operands are numeric literals or the operator is `*` and one operand is the
text `0`. In `x = 2 * 8; y = x + 1` the statement for y is not constant. -/
theorem C23_folding_does_not_cascade (lines : List String) (o1 : CodeOptimizer)
    (h : optimize (addStatements lines) = Except.ok o1) :
    (∀ (i : Nat) (l : String) (st : Statement),
      lines[i]? = some l → o1.statements[i]? = some st →
      (st.isConstant = true ↔
        ((parseStatement l).op ≠ "" ∧
          (((Spec.literalValue (parseStatement l).operand1).isSome = true ∧
            (Spec.literalValue (parseStatement l).operand2).isSome = true) ∨
           ((parseStatement l).op = "*" ∧
            ((parseStatement l).operand1 = "0" ∨ (parseStatement l).operand2 = "0")))))) ∧
    (optimize (addStatements ["x = 2 * 8", "y = x + 1"])).toOption.map
        (fun o => o.statements.map (fun st => (st.target, st.isConstant))) =
      some [("x", true), ("y", false)] := by
  refine ⟨?_, by decide⟩
  intro i l st hl hi
  obtain ⟨s, hs, cvi, s1, cvo, aliases, used, hf, rfl⟩ := optimize_getElem h hi
  rw [addStatements_statements, List.getElem?_map, hl] at hs
  simp only [Option.map_some', Option.some.injEq] at hs
  subst hs
  rw [(flagDead_substitute_frame used aliases _).2.2.1, reduceStatement_isConstant,
    foldStatement_isConstant_iff hf (parseStatement_fresh l).1]
  obtain ⟨-, e1, e2, e3, -⟩ := foldStatement_frame hf
  have hs1 := foldStatement_isConstant_iff hf (parseStatement_fresh l).1
  unfold zeroRewrite
  rw [e1, e2, e3]
  have l0 : (Spec.literalValue "0").isSome = true := by decide
  have l1 : (Spec.literalValue "1").isSome = true := by decide
  constructor
  · rintro (⟨hop, h1, h2⟩ | ⟨hop, -, -, -, hz⟩)
    · exact ⟨hop, Or.inl ⟨h1, h2⟩⟩
    · refine ⟨by rw [hop]; decide, Or.inr ⟨hop, hz.symm⟩⟩
  · rintro ⟨hop, ⟨h1, h2⟩ | ⟨hm, hz⟩⟩
    · exact Or.inl ⟨hop, h1, h2⟩
    · by_cases hL : (Spec.literalValue (parseStatement l).operand1).isSome = true ∧
          (Spec.literalValue (parseStatement l).operand2).isSome = true
      · exact Or.inl ⟨hop, hL⟩
      · right
        have hcf : s1.isConstant = false := by
          cases hcc : s1.isConstant
          · rfl
          · exact absurd (hs1.mp hcc).2 hL
        refine ⟨hm, hcf, ?_, ?_, hz.symm⟩
        · intro h2
          rcases hz with hz | hz
          · exact hL ⟨by rw [hz]; exact l0, by rw [h2]; exact l1⟩
          · rw [h2] at hz; revert hz; decide
        · intro h2
          rcases hz with hz | hz
          · rw [h2] at hz; revert hz; decide
          · exact hL ⟨by rw [h2]; exact l1, by rw [hz]; exact l0⟩

set_option maxRecDepth 100000 in
/-- Witness for C23 on `a = 0 * k`, `b = a + 1`: the first statement is
constant through the multiplication-by-zero rule, the second is not. -/
theorem C23_folding_does_not_cascade_witness :
    (optimize (addStatements ["a = 0 * k", "b = a + 1"])).toOption.map
        (fun o => o.statements.map (fun st => (st.target, st.isConstant))) =
      some [("a", true), ("b", false)] ∧
    ∀ (i : Nat) (l : String) (st : Statement),
      ["a = 0 * k", "b = a + 1"][i]? = some l →
      (deadCodeElimination (copyPropagation (strengthReduction
        { statements := [parseStatement "a = 0 * k", parseStatement "b = a + 1"] }))).statements[i]?
        = some st →
      (st.isConstant = true ↔
        ((parseStatement l).op ≠ "" ∧
          (((Spec.literalValue (parseStatement l).operand1).isSome = true ∧
            (Spec.literalValue (parseStatement l).operand2).isSome = true) ∨
           ((parseStatement l).op = "*" ∧
            ((parseStatement l).operand1 = "0" ∨ (parseStatement l).operand2 = "0"))))) :=
  ⟨by decide, (C23_folding_does_not_cascade ["a = 0 * k", "b = a + 1"] _ rfl).1⟩


/-! ## Copy propagation after a reassignment -/

set_option maxRecDepth 100000 in
/-- C22. Copy propagation is flow-insensitive to the point of changing
results. In `x = 1`, `a = x`, `x = 5`, `c = a + 1` every variable is assigned
before it is read; `optimize` returns the code `x = 1`, `x = 5`, `c = x + 1`,
the alias recorded for `a` being substituted after its source `x` has been
redefined; from every initial environment the original program ends with
`c = 2` and the optimized code with `c = 6`. -/
theorem C22_copyPropagation_changes_result :
    Spec.AssignedBeforeRead [] (addStatements Spec.reassignedCode).statements ∧
    (addStatements Spec.reassignedCode).statements.getLast?.map Statement.target = some "c" ∧
    ∃ o1, optimize (addStatements Spec.reassignedCode) = Except.ok o1 ∧
      optimizedCode o1 = ["x = 1", "x = 5", "c = x + 1"] ∧
      buildAliases (addStatements Spec.reassignedCode).statements "a" = some "x" ∧
      ∀ env : String → Int,
        Spec.exec env (addStatements Spec.reassignedCode).statements "c" = 2 ∧
        Spec.execRendered env o1.statements "c" = 6 ∧
        Spec.execRendered env o1.statements "c" ≠
          Spec.exec env (addStatements Spec.reassignedCode).statements "c" := by
  refine ⟨by decide, by decide, deadCodeElimination (copyPropagation (strengthReduction
    { statements := (addStatements Spec.reassignedCode).statements })), rfl, by decide,
    by decide, ?_⟩
  intro env
  have hp : (addStatements Spec.reassignedCode).statements =
      [{ target := "x", operand1 := "1", op := "", operand2 := "" },
       { target := "a", operand1 := "x", op := "", operand2 := "" },
       { target := "x", operand1 := "5", op := "", operand2 := "" },
       { target := "c", operand1 := "a", op := "+", operand2 := "1" }] := by decide
  have hq : (deadCodeElimination (copyPropagation (strengthReduction
      { statements := (addStatements Spec.reassignedCode).statements }))).statements.filter
        (fun stmt => !stmt.isDead) =
      [{ target := "x", operand1 := "1", op := "", operand2 := "" },
       { target := "x", operand1 := "5", op := "", operand2 := "" },
       { target := "c", operand1 := "x", op := "+", operand2 := "1" }] := by decide
  have l1 : Spec.literalValue "1" = some 1 := by decide
  have l5 : Spec.literalValue "5" = some 5 := by decide
  have lx : Spec.literalValue "x" = none := by decide
  have la : Spec.literalValue "a" = none := by decide
  have e1 : Spec.exec env (addStatements Spec.reassignedCode).statements "c" = 2 := by
    rw [hp]
    simp [Spec.exec, Spec.assign, Spec.hostValue, Spec.operandValue, Spec.hostOp, Spec.applyOp,
      l1, l5, lx, la, wrapInt]
  have e2 : Spec.execRendered env (deadCodeElimination (copyPropagation (strengthReduction
      { statements := (addStatements Spec.reassignedCode).statements }))).statements "c" = 6 := by
    unfold Spec.execRendered
    rw [hq]
    simp [Spec.exec, Spec.assign, Spec.hostValue, Spec.operandValue, Spec.hostOp, Spec.applyOp,
      l1, l5, lx, la, wrapInt]
  refine ⟨e1, e2, ?_⟩
  rw [e1, e2]
  decide


/-! ## Execution of straight-line code -/

lemma exec_cons (env : String → Int) (s : Statement) (l : List Statement) :
    Spec.exec env (s :: l) = Spec.exec (Spec.assign env s.target (Spec.hostValue env s)) l :=
  rfl

lemma exec_append (env : String → Int) (l1 l2 : List Statement) :
    Spec.exec env (l1 ++ l2) = Spec.exec (Spec.exec env l1) l2 := by
  unfold Spec.exec
  rw [List.foldl_append]

/-- Statements that do not assign `x` leave its value alone. -/
lemma exec_not_target (env : String → Int) (l : List Statement) (x : String)
    (h : x ∉ l.map Statement.target) : Spec.exec env l x = env x := by
  induction l generalizing env with
  | nil => rfl
  | cons s rest ih =>
    rw [List.map_cons, List.mem_cons, not_or] at h
    rw [exec_cons, ih _ h.2]
    simp [Spec.assign, h.1]

lemma isLiteral_iff (x : String) :
    Spec.IsLiteral x ↔ ∃ v, Spec.literalValue x = some v ∧ Spec.inIntRange v := by
  unfold Spec.IsLiteral
  cases h : Spec.literalValue x with
  | none => simp
  | some v => simp

lemma literalValue_of_isName {x : String} (h : Spec.IsName x) : Spec.literalValue x = none := by
  cases hv : Spec.literalValue x with
  | none => rfl
  | some v =>
    have := isNumber_of_literalValue x v hv
    rw [h.2] at this
    cases this

lemma isNumber_of_isLiteral {x : String} (h : Spec.IsLiteral x) : isNumber x = true := by
  obtain ⟨v, hv, -⟩ := (isLiteral_iff x).mp h
  exact isNumber_of_literalValue x v hv

lemma not_isName_of_isLiteral {x : String} (h : Spec.IsLiteral x) : ¬ Spec.IsName x := by
  intro hn
  have := isNumber_of_isLiteral h
  rw [hn.2] at this
  cases this

lemma operandValue_of_isName (env : String → Int) {x : String} (h : Spec.IsName x) :
    Spec.operandValue env x = env x := by
  unfold Spec.operandValue
  rw [literalValue_of_isName h]

lemma wrapInt_inIntRange (z : Int) : Spec.inIntRange (wrapInt z) := by
  unfold Spec.inIntRange wrapInt INT_MIN INT_MAX
  constructor <;> omega

/-- An operand that is a valid literal or a variable name has a value in the
range of `int` when the environment has. -/
lemma operandValue_inIntRange (env : String → Int) (henv : ∀ x, Spec.inIntRange (env x))
    {x : String} (h : Spec.IsLiteral x ∨ Spec.IsName x) :
    Spec.inIntRange (Spec.operandValue env x) := by
  rcases h with h | h
  · obtain ⟨v, hv, hr⟩ := (isLiteral_iff x).mp h
    unfold Spec.operandValue
    rw [hv]
    exact hr
  · rw [operandValue_of_isName env h]
    exact henv x

lemma foldResult_eq_hostOp {op : String} {a b r : Int}
    (h : foldResult op a b = Except.ok r) : r = Spec.hostOp op a b := by
  unfold foldResult at h
  unfold Spec.hostOp Spec.applyOp
  split_ifs at h ⊢ <;> (cases h; rfl)

/-- The loop body of `constantFolding` keeps the value a statement assigns. -/
lemma foldStatement_hostValue (env : String → Int) {stmt st1 : Statement}
    {cv cv1 : StrMap Int} (h : foldStatement stmt cv = Except.ok (st1, cv1))
    (hc : stmt.isConstant = false)
    (h1 : Spec.IsLiteral stmt.operand1 ∨ Spec.IsName stmt.operand1)
    (h2 : stmt.op ≠ "" → Spec.IsLiteral stmt.operand2 ∨ Spec.IsName stmt.operand2) :
    Spec.hostValue env st1 = Spec.hostValue env stmt := by
  rcases foldStatement_folded h with rfl | ⟨hop, hn1, hn2, v1, v2, r, hv1, hv2, hr, rfl, -⟩
  · rfl
  · have key : ∀ x v, isNumber x = true → toInt x = Except.ok v →
        (Spec.IsLiteral x ∨ Spec.IsName x) → Spec.operandValue env x = v := by
      intro x v hn ht hx
      rcases hx with hx | hx
      · obtain ⟨a, ha, hra⟩ := (isLiteral_iff x).mp hx
        have := toInt_of_literalValue x a ha hra
        rw [ht] at this
        cases this
        unfold Spec.operandValue
        rw [ha]
      · rw [hx.2] at hn; cases hn
    unfold Spec.hostValue
    simp only [if_true]
    rw [hc, if_neg (by decide), if_neg hop, key _ v1 hn1 hv1 h1, key _ v2 hn2 hv2 (h2 hop)]
    exact foldResult_eq_hostOp hr

/-- What the loop body of `strengthReduction` can do to a statement. -/
lemma reduceStatement_shape (stmt : Statement) (cv : StrMap Int) :
    (reduceStatement stmt cv).1 = stmt ∨
      (stmt.op ≠ "" ∧ stmt.isConstant = false ∧ (reduceStatement stmt cv).1.op = "" ∧
        (reduceStatement stmt cv).1.operand2 = "" ∧
        (((reduceStatement stmt cv).1.isConstant = false ∧
            ((reduceStatement stmt cv).1.operand1 = stmt.operand1 ∨
             (reduceStatement stmt cv).1.operand1 = stmt.operand2)) ∨
         ((reduceStatement stmt cv).1.isConstant = true ∧
            (reduceStatement stmt cv).1.constantValue = 0 ∧
            (reduceStatement stmt cv).1.operand1 = "0"))) := by
  by_cases h0 : stmt.op = "" ∨ stmt.isConstant = true
  · left
    rw [reduceStatement_unchanged stmt cv (by tauto)]
  · have hop : stmt.op ≠ "" := fun h => h0 (Or.inl h)
    have hc : stmt.isConstant = false := by
      cases hcc : stmt.isConstant
      · rfl
      · exact absurd (Or.inr hcc) h0
    unfold reduceStatement
    rw [if_neg h0]
    split_ifs <;> simp_all

/-- The loop body of `strengthReduction` keeps the value a statement assigns
in machine arithmetic, provided the operands have values in the range of
`int`. -/
lemma reduceStatement_hostValue (env : String → Int) (stmt : Statement) (cv : StrMap Int)
    (hv1 : Spec.inIntRange (Spec.operandValue env stmt.operand1))
    (hv2 : stmt.op ≠ "" → Spec.inIntRange (Spec.operandValue env stmt.operand2)) :
    Spec.hostValue env (reduceStatement stmt cv).1 = Spec.hostValue env stmt := by
  rcases reduceStatement_shape stmt cv with h | ⟨hop, hc, ho, -, hcases⟩
  · rw [h]
  · have hval := reduceStatement_value env stmt cv
    have hl : Spec.hostValue env (reduceStatement stmt cv).1 =
        Spec.stmtValue env (reduceStatement stmt cv).1 := by
      unfold Spec.hostValue Spec.stmtValue
      rw [if_pos ho, if_pos ho]
    have hr : Spec.hostValue env stmt = wrapInt (Spec.stmtValue env stmt) := by
      unfold Spec.hostValue Spec.stmtValue Spec.hostOp
      rw [hc, if_neg (by decide), if_neg hop, if_neg (by decide), if_neg hop]
    rw [hl, hr, ← hval]
    symm
    apply wrapInt_of_inIntRange
    unfold Spec.stmtValue
    rcases hcases with ⟨hk, h1 | h1⟩ | ⟨hk, hz, -⟩
    · rw [hk, if_neg (by decide), if_pos ho, h1]; exact hv1
    · rw [hk, if_neg (by decide), if_pos ho, h1]; exact hv2 hop
    · rw [hk, if_pos rfl, hz]; decide

/-- A statement that is not marked constant assigns a value in the range of
`int`. -/
lemma hostValue_inIntRange (env : String → Int) (henv : ∀ x, Spec.inIntRange (env x))
    (stmt : Statement) (hc : stmt.isConstant = false)
    (h1 : Spec.IsLiteral stmt.operand1 ∨ Spec.IsName stmt.operand1) :
    Spec.inIntRange (Spec.hostValue env stmt) := by
  unfold Spec.hostValue
  rw [hc, if_neg (by decide)]
  split_ifs
  · exact operandValue_inIntRange env henv h1
  · exact wrapInt_inIntRange _

lemma assign_inIntRange (env : String → Int) (henv : ∀ x, Spec.inIntRange (env x))
    (k : String) (v : Int) (hv : Spec.inIntRange v) :
    ∀ x, Spec.inIntRange (Spec.assign env k v x) := by
  intro x
  unfold Spec.assign
  split_ifs
  · exact hv
  · exact henv x

/-- Constant folding followed by strength reduction does not change what the
program computes. -/
lemma exec_fold_reduce {l out : List Statement} {cv cv2 : StrMap Int}
    (h : constantFoldingLoop l cv = Except.ok (out, cv2))
    (hl : ∀ s ∈ l, s.isConstant = false ∧
      (Spec.IsLiteral s.operand1 ∨ Spec.IsName s.operand1) ∧
      (s.op ≠ "" → Spec.IsLiteral s.operand2 ∨ Spec.IsName s.operand2))
    (env : String → Int) (henv : ∀ x, Spec.inIntRange (env x)) :
    Spec.exec env (out.map (fun s => (reduceStatement s StrMap.empty).1)) = Spec.exec env l := by
  induction l generalizing cv out env with
  | nil => unfold constantFoldingLoop at h; cases h; rfl
  | cons s rest ih =>
    obtain ⟨st1, cv1, rest1, hf, hrest, rfl⟩ := constantFoldingLoop_cons_ok h
    obtain ⟨hc, h1, h2⟩ := hl s (List.mem_cons_self _ _)
    obtain ⟨f1, f2, f3, f4, -⟩ := foldStatement_frame hf
    have hval : Spec.hostValue env (reduceStatement st1 StrMap.empty).1 =
        Spec.hostValue env s := by
      rw [reduceStatement_hostValue, foldStatement_hostValue env hf hc h1 h2]
      · rw [f2]; exact operandValue_inIntRange env henv h1
      · intro hop
        rw [f4]
        exact operandValue_inIntRange env henv (h2 (by rw [← f3]; exact hop))
    rw [List.map_cons, exec_cons, exec_cons, hval, (reduceStatement_frame st1 _).1, f1]
    exact ih hrest (fun u hu => hl u (List.mem_cons_of_mem _ hu)) _
      (assign_inIntRange env henv _ _ (hostValue_inIntRange env henv s hc h1))

/-! ## Constant folding returns on admissible programs -/

lemma foldStatement_total (stmt : Statement) (cv : StrMap Int)
    (h1 : Spec.IsLiteral stmt.operand1 ∨ Spec.IsName stmt.operand1)
    (h2 : stmt.op ≠ "" → Spec.IsLiteral stmt.operand2 ∨ Spec.IsName stmt.operand2)
    (hdiv : ¬ (stmt.op = "/" ∧ Spec.IsLiteral stmt.operand1 ∧
      Spec.literalValue stmt.operand2 = some 0)) :
    ∃ r, foldStatement stmt cv = Except.ok r := by
  unfold foldStatement
  split_ifs with hop hn
  · exact ⟨_, rfl⟩
  · simp only [Bool.and_eq_true] at hn
    have lit : ∀ x, isNumber x = true → (Spec.IsLiteral x ∨ Spec.IsName x) →
        Spec.IsLiteral x := by
      intro x hx hor
      rcases hor with hor | hor
      · exact hor
      · rw [hor.2] at hx; cases hx
    have hl1 := lit _ hn.1 h1
    obtain ⟨a, ha, hra⟩ := (isLiteral_iff _).mp hl1
    obtain ⟨b, hb, hrb⟩ := (isLiteral_iff _).mp (lit _ hn.2 (h2 hop))
    rw [toInt_of_literalValue _ a ha hra, toInt_of_literalValue _ b hb hrb]
    simp only
    have hres : ∃ r, foldResult stmt.op a b = Except.ok r := by
      unfold foldResult
      split_ifs with c1 c2 c3 c4 c5
      · exact ⟨_, rfl⟩
      · exact ⟨_, rfl⟩
      · exact ⟨_, rfl⟩
      · exact absurd ⟨c4, hl1, by rw [hb, c5]⟩ hdiv
      · exact ⟨_, rfl⟩
      · exact ⟨_, rfl⟩
    obtain ⟨r, hr⟩ := hres
    rw [hr]
    exact ⟨_, rfl⟩
  · exact ⟨_, rfl⟩

lemma constantFoldingLoop_total (l : List Statement)
    (h : ∀ s ∈ l, ∀ cv, ∃ r, foldStatement s cv = Except.ok r) (cv : StrMap Int) :
    ∃ r, constantFoldingLoop l cv = Except.ok r := by
  induction l generalizing cv with
  | nil => exact ⟨_, rfl⟩
  | cons s rest ih =>
    obtain ⟨⟨s1, cv1⟩, hs⟩ := h s (List.mem_cons_self _ _) cv
    obtain ⟨⟨rest1, cv2⟩, hr⟩ := ih (fun u hu => h u (List.mem_cons_of_mem _ hu)) cv1
    refine ⟨(s1 :: rest1, cv2), ?_⟩
    rw [constantFoldingLoop, hs]
    simp only
    rw [hr]


/-! ## Admissible operands after the first two passes -/

lemma fold_reduce_map_target {l out : List Statement} {cv cv2 : StrMap Int}
    (h : constantFoldingLoop l cv = Except.ok (out, cv2)) :
    (out.map (fun s => (reduceStatement s StrMap.empty).1)).map Statement.target =
      l.map Statement.target := by
  rw [← constantFoldingLoop_map_target h, List.map_map]
  apply List.map_congr_left
  intro s _
  exact (reduceStatement_frame s _).1

lemma isLiteral_zero : Spec.IsLiteral "0" := by decide

lemma admissible_fold_reduce {l out : List Statement} {cv cv2 : StrMap Int}
    (h : constantFoldingLoop l cv = Except.ok (out, cv2))
    (hadm : Spec.OperandsAdmissible l) :
    Spec.OperandsAdmissible (out.map (fun s => (reduceStatement s StrMap.empty).1)) := by
  induction l generalizing cv out with
  | nil => unfold constantFoldingLoop at h; cases h; trivial
  | cons s rest ih =>
    have ht := fold_reduce_map_target h
    obtain ⟨st1, cv1, rest1, hf, hrest, rfl⟩ := constantFoldingLoop_cons_ok h
    obtain ⟨a1, a2, a3⟩ := hadm
    obtain ⟨-, f2, f3, f4, -⟩ := foldStatement_frame hf
    rw [List.map_cons] at ht ⊢
    refine ⟨?_, ?_, ih hrest a3⟩
    · rw [ht]
      rcases reduceStatement_shape st1 StrMap.empty with e | ⟨hop, -, -, -, hc⟩
      · rw [e, f2]; exact a1
      · rcases hc with ⟨-, e | e⟩ | ⟨-, -, e⟩
        · rw [e, f2]; exact a1
        · rw [e, f4]; exact a2 (by rw [← f3]; exact hop)
        · rw [e]; exact Or.inl isLiteral_zero
    · intro hop
      rw [ht]
      rcases reduceStatement_shape st1 StrMap.empty with e | ⟨-, -, ho, -, -⟩
      · rw [e] at hop ⊢
        rw [f4]
        exact a2 (by rw [← f3]; exact hop)
      · exact absurd ho hop

lemma operandsAdmissible_append (pre l : List Statement)
    (h : Spec.OperandsAdmissible (pre ++ l)) : Spec.OperandsAdmissible l := by
  induction pre with
  | nil => exact h
  | cons s rest ih => exact ih h.2.2

/-- Operands of an admissible program are valid literals or variable names. -/
lemma operandsAdmissible_mem {l : List Statement} (h : Spec.OperandsAdmissible l)
    {s : Statement} (hs : s ∈ l) :
    (Spec.IsLiteral s.operand1 ∨ Spec.IsName s.operand1) ∧
    (s.op ≠ "" → Spec.IsLiteral s.operand2 ∨ Spec.IsName s.operand2) := by
  obtain ⟨pre, post, rfl⟩ := List.append_of_mem hs
  obtain ⟨a1, a2, -⟩ := operandsAdmissible_append pre _ h
  exact ⟨a1.imp id And.left, fun hop => (a2 hop).imp id And.left⟩

/-! ## Copy propagation on single-assignment programs -/

lemma alias_source {stmts : List Statement} {b a : String}
    (h : buildAliases stmts b = some a) :
    ∃ c ∈ stmts, isCopy c = true ∧ c.target = b ∧ c.operand1 = a := by
  rw [buildAliases_apply, Option.map_eq_some'] at h
  obtain ⟨c, hc, rfl⟩ := h
  have hm := List.mem_of_getLast?_eq_some hc
  rw [List.mem_filter] at hm
  simp only [Bool.and_eq_true, decide_eq_true_eq] at hm
  exact ⟨c, hm.1, hm.2.1, hm.2.2, rfl⟩

lemma isCopy_iff (c : Statement) :
    isCopy c = true ↔ (c.op = "" ∧ c.isConstant = false ∧ isNumber c.operand1 = false) := by
  simp [isCopy, and_assoc]

/-- When the statement `s` is reached, a name recorded as an alias of its
first operand holds the same value as that operand. -/
lemma alias_value (pre rest : List Statement) (s : Statement) (env : String → Int)
    (hnd : ((pre ++ s :: rest).map Statement.target).Nodup)
    (hnames : ∀ u ∈ pre ++ s :: rest, Spec.IsName u.target)
    (hadm : Spec.OperandsAdmissible (pre ++ s :: rest)) {a : String}
    (hal : buildAliases (pre ++ s :: rest) s.operand1 = some a) :
    Spec.IsName a ∧ Spec.IsName s.operand1 ∧
      Spec.exec env pre a = Spec.exec env pre s.operand1 := by
  obtain ⟨c, hc, hcopy, hct, hca⟩ := alias_source hal
  obtain ⟨hcop, hcc, hcn⟩ := (isCopy_iff c).mp hcopy
  have hb : Spec.IsName s.operand1 := by rw [← hct]; exact hnames c hc
  have hbnot : s.operand1 ∉ (s :: rest).map Statement.target := by
    rcases (operandsAdmissible_append pre _ hadm).1 with hl | hl
    · exact absurd hb (not_isName_of_isLiteral hl)
    · exact hl.2
  have hcpre : c ∈ pre := by
    rcases List.mem_append.mp hc with hp | hp
    · exact hp
    · exact absurd (hct ▸ List.mem_map_of_mem Statement.target hp) hbnot
  obtain ⟨A, B, rfl⟩ := List.append_of_mem hcpre
  rw [List.append_assoc, List.cons_append] at hadm hnd
  have hadmc := (operandsAdmissible_append A _ hadm).1
  rw [hca] at hadmc
  have ha : Spec.IsName a ∧ a ∉ (c :: (B ++ s :: rest)).map Statement.target := by
    rcases hadmc with hl | hl
    · have := isNumber_of_isLiteral hl
      rw [← hca, hcn] at this
      cases this
    · exact hl
  have hab : a ≠ s.operand1 := by
    intro e
    apply ha.2
    rw [List.map_cons, e, ← hct]
    exact List.mem_cons_self _ _
  have haB : a ∉ B.map Statement.target := by
    intro hm
    apply ha.2
    rw [List.map_cons, List.map_append]
    exact List.mem_cons_of_mem _ (List.mem_append_left _ hm)
  have hbB : s.operand1 ∉ B.map Statement.target := by
    rw [List.map_append, List.map_cons, List.nodup_append] at hnd
    have h2 := (List.nodup_cons.mp hnd.2.1).1
    rw [hct] at h2
    intro hm
    apply h2
    rw [List.map_append]
    exact List.mem_append_left _ hm
  refine ⟨ha.1, hb, ?_⟩
  rw [exec_append, exec_cons, exec_not_target _ B a haB, exec_not_target _ B _ hbB]
  unfold Spec.assign
  rw [if_neg (by rw [hct]; exact hab), if_pos hct.symm]
  unfold Spec.hostValue
  rw [hcc, if_neg (by decide), if_pos hcop, hca, operandValue_of_isName _ ha.1]

lemma substitute_hostValue (pre rest : List Statement) (s : Statement) (env : String → Int)
    (hnd : ((pre ++ s :: rest).map Statement.target).Nodup)
    (hnames : ∀ u ∈ pre ++ s :: rest, Spec.IsName u.target)
    (hadm : Spec.OperandsAdmissible (pre ++ s :: rest)) :
    Spec.hostValue (Spec.exec env pre) (substitute (buildAliases (pre ++ s :: rest)) s) =
      Spec.hostValue (Spec.exec env pre) s := by
  rw [substitute_eq]
  split_ifs with hsub
  · obtain ⟨a, ha⟩ := Option.isSome_iff_exists.mp hsub.2
    obtain ⟨hna, hnb, hv⟩ := alias_value pre rest s env hnd hnames hadm ha
    rw [ha, Option.getD_some]
    unfold Spec.hostValue
    simp only
    rw [operandValue_of_isName _ hna, operandValue_of_isName _ hnb, hv]
  · rfl

/-- Copy propagation does not change what a single-assignment program
computes. -/
lemma exec_copyPropagation_aux (Q : List Statement) (env : String → Int)
    (hnd : (Q.map Statement.target).Nodup) (hnames : ∀ u ∈ Q, Spec.IsName u.target)
    (hadm : Spec.OperandsAdmissible Q) (post : List Statement) :
    ∀ pre, Q = pre ++ post →
      Spec.exec (Spec.exec env pre) (post.map (substitute (buildAliases Q))) =
        Spec.exec (Spec.exec env pre) post := by
  induction post with
  | nil => intro pre _; rfl
  | cons s rest ih =>
    intro pre hQ
    subst hQ
    rw [List.map_cons, exec_cons, exec_cons, substitute_hostValue pre rest s env hnd hnames hadm]
    have ht : (substitute (buildAliases (pre ++ s :: rest)) s).target = s.target := by
      rw [substitute_frame]
    rw [ht]
    have := ih (pre ++ [s]) (by rw [List.append_assoc]; rfl)
    rw [exec_append] at this
    exact this

lemma exec_copyPropagation (Q : List Statement) (env : String → Int)
    (hnd : (Q.map Statement.target).Nodup) (hnames : ∀ u ∈ Q, Spec.IsName u.target)
    (hadm : Spec.OperandsAdmissible Q) :
    Spec.exec env (Q.map (substitute (buildAliases Q))) = Spec.exec env Q :=
  exec_copyPropagation_aux Q env hnd hnames hadm Q [] rfl


/-! ## Dead-code elimination on programs whose reads are marked -/

lemma substitute_operands {Q : List Statement} (hadm : Spec.OperandsAdmissible Q)
    {q : Statement} (hq : q ∈ Q) :
    (Spec.IsLiteral (substitute (buildAliases Q) q).operand1 ∨
      Spec.IsName (substitute (buildAliases Q) q).operand1) ∧
    ((substitute (buildAliases Q) q).op ≠ "" →
      Spec.IsLiteral (substitute (buildAliases Q) q).operand2 ∨
      Spec.IsName (substitute (buildAliases Q) q).operand2) := by
  obtain ⟨h1, h2⟩ := operandsAdmissible_mem hadm hq
  rw [substitute_eq]
  split_ifs with hsub
  · obtain ⟨a, ha⟩ := Option.isSome_iff_exists.mp hsub.2
    obtain ⟨c, hc, -, -, hca⟩ := alias_source ha
    rw [ha, Option.getD_some]
    refine ⟨?_, h2⟩
    rw [← hca]
    exact (operandsAdmissible_mem hadm hc).1
  · exact ⟨h1, h2⟩

lemma usageMap_of_marksKey {stmts : List Statement} (prior : StrMap Bool) {k : String}
    (h : ∃ s ∈ stmts, marksKey s k) : (usageMap stmts prior k).getD false = true := by
  rw [usageMap_apply]
  split_ifs
  · rfl
  · rfl

lemma operandValue_agree {e e1 : String → Int} {x : String}
    (hx : Spec.IsLiteral x ∨ Spec.IsName x) (h : Spec.IsName x → e x = e1 x) :
    Spec.operandValue e x = Spec.operandValue e1 x := by
  rcases hx with hx | hx
  · obtain ⟨v, hv, -⟩ := (isLiteral_iff x).mp hx
    unfold Spec.operandValue
    rw [hv]
  · rw [operandValue_of_isName e hx, operandValue_of_isName e1 hx, h hx]

/-- A statement reads only variables that `deadCodeElimination` marks as
used: two environments that agree on the used variables give it the same
value. -/
lemma hostValue_agree {stmts : List Statement} (prior : StrMap Bool) {s : Statement}
    (hs : s ∈ stmts)
    (h1 : Spec.IsLiteral s.operand1 ∨ Spec.IsName s.operand1)
    (h2 : s.op ≠ "" → Spec.IsLiteral s.operand2 ∨ Spec.IsName s.operand2)
    {e e1 : String → Int}
    (hag : ∀ x, (usageMap stmts prior x).getD false = true → e x = e1 x) :
    Spec.hostValue e s = Spec.hostValue e1 s := by
  unfold Spec.hostValue
  by_cases hc : s.isConstant = true
  · rw [if_pos hc, if_pos hc]
  · rw [if_neg hc, if_neg hc]
    by_cases hop : s.op = ""
    · rw [if_pos hop, if_pos hop]
      apply operandValue_agree h1
      intro hn
      exact hag _ (usageMap_of_marksKey prior ⟨s, hs, Or.inr ⟨hop, hn.1, hn.2, rfl⟩⟩)
    · rw [if_neg hop, if_neg hop]
      congr 1
      · apply operandValue_agree h1
        intro hn
        exact hag _ (usageMap_of_marksKey prior ⟨s, hs, Or.inl ⟨hop, Or.inl ⟨hn.2, rfl⟩⟩⟩)
      · apply operandValue_agree (h2 hop)
        intro hn
        exact hag _ (usageMap_of_marksKey prior ⟨s, hs, Or.inl ⟨hop, Or.inr ⟨hn.2, rfl⟩⟩⟩)

/-- Skipping the statements flagged through `used` keeps the values of the
variables `used` marks, provided no statement reads an unmarked variable. -/
lemma exec_flagDead (used : StrMap Bool) (l : List Statement)
    (hlive : ∀ s ∈ l, s.isDead = false)
    (hread : ∀ s ∈ l, ∀ e e1 : String → Int,
      (∀ x, (used x).getD false = true → e x = e1 x) →
      Spec.hostValue e s = Spec.hostValue e1 s)
    (e e1 : String → Int) (hag : ∀ x, (used x).getD false = true → e x = e1 x) :
    ∀ x, (used x).getD false = true →
      Spec.exec e l x = Spec.execRendered e1 (l.map (flagDead used)) x := by
  induction l generalizing e e1 with
  | nil => exact hag
  | cons s rest ih =>
    have hsl := hlive s (List.mem_cons_self _ _)
    have hrest := ih (fun u hu => hlive u (List.mem_cons_of_mem _ hu))
      (fun u hu => hread u (List.mem_cons_of_mem _ hu))
    cases hk : (used s.target).getD false with
    | false =>
      have hfd : (flagDead used s).isDead = true := by rw [flagDead_isDead, hk, hsl]; rfl
      unfold Spec.execRendered
      rw [List.map_cons, List.filter_cons, hfd, exec_cons]
      simp only [Bool.not_true, Bool.false_eq_true, if_false]
      apply hrest
      intro x hx
      unfold Spec.assign
      rw [if_neg (by rintro rfl; rw [hk] at hx; cases hx)]
      exact hag x hx
    | true =>
      have hfd : flagDead used s = s := by simp [flagDead, hk]
      unfold Spec.execRendered
      rw [List.map_cons, List.filter_cons, hfd, hsl, exec_cons]
      simp only [Bool.not_false, if_true]
      rw [exec_cons]
      apply hrest
      intro x hx
      unfold Spec.assign
      rw [hread s (List.mem_cons_self _ _) e e1 hag]
      split_ifs
      · rfl
      · exact hag x hx


/-! ## The optimizer on single-assignment programs -/

/-- C21. The whole optimizer preserves meaning on single-assignment programs.
For a program of fresh statements whose targets are pairwise distinct
variable names, whose operands are valid integer literals or variable names
never assigned or assigned strictly earlier, whose operators are among
`+ - * /`, and in which no division of two literals has the divisor zero,
`optimize` returns, and from every initial environment of `int` values,
executing in order the statements it leaves non-dead (a constant statement
assigning its `constantValue`) gives every non-dead target the value it has
after executing the original program. -/
theorem C21_optimize_preserves_meaning (o : CodeOptimizer)
    (h : Spec.SingleAssignment o.statements) :
    ∃ o1, optimize o = Except.ok o1 ∧
      ∀ env : String → Int, (∀ x, Spec.inIntRange (env x)) →
        ∀ st ∈ o1.statements, st.isDead = false →
          Spec.execRendered env o1.statements st.target =
            Spec.exec env o.statements st.target := by
  obtain ⟨hnd, hall, hadm⟩ := h
  have hops : ∀ s ∈ o.statements, s.isConstant = false ∧
      (Spec.IsLiteral s.operand1 ∨ Spec.IsName s.operand1) ∧
      (s.op ≠ "" → Spec.IsLiteral s.operand2 ∨ Spec.IsName s.operand2) := fun s hs =>
    ⟨(hall s hs).1, (operandsAdmissible_mem hadm hs).1, (operandsAdmissible_mem hadm hs).2⟩
  obtain ⟨⟨out, cv2⟩, hloop⟩ := constantFoldingLoop_total o.statements
    (fun s hs cv => foldStatement_total s cv (hops s hs).2.1 (hops s hs).2.2
      (hall s hs).2.2.2.2) o.constantValues
  have hc : constantFolding o =
      Except.ok { o with statements := out, constantValues := cv2 } := by
    unfold constantFolding
    rw [hloop]
  have hopt : optimize o = Except.ok (deadCodeElimination (copyPropagation
      (strengthReduction { o with statements := out, constantValues := cv2 }))) := by
    unfold optimize
    rw [hc]
  refine ⟨_, hopt, ?_⟩
  intro env henv st hst hlive
  have hlive3 := (before_deadCodeElimination hc (fun u hu => (hall u hu).2.1)).2
  have htargets := fold_reduce_map_target hloop
  have hadmQ := admissible_fold_reduce hloop hadm
  have hndQ : ((out.map (fun s => (reduceStatement s StrMap.empty).1)).map
      Statement.target).Nodup := by rw [htargets]; exact hnd
  have hnamesQ : ∀ u ∈ out.map (fun s => (reduceStatement s StrMap.empty).1),
      Spec.IsName u.target := by
    intro u hu
    have hm := List.mem_map_of_mem Statement.target hu
    rw [htargets, List.mem_map] at hm
    obtain ⟨s, hs, e⟩ := hm
    rw [← e]
    exact (hall s hs).2.2.1
  simp only [deadCodeElimination, copyPropagation, strengthReduction_statements] at hst hlive3 ⊢
  rw [List.mem_map] at hst
  obtain ⟨s3, hs3, rfl⟩ := hst
  have hkeep : (usageMap ((out.map (fun s => (reduceStatement s StrMap.empty).1)).map
      (substitute (buildAliases (out.map (fun s => (reduceStatement s StrMap.empty).1)))))
      (strengthReduction { o with statements := out, constantValues := cv2 }).variableUsed
      s3.target).getD false = true := by
    rw [flagDead_isDead, hlive3 s3 hs3] at hlive
    simpa using hlive
  have hdce := exec_flagDead _ _ hlive3
    (fun s hs e e1 hag => by
      obtain ⟨q, hq, rfl⟩ := List.mem_map.mp hs
      exact hostValue_agree _ hs (substitute_operands hadmQ hq).1
        (substitute_operands hadmQ hq).2 hag)
    env env (fun _ _ => rfl) s3.target hkeep
  rw [(flagDead_frame _ s3)]
  simp only
  rw [← hdce, exec_copyPropagation _ env hndQ hnamesQ hadmQ, exec_fold_reduce hloop hops env henv]

set_option maxRecDepth 100000 in
/-- Witness for C21 on the program of `main`. -/
theorem C21_optimize_preserves_meaning_witness :
    Spec.SingleAssignment (addStatements inputCode).statements ∧
    ∃ o1, optimize (addStatements inputCode) = Except.ok o1 ∧
      ∀ env : String → Int, (∀ x, Spec.inIntRange (env x)) →
        ∀ st ∈ o1.statements, st.isDead = false →
          Spec.execRendered env o1.statements st.target =
            Spec.exec env (addStatements inputCode).statements st.target :=
  ⟨by decide, C21_optimize_preserves_meaning (addStatements inputCode) (by decide)⟩

end Optimizer

namespace Dfa

/-! ## The automaton for `(a|b)*abb` -/

lemma abb_index_a (dfa0 : DFA) : getSymbolIndex (initDFA_Pattern_abb dfa0) 'a' = 0 := by
  simp [getSymbolIndex, getSymbolIndexFrom, initDFA_Pattern_abb, setAt]

lemma abb_index_b (dfa0 : DFA) : getSymbolIndex (initDFA_Pattern_abb dfa0) 'b' = 1 := by
  simp [getSymbolIndex, getSymbolIndexFrom, initDFA_Pattern_abb, setAt]

lemma abb_step_a (dfa0 : DFA) (q : Nat) (w : List Char) :
    validateLoop (initDFA_Pattern_abb dfa0) q ('a' :: w) =
      validateLoop (initDFA_Pattern_abb dfa0)
        ((initDFA_Pattern_abb dfa0).transition_table q 0) w := by
  rw [validateLoop, abb_index_a]; simp

lemma abb_step_b (dfa0 : DFA) (q : Nat) (w : List Char) :
    validateLoop (initDFA_Pattern_abb dfa0) q ('b' :: w) =
      validateLoop (initDFA_Pattern_abb dfa0)
        ((initDFA_Pattern_abb dfa0).transition_table q 1) w := by
  rw [validateLoop, abb_index_b]; simp


lemma abb_table (dfa0 : DFA) :
    (initDFA_Pattern_abb dfa0).transition_table 0 0 = 1 ∧
    (initDFA_Pattern_abb dfa0).transition_table 0 1 = 0 ∧
    (initDFA_Pattern_abb dfa0).transition_table 1 0 = 1 ∧
    (initDFA_Pattern_abb dfa0).transition_table 1 1 = 2 ∧
    (initDFA_Pattern_abb dfa0).transition_table 2 0 = 1 ∧
    (initDFA_Pattern_abb dfa0).transition_table 2 1 = 3 ∧
    (initDFA_Pattern_abb dfa0).transition_table 3 0 = 1 ∧
    (initDFA_Pattern_abb dfa0).transition_table 3 1 = 0 := by
  simp [initDFA_Pattern_abb, setAt2]

lemma abb_accepting (dfa0 : DFA) :
    (initDFA_Pattern_abb dfa0).accepting_states 0 = false ∧
    (initDFA_Pattern_abb dfa0).accepting_states 1 = false ∧
    (initDFA_Pattern_abb dfa0).accepting_states 2 = false ∧
    (initDFA_Pattern_abb dfa0).accepting_states 3 = true := by
  simp [initDFA_Pattern_abb, setAt]

/-- Words over `{x, y}` accepted from each state of a table-driven automaton
with the four states and the transitions of the `abb` table. -/
lemma language_of_abb_table (d : DFA) (x y : Char)
    (hx : ∀ q w, validateLoop d q (x :: w) = validateLoop d (d.transition_table q 0) w)
    (hy : ∀ q w, validateLoop d q (y :: w) = validateLoop d (d.transition_table q 1) w)
    (hxy : x ≠ y)
    (t00 : d.transition_table 0 0 = 1) (t01 : d.transition_table 0 1 = 0)
    (t10 : d.transition_table 1 0 = 1) (t11 : d.transition_table 1 1 = 2)
    (t20 : d.transition_table 2 0 = 1) (t21 : d.transition_table 2 1 = 3)
    (t30 : d.transition_table 3 0 = 1) (t31 : d.transition_table 3 1 = 0)
    (a0 : d.accepting_states 0 = false) (a1 : d.accepting_states 1 = false)
    (a2 : d.accepting_states 2 = false) (a3 : d.accepting_states 3 = true)
    (w : List Char) (hw : ∀ c ∈ w, c = x ∨ c = y) :
    (validateLoop d 0 w = true ↔ [x, y, y] <:+ w) ∧
    (validateLoop d 1 w = true ↔ ([x, y, y] <:+ w ∨ [y, y] = w)) ∧
    (validateLoop d 2 w = true ↔ ([x, y, y] <:+ w ∨ [y] = w)) ∧
    (validateLoop d 3 w = true ↔ ([x, y, y] <:+ w ∨ [] = w)) := by
  induction w with
  | nil => simp [validateLoop, a0, a1, a2, a3]
  | cons c w ih =>
    obtain ⟨i0, i1, i2, i3⟩ := ih (fun z hz => hw z (List.mem_cons_of_mem _ hz))
    have hyx : y ≠ x := fun h => hxy h.symm
    rcases hw c (List.mem_cons_self _ _) with rfl | rfl
    · rw [hx, hx, hx, hx, t00, t10, t20, t30, i1]
      simp only [List.suffix_cons_iff, List.cons.injEq, hyx, false_and, or_false, true_and]
      refine ⟨or_comm, or_comm, or_comm, ?_⟩
      simp [or_comm]
    · rw [hy, hy, hy, hy, t01, t11, t21, t31, i0, i2, i3]
      simp only [List.suffix_cons_iff, List.cons.injEq, hxy, false_and, or_false, true_and,
        false_or, and_true]
      simp

/-- C18. The automaton for `(a|b)*abb` recognises exactly the strings ending
in `abb`. Whatever the record held before `initDFA_Pattern_abb`, for every
string `w` over `{a, b}`, `validateString` returns true if and only if `w`
ends with `abb`; in particular `abb`, `aabb`, `babb`, `ababb`, `aababb` are
accepted and `abba` and the empty string are rejected. -/
theorem C18_abb_ends_with_abb (dfa0 : DFA) :
    (∀ w : String, (∀ c ∈ w.data, c = 'a' ∨ c = 'b') →
      (validateString (initDFA_Pattern_abb dfa0) w = true ↔ "abb".data <:+ w.data)) ∧
    validateString (initDFA_Pattern_abb dfa0) "abb" = true ∧
    validateString (initDFA_Pattern_abb dfa0) "aabb" = true ∧
    validateString (initDFA_Pattern_abb dfa0) "babb" = true ∧
    validateString (initDFA_Pattern_abb dfa0) "ababb" = true ∧
    validateString (initDFA_Pattern_abb dfa0) "aababb" = true ∧
    validateString (initDFA_Pattern_abb dfa0) "abba" = false ∧
    validateString (initDFA_Pattern_abb dfa0) "" = false := by
  obtain ⟨t00, t01, t10, t11, t20, t21, t30, t31⟩ := abb_table dfa0
  obtain ⟨a0, a1, a2, a3⟩ := abb_accepting dfa0
  have hgen : ∀ w : String, (∀ c ∈ w.data, c = 'a' ∨ c = 'b') →
      (validateString (initDFA_Pattern_abb dfa0) w = true ↔ "abb".data <:+ w.data) := by
    intro w hw
    exact (language_of_abb_table (initDFA_Pattern_abb dfa0) 'a' 'b' (abb_step_a dfa0)
      (abb_step_b dfa0) (by decide) t00 t01 t10 t11 t20 t21 t30 t31 a0 a1 a2 a3 w.data hw).1
  refine ⟨hgen, (hgen "abb" (by decide)).mpr (by decide),
    (hgen "aabb" (by decide)).mpr (by decide), (hgen "babb" (by decide)).mpr (by decide),
    (hgen "ababb" (by decide)).mpr (by decide), (hgen "aababb" (by decide)).mpr (by decide),
    ?_, ?_⟩
  · have h := hgen "abba" (by decide)
    have hn : ¬ ("abb".data <:+ "abba".data) := by decide
    cases hv : validateString (initDFA_Pattern_abb dfa0) "abba"
    · rfl
    · exact absurd (h.mp hv) hn
  · have h := hgen "" (by decide)
    have hn : ¬ ("abb".data <:+ "".data) := by decide
    cases hv : validateString (initDFA_Pattern_abb dfa0) ""
    · rfl
    · exact absurd (h.mp hv) hn

/-- Witness for C18 at the string `bbabb`. -/
theorem C18_abb_ends_with_abb_witness :
    (∀ c ∈ "bbabb".data, c = 'a' ∨ c = 'b') ∧
    (validateString (initDFA_Pattern_abb
        { num_states := 0, num_symbols := 0, symbols := fun _ => 'z',
          transition_table := fun _ _ => 7, start_state := 5,
          accepting_states := fun _ => true, state_names := fun _ => "", regex := "" })
      "bbabb" = true ↔ "abb".data <:+ "bbabb".data) :=
  ⟨by decide,
   (C18_abb_ends_with_abb
      { num_states := 0, num_symbols := 0, symbols := fun _ => 'z',
        transition_table := fun _ _ => 7, start_state := 5,
        accepting_states := fun _ => true, state_names := fun _ => "", regex := "" }).1
     "bbabb" (by decide)⟩


/-! ## The automaton for `(0|1)*01` -/

lemma p01_index_0 (dfa0 : DFA) : getSymbolIndex (initDFA_Pattern01 dfa0) '0' = 0 := by
  simp [getSymbolIndex, getSymbolIndexFrom, initDFA_Pattern01, setAt]

lemma p01_index_1 (dfa0 : DFA) : getSymbolIndex (initDFA_Pattern01 dfa0) '1' = 1 := by
  simp [getSymbolIndex, getSymbolIndexFrom, initDFA_Pattern01, setAt]

lemma p01_step_0 (dfa0 : DFA) (q : Nat) (w : List Char) :
    validateLoop (initDFA_Pattern01 dfa0) q ('0' :: w) =
      validateLoop (initDFA_Pattern01 dfa0)
        ((initDFA_Pattern01 dfa0).transition_table q 0) w := by
  rw [validateLoop, p01_index_0]; simp

lemma p01_step_1 (dfa0 : DFA) (q : Nat) (w : List Char) :
    validateLoop (initDFA_Pattern01 dfa0) q ('1' :: w) =
      validateLoop (initDFA_Pattern01 dfa0)
        ((initDFA_Pattern01 dfa0).transition_table q 1) w := by
  rw [validateLoop, p01_index_1]; simp

lemma p01_table (dfa0 : DFA) :
    (initDFA_Pattern01 dfa0).transition_table 0 0 = 1 ∧
    (initDFA_Pattern01 dfa0).transition_table 0 1 = 0 ∧
    (initDFA_Pattern01 dfa0).transition_table 1 0 = 1 ∧
    (initDFA_Pattern01 dfa0).transition_table 1 1 = 2 ∧
    (initDFA_Pattern01 dfa0).transition_table 2 0 = 1 ∧
    (initDFA_Pattern01 dfa0).transition_table 2 1 = 0 := by
  simp [initDFA_Pattern01, setAt2]

lemma p01_accepting (dfa0 : DFA) :
    (initDFA_Pattern01 dfa0).accepting_states 0 = false ∧
    (initDFA_Pattern01 dfa0).accepting_states 1 = false ∧
    (initDFA_Pattern01 dfa0).accepting_states 2 = true := by
  simp [initDFA_Pattern01, setAt]

/-- Words over `{x, y}` accepted from each state of a table-driven automaton
with the three states and the transitions of the `01` table. -/
lemma language_of_01_table (d : DFA) (x y : Char)
    (hx : ∀ q w, validateLoop d q (x :: w) = validateLoop d (d.transition_table q 0) w)
    (hy : ∀ q w, validateLoop d q (y :: w) = validateLoop d (d.transition_table q 1) w)
    (hxy : x ≠ y)
    (t00 : d.transition_table 0 0 = 1) (t01 : d.transition_table 0 1 = 0)
    (t10 : d.transition_table 1 0 = 1) (t11 : d.transition_table 1 1 = 2)
    (t20 : d.transition_table 2 0 = 1) (t21 : d.transition_table 2 1 = 0)
    (a0 : d.accepting_states 0 = false) (a1 : d.accepting_states 1 = false)
    (a2 : d.accepting_states 2 = true)
    (w : List Char) (hw : ∀ c ∈ w, c = x ∨ c = y) :
    (validateLoop d 0 w = true ↔ [x, y] <:+ w) ∧
    (validateLoop d 1 w = true ↔ ([x, y] <:+ w ∨ [y] = w)) ∧
    (validateLoop d 2 w = true ↔ ([x, y] <:+ w ∨ [] = w)) := by
  induction w with
  | nil => simp [validateLoop, a0, a1, a2]
  | cons c w ih =>
    obtain ⟨i0, i1, i2⟩ := ih (fun z hz => hw z (List.mem_cons_of_mem _ hz))
    have hyx : y ≠ x := fun h => hxy h.symm
    rcases hw c (List.mem_cons_self _ _) with rfl | rfl
    · rw [hx, hx, hx, t00, t10, t20, i1]
      simp only [List.suffix_cons_iff, List.cons.injEq, hyx, false_and, or_false, true_and]
      refine ⟨or_comm, or_comm, ?_⟩
      simp [or_comm]
    · rw [hy, hy, hy, t01, t11, t21, i0, i2]
      simp only [List.suffix_cons_iff, List.cons.injEq, hxy, false_and, or_false, true_and,
        false_or, and_true]
      simp [or_comm]

/-- C19. The automaton for `(0|1)*01` recognises exactly the strings ending in
`01`. Whatever the record held before `initDFA_Pattern01`, for every string
`w` over `{0, 1}`, `validateString` returns true if and only if `w` ends with
`01`; in particular `1101` and `0001` are accepted and `111` is rejected. -/
theorem C19_p01_ends_with_01 (dfa0 : DFA) :
    (∀ w : String, (∀ c ∈ w.data, c = '0' ∨ c = '1') →
      (validateString (initDFA_Pattern01 dfa0) w = true ↔ "01".data <:+ w.data)) ∧
    validateString (initDFA_Pattern01 dfa0) "1101" = true ∧
    validateString (initDFA_Pattern01 dfa0) "0001" = true ∧
    validateString (initDFA_Pattern01 dfa0) "111" = false := by
  obtain ⟨t00, t01, t10, t11, t20, t21⟩ := p01_table dfa0
  obtain ⟨a0, a1, a2⟩ := p01_accepting dfa0
  have hgen : ∀ w : String, (∀ c ∈ w.data, c = '0' ∨ c = '1') →
      (validateString (initDFA_Pattern01 dfa0) w = true ↔ "01".data <:+ w.data) := by
    intro w hw
    exact (language_of_01_table (initDFA_Pattern01 dfa0) '0' '1' (p01_step_0 dfa0)
      (p01_step_1 dfa0) (by decide) t00 t01 t10 t11 t20 t21 a0 a1 a2 w.data hw).1
  refine ⟨hgen, (hgen "1101" (by decide)).mpr (by decide),
    (hgen "0001" (by decide)).mpr (by decide), ?_⟩
  have h := hgen "111" (by decide)
  have hn : ¬ ("01".data <:+ "111".data) := by decide
  cases hv : validateString (initDFA_Pattern01 dfa0) "111"
  · rfl
  · exact absurd (h.mp hv) hn

/-- Witness for C19 at the string `10`. -/
theorem C19_p01_ends_with_01_witness :
    (∀ c ∈ "10".data, c = '0' ∨ c = '1') ∧
    (validateString (initDFA_Pattern01
        { num_states := 0, num_symbols := 0, symbols := fun _ => 'z',
          transition_table := fun _ _ => 7, start_state := 5,
          accepting_states := fun _ => true, state_names := fun _ => "", regex := "" })
      "10" = true ↔ "01".data <:+ "10".data) :=
  ⟨by decide,
   (C19_p01_ends_with_01
      { num_states := 0, num_symbols := 0, symbols := fun _ => 'z',
        transition_table := fun _ _ => 7, start_state := 5,
        accepting_states := fun _ => true, state_names := fun _ => "", regex := "" }).1
     "10" (by decide)⟩


/-! ## Characters outside the alphabet -/

lemma getSymbolIndexFrom_absent (d : DFA) (c : Char) (n i : Nat)
    (h : ∀ j, i ≤ j → j < i + n → d.symbols j ≠ c) : getSymbolIndexFrom d c n i = -1 := by
  induction n generalizing i with
  | zero => rfl
  | succ n ih =>
    rw [getSymbolIndexFrom, if_neg (h i (le_refl i) (by omega))]
    exact ih (i + 1) (fun j h1 h2 => h j (by omega) (by omega))

/-- The loop of `validateString` returns false from every state as soon as
the rest of the input holds a character that `getSymbolIndex` does not find. -/
lemma validateLoop_invalid (d : DFA) (w : List Char) (q : Nat)
    (h : ∃ c ∈ w, getSymbolIndex d c = -1) : validateLoop d q w = false := by
  induction w generalizing q with
  | nil => obtain ⟨c, hc, -⟩ := h; cases hc
  | cons x rest ih =>
    rw [validateLoop]
    by_cases hx : getSymbolIndex d x = -1
    · rw [if_pos hx]
    · rw [if_neg hx]
      apply ih
      obtain ⟨c, hc, hi⟩ := h
      rcases List.mem_cons.mp hc with rfl | hc
      · exact absurd hi hx
      · exact ⟨c, hc, hi⟩

lemma abb_index_other (dfa0 : DFA) {c : Char} (ha : c ≠ 'a') (hb : c ≠ 'b') :
    getSymbolIndex (initDFA_Pattern_abb dfa0) c = -1 := by
  apply getSymbolIndexFrom_absent
  intro j _ hj
  have hj2 : j < 2 := by simpa [initDFA_Pattern_abb] using hj
  interval_cases j
  · simpa [initDFA_Pattern_abb, setAt] using Ne.symm ha
  · simpa [initDFA_Pattern_abb, setAt] using Ne.symm hb

lemma p01_index_other (dfa0 : DFA) {c : Char} (h0 : c ≠ '0') (h1 : c ≠ '1') :
    getSymbolIndex (initDFA_Pattern01 dfa0) c = -1 := by
  apply getSymbolIndexFrom_absent
  intro j _ hj
  have hj2 : j < 2 := by simpa [initDFA_Pattern01] using hj
  interval_cases j
  · simpa [initDFA_Pattern01, setAt] using Ne.symm h0
  · simpa [initDFA_Pattern01, setAt] using Ne.symm h1

/-- C30. Input outside the alphabet is rejected. For every automaton record,
a string holding a character that is none of the first `num_symbols` entries
of `symbols` is rejected by `validateString`; for the two hardcoded automata
this is every string with a character other than `a`, `b` (respectively `0`,
`1`), whatever the other characters are; `abbx` and `xabb` are rejected by
the abb automaton. -/
theorem C30_outside_alphabet_rejected (dfa0 : DFA) :
    (∀ (d : DFA) (w : String),
      (∃ c ∈ w.data, ∀ j, j < d.num_symbols → d.symbols j ≠ c) →
      validateString d w = false) ∧
    (∀ w : String, (∃ c ∈ w.data, c ≠ 'a' ∧ c ≠ 'b') →
      validateString (initDFA_Pattern_abb dfa0) w = false) ∧
    (∀ w : String, (∃ c ∈ w.data, c ≠ '0' ∧ c ≠ '1') →
      validateString (initDFA_Pattern01 dfa0) w = false) ∧
    validateString (initDFA_Pattern_abb dfa0) "abbx" = false ∧
    validateString (initDFA_Pattern_abb dfa0) "xabb" = false := by
  have habb : ∀ w : String, (∃ c ∈ w.data, c ≠ 'a' ∧ c ≠ 'b') →
      validateString (initDFA_Pattern_abb dfa0) w = false := by
    rintro w ⟨c, hc, ha, hb⟩
    exact validateLoop_invalid _ _ _ ⟨c, hc, abb_index_other dfa0 ha hb⟩
  refine ⟨?_, habb, ?_, ?_, ?_⟩
  · rintro d w ⟨c, hc, h⟩
    refine validateLoop_invalid _ _ _ ⟨c, hc, ?_⟩
    exact getSymbolIndexFrom_absent d c d.num_symbols 0 (fun j _ hj => h j (by omega))
  · rintro w ⟨c, hc, h0, h1⟩
    exact validateLoop_invalid _ _ _ ⟨c, hc, p01_index_other dfa0 h0 h1⟩
  · exact habb "abbx" ⟨'x', by decide, by decide, by decide⟩
  · exact habb "xabb" ⟨'x', by decide, by decide, by decide⟩

/-- Witness for C30: `0a1` holds a character outside the alphabet of the
second automaton. -/
theorem C30_outside_alphabet_rejected_witness :
    (∃ c ∈ "0a1".data, c ≠ '0' ∧ c ≠ '1') ∧
    validateString (initDFA_Pattern01
        { num_states := 0, num_symbols := 0, symbols := fun _ => 'z',
          transition_table := fun _ _ => 7, start_state := 5,
          accepting_states := fun _ => true, state_names := fun _ => "", regex := "" })
      "0a1" = false :=
  ⟨⟨'a', by decide, by decide, by decide⟩,
   (C30_outside_alphabet_rejected _).2.2.1 "0a1" ⟨'a', by decide, by decide, by decide⟩⟩

end Dfa

namespace CodeGen

open Optimizer (isspace extract IStream)

/-! ## Character classes -/

lemma isOperator_iff {c : Char} :
    isOperator c = true ↔ (c = '+' ∨ c = '-' ∨ c = '*' ∨ c = '/') := by
  simp [isOperator, or_assoc]

lemma isOperator_not_isspace {c : Char} (h : isOperator c = true) : isspace c = false := by
  rcases isOperator_iff.mp h with rfl | rfl | rfl | rfl <;> decide

lemma isOperator_not_isalnum {c : Char} (h : isOperator c = true) : isalnum c = false := by
  rcases isOperator_iff.mp h with rfl | rfl | rfl | rfl <;> decide

lemma isOperator_ne_open {c : Char} (h : isOperator c = true) : c ≠ '(' := by
  rcases isOperator_iff.mp h with rfl | rfl | rfl | rfl <;> decide

lemma isOperator_ne_close {c : Char} (h : isOperator c = true) : c ≠ ')' := by
  rcases isOperator_iff.mp h with rfl | rfl | rfl | rfl <;> decide

lemma isalnum_not_isspace {c : Char} (h : isalnum c = true) : isspace c = false := by
  unfold Optimizer.isspace
  simp only [Bool.or_eq_false_iff, beq_eq_false_iff_ne]
  refine ⟨⟨⟨⟨⟨?_, ?_⟩, ?_⟩, ?_⟩, ?_⟩, ?_⟩ <;> (rintro rfl; revert h; decide)

lemma isalnum_not_isOperator {c : Char} (h : isalnum c = true) : isOperator c = false := by
  cases ho : isOperator c
  · rfl
  · rw [isOperator_not_isalnum ho] at h; cases h

/-! ## One step of `infixToPostfix` -/

lemma step_operand (st : List Char × List Char) {c : Char} (h : isalnum c = true) :
    step st c = (st.1, st.2 ++ [c, ' ']) := by
  simp [step, isalnum_not_isspace h, h]

lemma step_open (st : List Char × List Char) : step st '(' = ('(' :: st.1, st.2) := by
  have h1 : isspace '(' = false := by decide
  have h2 : isalnum '(' = false := by decide
  simp [step, h1, h2]

lemma step_close (st : List Char × List Char) :
    step st ')' = ((popToParen st.1 st.2).1.tail, (popToParen st.1 st.2).2) := by
  have h1 : isspace ')' = false := by decide
  have h2 : isalnum ')' = false := by decide
  simp [step, h1, h2]

lemma step_operator (st : List Char × List Char) {c : Char} (h : isOperator c = true) :
    step st c = (c :: (popWhileHigher c st.1 st.2).1, (popWhileHigher c st.1 st.2).2) := by
  simp [step, isOperator_not_isspace h, isOperator_not_isalnum h, isOperator_ne_open h,
    isOperator_ne_close h, h]

lemma step_space (st : List Char × List Char) {c : Char} (h : isspace c = true) :
    step st c = st := by
  simp [step, h]

/-! ## The three pop loops -/

lemma spaced_append (a b : List Char) : Spec.spaced (a ++ b) = Spec.spaced a ++ Spec.spaced b := by
  induction a with
  | nil => rfl
  | cons c cs ih => simp [Spec.spaced, ih]

lemma popToParen_pending (pend stk out : List Char)
    (hp : ∀ c ∈ pend, isOperator c = true) :
    popToParen (pend ++ '(' :: stk) out = ('(' :: stk, out ++ Spec.spaced pend) := by
  induction pend generalizing out with
  | nil => simp [popToParen, Spec.spaced]
  | cons c cs ih =>
    have hc : c ≠ '(' := isOperator_ne_open (hp c (List.mem_cons_self _ _))
    rw [List.cons_append, popToParen, if_pos hc,
      ih _ (fun x hx => hp x (List.mem_cons_of_mem _ hx))]
    simp [Spec.spaced]

lemma popWhileHigher_pending (c : Char) (pend stk out : List Char)
    (hp : ∀ x ∈ pend, isOperator x = true ∧ getPrecedence c ≤ getPrecedence x)
    (hs : ∀ top ∈ stk.head?, getPrecedence top < getPrecedence c) :
    popWhileHigher c (pend ++ stk) out = (stk, out ++ Spec.spaced pend) := by
  induction pend generalizing out with
  | nil =>
    cases stk with
    | nil => simp [popWhileHigher, Spec.spaced]
    | cons top rest =>
      have ht : ¬ getPrecedence top ≥ getPrecedence c := by
        have := hs top (by simp)
        omega
      simp [popWhileHigher, Spec.spaced, ht]
  | cons x xs ih =>
    obtain ⟨hx1, hx2⟩ := hp x (List.mem_cons_self _ _)
    have hx : x ≠ '(' := isOperator_ne_open hx1
    rw [List.cons_append, popWhileHigher, if_pos ⟨hx, hx2⟩,
      ih _ (fun y hy => hp y (List.mem_cons_of_mem _ hy))]
    simp [Spec.spaced]

lemma popRemaining_pending (pend out : List Char) (hp : ∀ c ∈ pend, isOperator c = true) :
    popRemaining pend out = out ++ Spec.spaced pend := by
  induction pend generalizing out with
  | nil => simp [popRemaining, Spec.spaced]
  | cons c cs ih =>
    have hc : c ≠ '(' := isOperator_ne_open (hp c (List.mem_cons_self _ _))
    rw [popRemaining, if_pos hc, ih _ (fun x hx => hp x (List.mem_cons_of_mem _ hx))]
    simp [Spec.spaced]

/-! ## Correctness of the conversion -/

lemma product_operator {op : Char} (h : op = '*' ∨ op = '/') :
    isOperator op = true ∧ getPrecedence op = 2 := by
  rcases h with rfl | rfl <;> exact ⟨by decide, by decide⟩

lemma sum_operator {op : Char} (h : op = '+' ∨ op = '-') :
    isOperator op = true ∧ getPrecedence op = 1 := by
  rcases h with rfl | rfl <;> exact ⟨by decide, by decide⟩

/-- Invariant of the main loop over a well-formed piece of input of level
`lvl`, started with a stack whose top has precedence at most `lvl`: the stack
grows by pending operators of precedence above `lvl`, and the output followed
by the pending operators is the old output followed by the post-order of the
parse tree. -/
lemma foldl_step_parses {lvl : Nat} {s : List Char} {t : Spec.Expr}
    (h : Spec.Parses lvl s t) :
    ∀ stk out : List Char, (∀ top ∈ stk.head?, getPrecedence top ≤ lvl) →
      ∃ pend out1, (∀ c ∈ pend, isOperator c = true ∧ lvl + 1 ≤ getPrecedence c) ∧
        s.foldl step (stk, out) = (pend ++ stk, out1) ∧
        out1 ++ Spec.spaced pend = out ++ Spec.spaced (Spec.postOrderChars t) := by
  induction h with
  | operand c hc =>
    intro stk out _
    refine ⟨[], out ++ [c, ' '], by simp, ?_, by simp [Spec.spaced, Spec.postOrderChars]⟩
    simp [step_operand _ hc]
  | paren s t _ ih =>
    intro stk out _
    obtain ⟨pend, out1, hp, hrun, hout⟩ := ih ('(' :: stk) out (by
      intro top htop
      simp only [List.head?_cons, Option.mem_def, Option.some.injEq] at htop
      subst htop; decide)
    refine ⟨[], out1 ++ Spec.spaced pend, by simp, ?_, by simpa [Spec.spaced] using hout⟩
    rw [List.cons_append, List.foldl_cons, List.foldl_append, step_open, hrun]
    simp only [List.foldl_cons, List.foldl_nil, step_close]
    rw [popToParen_pending pend stk out1 (fun c hc => (hp c hc).1)]
    simp
  | factor s t _ ih =>
    intro stk out hready
    obtain ⟨pend, out1, hp, hrun, hout⟩ := ih stk out (fun top htop => by
      have := hready top htop; omega)
    exact ⟨pend, out1, fun c hc => ⟨(hp c hc).1, by have := (hp c hc).2; omega⟩, hrun, hout⟩
  | product s1 s2 t1 t2 op hop _ _ ih1 ih2 =>
    intro stk out hready
    obtain ⟨ho1, ho2⟩ := product_operator hop
    obtain ⟨pend1, out1, hp1, hrun1, hout1⟩ := ih1 stk out hready
    obtain ⟨pend2, out2, hp2, hrun2, hout2⟩ := ih2 (op :: stk) (out1 ++ Spec.spaced pend1) (by
      intro top htop
      simp only [List.head?_cons, Option.mem_def, Option.some.injEq] at htop
      subst htop; omega)
    refine ⟨pend2 ++ [op], out2, ?_, ?_, ?_⟩
    · intro c hc
      rcases List.mem_append.mp hc with hc | hc
      · exact ⟨(hp2 c hc).1, by have := (hp2 c hc).2; omega⟩
      · simp only [List.mem_singleton] at hc
        subst hc; exact ⟨ho1, by omega⟩
    · rw [List.foldl_append, List.foldl_cons, hrun1, step_operator _ ho1]
      simp only
      rw [popWhileHigher_pending op pend1 stk out1
        (fun x hx => ⟨(hp1 x hx).1, by have := (hp1 x hx).2; omega⟩)
        (fun top htop => by have := hready top htop; omega)]
      simp only
      rw [hrun2]
      simp
    · rw [spaced_append, ← List.append_assoc, hout2, hout1]
      simp [Spec.postOrderChars, spaced_append, Spec.spaced]
  | term s t _ ih =>
    intro stk out hready
    obtain ⟨pend, out1, hp, hrun, hout⟩ := ih stk out (fun top htop => by
      have := hready top htop; omega)
    exact ⟨pend, out1, fun c hc => ⟨(hp c hc).1, by have := (hp c hc).2; omega⟩, hrun, hout⟩
  | sum s1 s2 t1 t2 op hop _ _ ih1 ih2 =>
    intro stk out hready
    obtain ⟨ho1, ho2⟩ := sum_operator hop
    obtain ⟨pend1, out1, hp1, hrun1, hout1⟩ := ih1 stk out hready
    obtain ⟨pend2, out2, hp2, hrun2, hout2⟩ := ih2 (op :: stk) (out1 ++ Spec.spaced pend1) (by
      intro top htop
      simp only [List.head?_cons, Option.mem_def, Option.some.injEq] at htop
      subst htop; omega)
    refine ⟨pend2 ++ [op], out2, ?_, ?_, ?_⟩
    · intro c hc
      rcases List.mem_append.mp hc with hc | hc
      · exact ⟨(hp2 c hc).1, by have := (hp2 c hc).2; omega⟩
      · simp only [List.mem_singleton] at hc
        subst hc; exact ⟨ho1, by omega⟩
    · rw [List.foldl_append, List.foldl_cons, hrun1, step_operator _ ho1]
      simp only
      rw [popWhileHigher_pending op pend1 stk out1
        (fun x hx => ⟨(hp1 x hx).1, by have := (hp1 x hx).2; omega⟩)
        (fun top htop => by have := hready top htop; omega)]
      simp only
      rw [hrun2]
      simp
    · rw [spaced_append, ← List.append_assoc, hout2, hout1]
      simp [Spec.postOrderChars, spaced_append, Spec.spaced]

/-- On a well-formed expression `infixToPostfix` returns the post-order of the
parse tree, each character followed by a blank. -/
lemma infixToPostfix_parses {s : String} {t : Spec.Expr} (h : Spec.Parses 0 s.data t) :
    infixToPostfix s = String.mk (Spec.spaced (Spec.postOrderChars t)) := by
  obtain ⟨pend, out1, hp, hrun, hout⟩ := foldl_step_parses h [] [] (by simp)
  simp only [infixToPostfix, hrun, List.append_nil]
  rw [popRemaining_pending pend out1 (fun c hc => (hp c hc).1), hout]
  simp


/-! ## Tokens of the postfix string -/

lemma spaced_head_space (cs : List Char) :
    ∀ c ∈ (' ' :: Spec.spaced cs).head?, isspace c = true :=
  Optimizer.head?_space _

lemma readTokens_spaced (cs : List Char) (hcs : ∀ c ∈ cs, isspace c = false) :
    ∀ (ws : List Char) (n : Nat), (∀ c ∈ ws, isspace c = true) → cs.length < n →
      readTokens n { buf := ws ++ Spec.spaced cs, eof := false, fail := false } =
        cs.map String.singleton := by
  induction cs with
  | nil =>
    intro ws n hws hn
    obtain ⟨m, rfl⟩ : ∃ m, n = m + 1 := ⟨n - 1, by simp at hn; omega⟩
    have hd : (ws ++ []).dropWhile isspace = [] :=
      Optimizer.dropWhile_isspace_append ws [] hws (by simp)
    simp only [Spec.spaced, List.map_nil, readTokens, Optimizer.extract, Bool.or_self,
      Bool.false_eq_true, if_false, hd, if_true]
  | cons c cs ih =>
    intro ws n hws hn
    obtain ⟨m, rfl⟩ : ∃ m, n = m + 1 := ⟨n - 1, by simp at hn; omega⟩
    have hc : isspace c = false := hcs c (List.mem_cons_self _ _)
    have he := Optimizer.extract_token ws [c] (' ' :: Spec.spaced cs) "" hws (by simp)
      (by intro x hx; simp only [List.mem_singleton] at hx; subst hx; exact hc)
      (spaced_head_space cs)
    have hb : ws ++ Spec.spaced (c :: cs) = ws ++ ([c] ++ ' ' :: Spec.spaced cs) := by
      simp [Spec.spaced]
    rw [readTokens, hb, he]
    simp only [Bool.false_eq_true, if_false, List.map_cons, List.cons_ne_nil, decide_False]
    have hih := ih (fun x hx => hcs x (List.mem_cons_of_mem _ hx)) [' '] m
      Optimizer.mem_singleton_space (by simp at hn; omega)
    rw [show ' ' :: Spec.spaced cs = [' '] ++ Spec.spaced cs from rfl, hih]
    rfl

lemma length_spaced (cs : List Char) : (Spec.spaced cs).length = 2 * cs.length := by
  induction cs with
  | nil => rfl
  | cons c cs ih => simp [Spec.spaced, ih]; omega

/-- Instructions generated from the spaced post-order characters. -/
lemma generateFromPostfix_spaced (cs : List Char) (hcs : ∀ c ∈ cs, isspace c = false) :
    generateFromPostfix [] (String.mk (Spec.spaced cs)) =
      cs.map (fun c => instructionFor (String.singleton c)) := by
  have h := readTokens_spaced cs hcs [] ((String.mk (Spec.spaced cs)).length + 1) (by simp)
    (by
      show cs.length < (Spec.spaced cs).length + 1
      rw [length_spaced]; omega)
  simp only [generateFromPostfix, List.nil_append] at h ⊢
  rw [h, List.map_map]
  rfl

lemma instructionFor_singleton (c : Char) :
    instructionFor (String.singleton c) =
      if isOperator c then getOperatorInstruction c else "PUSH " ++ String.singleton c := rfl

/-- The characters of the post-order of a parse tree are not white space and
map to the instructions of the post-order. -/
lemma postOrder_of_parses {lvl : Nat} {s : List Char} {t : Spec.Expr}
    (h : Spec.Parses lvl s t) :
    (∀ c ∈ Spec.postOrderChars t, isspace c = false) ∧
      (Spec.postOrderChars t).map (fun c => instructionFor (String.singleton c)) =
        Spec.postOrder t := by
  induction h with
  | operand c hc =>
    refine ⟨?_, ?_⟩
    · intro x hx
      simp only [Spec.postOrderChars, List.mem_singleton] at hx
      subst hx; exact isalnum_not_isspace hc
    · simp [Spec.postOrderChars, Spec.postOrder, instructionFor_singleton,
        isalnum_not_isOperator hc]
  | paren s t _ ih => exact ih
  | factor s t _ ih => exact ih
  | term s t _ ih => exact ih
  | product s1 s2 t1 t2 op hop _ _ ih1 ih2 =>
    obtain ⟨ho1, -⟩ := product_operator hop
    refine ⟨?_, ?_⟩
    · intro x hx
      simp only [Spec.postOrderChars, List.mem_append, List.mem_singleton] at hx
      rcases hx with (hx | hx) | hx
      · exact ih1.1 x hx
      · exact ih2.1 x hx
      · subst hx; exact isOperator_not_isspace ho1
    · show (Spec.postOrderChars t1 ++ Spec.postOrderChars t2 ++ [op]).map _ =
        Spec.postOrder t1 ++ Spec.postOrder t2 ++ [Spec.mnemonic op]
      rw [List.map_append, List.map_append, ih1.2, ih2.2]
      congr 1
      rcases hop with rfl | rfl <;> rfl
  | sum s1 s2 t1 t2 op hop _ _ ih1 ih2 =>
    obtain ⟨ho1, -⟩ := sum_operator hop
    refine ⟨?_, ?_⟩
    · intro x hx
      simp only [Spec.postOrderChars, List.mem_append, List.mem_singleton] at hx
      rcases hx with (hx | hx) | hx
      · exact ih1.1 x hx
      · exact ih2.1 x hx
      · subst hx; exact isOperator_not_isspace ho1
    · show (Spec.postOrderChars t1 ++ Spec.postOrderChars t2 ++ [op]).map _ =
        Spec.postOrder t1 ++ Spec.postOrder t2 ++ [Spec.mnemonic op]
      rw [List.map_append, List.map_append, ih1.2, ih2.2]
      congr 1
      rcases hop with rfl | rfl <;> rfl

/-- White space in the input is skipped. -/
lemma foldl_step_filter (l : List Char) (st : List Char × List Char) :
    l.foldl step st = (l.filter (fun c => !isspace c)).foldl step st := by
  induction l generalizing st with
  | nil => rfl
  | cons c cs ih =>
    cases hc : isspace c
    · simp [List.filter_cons, hc, ih]
    · simp [List.filter_cons, hc, ih, step_space _ hc]

/-- C20. The code generator emits the post-order of the expression. For
every input whose characters other than white space form a well-formed infix
expression (single alphanumeric operands, `+ - * /`, balanced parentheses)
with parse tree `t` under the usual precedence and left associativity,
`generate` produces exactly the post-order traversal of `t`, `PUSH c` for an
operand `c` and ADD, SUB, MUL, DIV for the operators; and `(a+b)*c` gives
PUSH a, PUSH b, ADD, PUSH c, MUL. -/
theorem C20_generate_postorder :
    (∀ (s : String) (t : Spec.Expr),
      Spec.Parses 0 (s.data.filter (fun c => !Optimizer.isspace c)) t →
      generate s = Spec.postOrder t) ∧
    generate "(a+b)*c" = ["PUSH a", "PUSH b", "ADD", "PUSH c", "MUL"] := by
  refine ⟨?_, by decide⟩
  intro s t h
  have hfilter : infixToPostfix s =
      infixToPostfix (String.mk (s.data.filter (fun c => !Optimizer.isspace c))) := by
    simp only [infixToPostfix]
    rw [foldl_step_filter]
  have hpost := @infixToPostfix_parses (String.mk (s.data.filter
    (fun c => !Optimizer.isspace c))) t h
  obtain ⟨hns, hmap⟩ := postOrder_of_parses h
  rw [generate, hfilter, hpost, generateFromPostfix_spaced _ hns, hmap]

/-- Witness for C20 at the input `x - (y / 2)` with blanks, read as the tree
of `x - (y / 2)`. -/
theorem C20_generate_postorder_witness :
    generate "x - (y / 2) " =
      Spec.postOrder (Spec.Expr.binary '-' (Spec.Expr.operand 'x')
        (Spec.Expr.binary '/' (Spec.Expr.operand 'y') (Spec.Expr.operand '2'))) ∧
    Spec.postOrder (Spec.Expr.binary '-' (Spec.Expr.operand 'x')
        (Spec.Expr.binary '/' (Spec.Expr.operand 'y') (Spec.Expr.operand '2'))) =
      ["PUSH x", "PUSH y", "PUSH 2", "DIV", "SUB"] :=
  ⟨C20_generate_postorder.1 "x - (y / 2) " _
    (Spec.Parses.sum ['x'] ('(' :: (['y'] ++ '/' :: ['2']) ++ [')']) _ _ '-' (Or.inr rfl)
      (Spec.Parses.term _ _ (Spec.Parses.factor _ _ (Spec.Parses.operand 'x' (by decide))))
      (Spec.Parses.factor _ _ (Spec.Parses.paren _ _
        (Spec.Parses.term _ _ (Spec.Parses.product ['y'] ['2'] _ _ '/' (Or.inr rfl)
          (Spec.Parses.factor _ _ (Spec.Parses.operand 'y' (by decide)))
          (Spec.Parses.operand '2' (by decide))))))),
   by decide⟩


/-! ## The bound on the number of extractions is never reached -/

lemma length_dropWhile_le' (p : Char → Bool) (l : List Char) :
    (l.dropWhile p).length ≤ l.length := by
  induction l with
  | nil => simp
  | cons a l ih =>
    rw [List.dropWhile_cons]
    split_ifs
    · simp only [List.length_cons]; omega
    · exact le_refl _

/-- A successful extraction leaves fewer unread characters. -/
lemma extract_buf_lt {ss : IStream} {old : String} (h : (extract ss old).1.fail = false) :
    (extract ss old).1.buf.length < ss.buf.length := by
  unfold Optimizer.extract at h ⊢
  by_cases hg : (ss.eof || ss.fail) = true
  · rw [if_pos hg] at h; simp at h
  · rw [if_neg hg] at h ⊢
    by_cases hb : ss.buf.dropWhile isspace = []
    · simp only [hb, if_true] at h; simp at h
    · simp only [hb, if_false]
      obtain ⟨c, r, hcr⟩ := List.exists_cons_of_ne_nil hb
      have hc : isspace c = false :=
        Optimizer.head?_dropWhile_isspace ss.buf c (by rw [hcr]; simp)
      have h1 := length_dropWhile_le' isspace ss.buf
      have h2 := length_dropWhile_le' (fun c => !isspace c) r
      rw [hcr] at h1 ⊢
      rw [List.dropWhile_cons]
      simp only [hc, Bool.not_false, if_true]
      simp only [List.length_cons] at h1
      omega

/-- Any two bounds above the number of unread characters give the same
tokens: the loop `while (ss >> token)` ends by a failed extraction. -/
lemma readTokens_bound (n m : Nat) (ss : IStream) (hn : ss.buf.length < n)
    (hm : ss.buf.length < m) : readTokens n ss = readTokens m ss := by
  induction n generalizing m ss with
  | zero => omega
  | succ n ih =>
    obtain ⟨k, rfl⟩ : ∃ k, m = k + 1 := ⟨m - 1, by omega⟩
    rw [readTokens, readTokens]
    by_cases hf : (extract ss "").1.fail = true
    · rw [if_pos hf, if_pos hf]
    · rw [if_neg hf, if_neg hf]
      have hlt := @extract_buf_lt ss "" (by simpa using hf)
      rw [ih k _ (by omega) (by omega)]


/-! ## Three operands without parentheses -/

/-- C26. Precedence and associativity in three-operand expressions: for
alphanumeric characters a, b, c and operators p, q among `+ - * /`,
`infixToPostfix` of `a p b q c` is `a b c q p` when q binds strictly tighter
than p, and `a b p c q` otherwise, each token followed by one blank; q binds
strictly tighter than p exactly when q is `*` or `/` and p is `+` or `-`. -/
theorem C26_three_operands (a b c p q : Char)
    (ha : isalnum a = true) (hb : isalnum b = true) (hc : isalnum c = true)
    (hp : isOperator p = true) (hq : isOperator q = true) :
    infixToPostfix (String.mk [a, p, b, q, c]) =
      (if getPrecedence p < getPrecedence q
        then String.mk [a, ' ', b, ' ', c, ' ', q, ' ', p, ' ']
        else String.mk [a, ' ', b, ' ', p, ' ', c, ' ', q, ' ']) ∧
    (getPrecedence p < getPrecedence q ↔ ((q = '*' ∨ q = '/') ∧ (p = '+' ∨ p = '-'))) ∧
    infixToPostfix "a+b*c" = "a b c * + " ∧
    infixToPostfix "a*b+c" = "a b * c + " := by
  refine ⟨?_, ?_, by decide, by decide⟩
  · unfold infixToPostfix
    simp only [List.foldl]
    rw [step_operand _ ha, step_operator _ hp, step_operand _ hb, step_operator _ hq,
      step_operand _ hc]
    rcases isOperator_iff.mp hp with rfl | rfl | rfl | rfl <;>
      rcases isOperator_iff.mp hq with rfl | rfl | rfl | rfl <;>
      simp [popWhileHigher, popRemaining, getPrecedence]
  · rcases isOperator_iff.mp hp with rfl | rfl | rfl | rfl <;>
      rcases isOperator_iff.mp hq with rfl | rfl | rfl | rfl <;>
      simp [getPrecedence]

/-- Witness for C26 on `x-y/z`. -/
theorem C26_three_operands_witness :
    infixToPostfix "x-y/z" = "x y z / - " ∧ getPrecedence '-' < getPrecedence '/' :=
  ⟨(C26_three_operands 'x' 'y' 'z' '-' '/' (by decide) (by decide) (by decide)
      (by decide) (by decide)).1, by decide⟩


/-! ## Simulation of post-order code -/

lemma simulateStep_push (stk : List String) (c : Char) :
    simulateStep stk ("PUSH " ++ String.singleton c) = Except.ok (String.singleton c :: stk) :=
  rfl

lemma mnemonic_cases (op : Char) :
    Spec.mnemonic op = "ADD" ∨ Spec.mnemonic op = "SUB" ∨ Spec.mnemonic op = "MUL" ∨
      Spec.mnemonic op = "DIV" := by
  unfold Spec.mnemonic
  split_ifs <;> simp

lemma simulateStep_mnemonic (a b : String) (stk : List String) (op : Char) :
    simulateStep (b :: a :: stk) (Spec.mnemonic op) =
      Except.ok (("(" ++ a ++ Spec.mnemonic op ++ b ++ ")") :: stk) := by
  rcases mnemonic_cases op with h | h | h | h <;> rw [h] <;> rfl

lemma simulateLoop_append (stk stk1 : List String) (l1 l2 : List String)
    (h : simulateLoop stk l1 = Except.ok stk1) :
    simulateLoop stk (l1 ++ l2) = simulateLoop stk1 l2 := by
  induction l1 generalizing stk with
  | nil => unfold simulateLoop at h; cases h; rfl
  | cons i rest ih =>
    rw [List.cons_append, simulateLoop]
    rw [simulateLoop] at h
    cases hs : simulateStep stk i with
    | error e => rw [hs] at h; cases h
    | ok s1 =>
      rw [hs] at h
      simp only at h ⊢
      exact ih s1 h

/-- Running the post-order code of a tree pushes its symbolic string on
whatever stack it starts from. -/
lemma simulateLoop_postOrder (t : Spec.Expr) (stk : List String) :
    simulateLoop stk (Spec.postOrder t) = Except.ok (Spec.render t :: stk) := by
  induction t generalizing stk with
  | operand c =>
    simp only [Spec.postOrder, simulateLoop, simulateStep_push, Spec.render]
  | binary op l r ihl ihr =>
    simp only [Spec.postOrder]
    rw [List.append_assoc, simulateLoop_append _ _ _ _ (ihl stk),
      simulateLoop_append _ _ _ _ (ihr _)]
    simp only [simulateLoop, simulateStep_mnemonic, Spec.render]

lemma split_append {α : Type} {l1 l2 pre post : List α} {x : α}
    (h : l1 ++ l2 = pre ++ x :: post) :
    (∃ mid, l1 = pre ++ x :: mid) ∨ (∃ mid, pre = l1 ++ mid ∧ l2 = mid ++ x :: post) := by
  rcases List.append_eq_append_iff.mp h with ⟨mid, h1, h2⟩ | ⟨mid, h1, h2⟩
  · exact Or.inr ⟨mid, h1, h2⟩
  · cases mid with
    | nil =>
      right
      refine ⟨[], ?_, ?_⟩
      · simpa using h1.symm
      · simpa using h2.symm
    | cons y rest =>
      left
      simp only [List.cons_append, List.cons.injEq] at h2
      exact ⟨rest, by rw [h1, h2.1]⟩

lemma substrTo_mnemonic_ne (op : Char) : substrTo (Spec.mnemonic op) 4 ≠ "PUSH" := by
  rcases mnemonic_cases op with h | h | h | h <;> rw [h] <;> decide

/-- Before every instruction of the post-order code of a tree that is not a
PUSH, the stack holds at least two entries more than at the start. -/
lemma simulateLoop_no_underflow (t : Spec.Expr) (stk : List String)
    (pre post : List String) (instr : String)
    (h : Spec.postOrder t = pre ++ instr :: post) (hi : substrTo instr 4 ≠ "PUSH") :
    ∃ stk1, simulateLoop stk pre = Except.ok stk1 ∧ stk.length + 2 ≤ stk1.length := by
  induction t generalizing stk pre post with
  | operand c =>
    exfalso
    simp only [Spec.postOrder] at h
    cases pre with
    | nil =>
      simp only [List.nil_append, List.cons.injEq] at h
      apply hi
      rw [← h.1]
      rfl
    | cons y rest =>
      simp only [List.cons_append, List.cons.injEq] at h
      cases rest <;> simp at h
  | binary op l r ihl ihr =>
    simp only [Spec.postOrder] at h
    rw [List.append_assoc] at h
    rcases split_append h with ⟨mid, h1⟩ | ⟨mid, h1, h2⟩
    · exact ihl stk pre mid h1
    · subst h1
      rw [simulateLoop_append _ _ _ _ (simulateLoop_postOrder l stk)]
      rcases split_append h2 with ⟨mid2, h3⟩ | ⟨mid2, h3, h4⟩
      · obtain ⟨stk1, hs, hl⟩ := ihr (Spec.render l :: stk) mid mid2 h3
        exact ⟨stk1, hs, by simp only [List.length_cons] at hl; omega⟩
      · subst h3
        rw [simulateLoop_append _ _ _ _ (simulateLoop_postOrder r _)]
        cases mid2 with
        | nil => exact ⟨_, rfl, by simp⟩
        | cons y rest =>
          simp only [List.cons_append, List.cons.injEq] at h4
          cases rest <;> simp at h4

/-- C32. The stack simulation of generated code never underflows and ends
with one result. For every expression tree, the stack procedure of `simulate`
run on the post-order instruction list of the tree returns, finds at least
two entries on the stack before each instruction that is not a PUSH, and
finishes with exactly one stack entry, the symbolic string of the tree: the
operand for a leaf and `(` left MNEMONIC right `)` for a node. On the code
generated for `(a+b)*c` the final stack holds `((aADDb)MULc)`. -/
theorem C32_simulate_postorder (t : Spec.Expr) :
    simulate (Spec.postOrder t) = Except.ok [Spec.render t] ∧
    (∀ (pre post : List String) (instr : String),
      Spec.postOrder t = pre ++ instr :: post → substrTo instr 4 ≠ "PUSH" →
      ∃ stk, simulateLoop [] pre = Except.ok stk ∧ 2 ≤ stk.length) ∧
    (∀ stk : List String,
      simulateLoop stk (Spec.postOrder t) = Except.ok (Spec.render t :: stk)) ∧
    (∀ (c op : Char) (l r : Spec.Expr),
      Spec.render (Spec.Expr.operand c) = String.singleton c ∧
      Spec.render (Spec.Expr.binary op l r) =
        "(" ++ Spec.render l ++ Spec.mnemonic op ++ Spec.render r ++ ")" ∧
      (Spec.mnemonic op = "ADD" ∨ Spec.mnemonic op = "SUB" ∨ Spec.mnemonic op = "MUL" ∨
        Spec.mnemonic op = "DIV")) ∧
    simulate (generate "(a+b)*c") = Except.ok ["((aADDb)MULc)"] := by
  refine ⟨simulateLoop_postOrder t [], ?_, simulateLoop_postOrder t,
    fun c op l r => ⟨rfl, rfl, mnemonic_cases op⟩, ?_⟩
  · intro pre post instr h hi
    obtain ⟨stk, hs, hl⟩ := simulateLoop_no_underflow t [] pre post instr h hi
    exact ⟨stk, hs, by simpa using hl⟩
  · have hg : generate "(a+b)*c" = ["PUSH a", "PUSH b", "ADD", "PUSH c", "MUL"] := by decide
    rw [hg]
    rfl

/-- Witness for C32 on the tree of `a+b`: before ADD the stack holds the two
operands. -/
theorem C32_simulate_postorder_witness :
    Spec.postOrder (Spec.Expr.binary '+' (Spec.Expr.operand 'a') (Spec.Expr.operand 'b')) =
      ["PUSH a", "PUSH b"] ++ "ADD" :: [] ∧
    substrTo "ADD" 4 ≠ "PUSH" ∧
    ∃ stk, simulateLoop [] ["PUSH a", "PUSH b"] = Except.ok stk ∧ 2 ≤ stk.length :=
  ⟨by decide, by decide,
   (C32_simulate_postorder
      (Spec.Expr.binary '+' (Spec.Expr.operand 'a') (Spec.Expr.operand 'b'))).2.1
     ["PUSH a", "PUSH b"] [] "ADD" (by decide) (by decide)⟩


/-! ## The conversion on arbitrary input -/

lemma isspace_not_isalnum {c : Char} (h : isspace c = true) : isalnum c = false := by
  cases ha : isalnum c
  · rfl
  · rw [isalnum_not_isspace ha] at h; cases h

lemma isspace_not_isOperator {c : Char} (h : isspace c = true) : isOperator c = false := by
  cases ha : isOperator c
  · rfl
  · rw [isOperator_not_isspace ha] at h; cases h

lemma spaced_snoc (o : List Char) (c : Char) :
    Spec.spaced (o ++ [c]) = Spec.spaced o ++ [c, ' '] := by
  rw [spaced_append]; rfl

/-- The final loop appends the stack without its opening parentheses. -/
lemma popRemaining_spaced (stk o : List Char) :
    popRemaining stk (Spec.spaced o) =
      Spec.spaced (o ++ stk.filter (fun c => decide (c ≠ '('))) := by
  induction stk generalizing o with
  | nil => simp [popRemaining]
  | cons top rest ih =>
    rw [popRemaining]
    by_cases ht : top ≠ '('
    · rw [if_pos ht, ← spaced_snoc, ih, List.filter_cons, if_pos (by simpa using ht)]
      simp
    · rw [if_neg ht, ih, List.filter_cons, if_neg (by simpa using ht)]

/-- The loop at a closing parenthesis moves a segment without parentheses to
the output and stops at an opening parenthesis or at the bottom. -/
lemma popToParen_spaced (stk o : List Char) :
    ∃ popped rest, stk = popped ++ rest ∧ (∀ c ∈ popped, c ≠ '(') ∧
      (∀ top ∈ rest.head?, top = '(') ∧
      popToParen stk (Spec.spaced o) = (rest, Spec.spaced (o ++ popped)) := by
  induction stk generalizing o with
  | nil => exact ⟨[], [], rfl, by simp, by simp, by simp [popToParen]⟩
  | cons top tl ih =>
    by_cases ht : top ≠ '('
    · obtain ⟨popped, rest, h1, h2, h3, h4⟩ := ih (o ++ [top])
      refine ⟨top :: popped, rest, by rw [h1]; rfl, ?_, h3, ?_⟩
      · intro c hc
        rcases List.mem_cons.mp hc with rfl | hc
        · exact ht
        · exact h2 c hc
      · rw [popToParen, if_pos ht, ← spaced_snoc, h4]
        simp
    · refine ⟨[], top :: tl, rfl, by simp, ?_, ?_⟩
      · intro x hx
        simp only [List.head?_cons, Option.mem_def, Option.some.injEq] at hx
        subst hx
        simpa using ht
      · rw [popToParen, if_neg ht]
        simp

/-- The loop at an operator moves a segment without parentheses to the
output. -/
lemma popWhileHigher_spaced (c : Char) (stk o : List Char) :
    ∃ popped rest, stk = popped ++ rest ∧ (∀ x ∈ popped, x ≠ '(') ∧
      popWhileHigher c stk (Spec.spaced o) = (rest, Spec.spaced (o ++ popped)) := by
  induction stk generalizing o with
  | nil => exact ⟨[], [], rfl, by simp, by simp [popWhileHigher]⟩
  | cons top tl ih =>
    by_cases ht : top ≠ '(' ∧ getPrecedence top ≥ getPrecedence c
    · obtain ⟨popped, rest, h1, h2, h4⟩ := ih (o ++ [top])
      refine ⟨top :: popped, rest, by rw [h1]; rfl, ?_, ?_⟩
      · intro x hx
        rcases List.mem_cons.mp hx with rfl | hx
        · exact ht.1
        · exact h2 x hx
      · rw [popWhileHigher, if_pos ht, ← spaced_snoc, h4]
        simp
    · refine ⟨[], top :: tl, rfl, by simp, ?_⟩
      rw [popWhileHigher, if_neg ht]
      simp

lemma filter_isOperator_of_ne_open {l : List Char}
    (hs : ∀ c ∈ l, c = '(' ∨ isOperator c = true) (hl : ∀ c ∈ l, c ≠ '(') :
    l.filter isOperator = l ∧ l.filter isalnum = [] := by
  constructor
  · rw [List.filter_eq_self]
    intro c hc
    exact (hs c hc).resolve_left (hl c hc)
  · rw [List.filter_eq_nil_iff]
    intro c hc
    rw [isOperator_not_isalnum ((hs c hc).resolve_left (hl c hc))]
    decide


lemma step_other (st : List Char × List Char) {c : Char} (h1 : isalnum c = false)
    (h2 : c ≠ '(') (h3 : c ≠ ')') (h4 : isOperator c = false) : step st c = st := by
  unfold step
  split_ifs <;> simp_all

lemma filter_operator_eq_not_open {stk : List Char}
    (hs : ∀ c ∈ stk, c = '(' ∨ isOperator c = true) :
    stk.filter (fun c => decide (c ≠ '(')) = stk.filter isOperator := by
  apply List.filter_congr
  intro c hc
  rcases hs c hc with rfl | h
  · decide
  · rw [h]
    simpa using isOperator_ne_open h

/-- Invariant of `infixToPostfix` on arbitrary input. From a stack of opening
parentheses and operators and an output of operands and operators each
followed by a blank, the result is again such an output; its operands are
those of the old output followed by the alphanumeric characters of the
input, in order, and its operators are as many as those of the old output,
of the stack and of the input together. -/
lemma foldl_step_spaced (l : List Char) :
    ∀ stk o : List Char, (∀ c ∈ stk, c = '(' ∨ isOperator c = true) →
      (∀ c ∈ o, isalnum c = true ∨ isOperator c = true) →
      ∃ o1, popRemaining (l.foldl step (stk, Spec.spaced o)).1
              (l.foldl step (stk, Spec.spaced o)).2 = Spec.spaced o1 ∧
        (∀ c ∈ o1, isalnum c = true ∨ isOperator c = true) ∧
        o1.filter isalnum = o.filter isalnum ++ l.filter isalnum ∧
        (o1.filter isOperator).length =
          (o.filter isOperator).length + (stk.filter isOperator).length +
            (l.filter isOperator).length := by
  induction l with
  | nil =>
    intro stk o hS hO
    have hmem : ∀ c ∈ stk.filter (fun c => decide (c ≠ '(')),
        (c = '(' ∨ isOperator c = true) ∧ c ≠ '(' := by
      intro c hc
      rw [List.mem_filter] at hc
      exact ⟨hS c hc.1, by simpa using hc.2⟩
    obtain ⟨f1, f2⟩ := filter_isOperator_of_ne_open (fun c hc => (hmem c hc).1)
      (fun c hc => (hmem c hc).2)
    refine ⟨o ++ stk.filter (fun c => decide (c ≠ '(')), popRemaining_spaced stk o, ?_, ?_, ?_⟩
    · intro c hc
      rcases List.mem_append.mp hc with hc | hc
      · exact hO c hc
      · exact Or.inr ((hmem c hc).1.resolve_left (hmem c hc).2)
    · rw [List.filter_append, f2]
      simp
    · rw [List.filter_append, f1, List.length_append, filter_operator_eq_not_open hS]
      simp
  | cons c l ih =>
    intro stk o hS hO
    rw [List.foldl_cons]
    by_cases hsp : isspace c = true
    · rw [step_space _ hsp]
      obtain ⟨o1, h1, h2, h3, h4⟩ := ih stk o hS hO
      refine ⟨o1, h1, h2, ?_, ?_⟩
      · rw [h3, List.filter_cons, isspace_not_isalnum hsp]
        simp
      · rw [h4, List.filter_cons, isspace_not_isOperator hsp]
        simp
    · by_cases hal : isalnum c = true
      · have hno := isalnum_not_isOperator hal
        rw [step_operand _ hal]
        simp only
        rw [← spaced_snoc]
        obtain ⟨o1, h1, h2, h3, h4⟩ := ih stk (o ++ [c]) hS (by
          intro x hx
          rcases List.mem_append.mp hx with hx | hx
          · exact hO x hx
          · simp only [List.mem_singleton] at hx
            subst hx; exact Or.inl hal)
        refine ⟨o1, h1, h2, ?_, ?_⟩
        · rw [h3, List.filter_append, List.filter_cons, List.filter_cons, hal]
          simp
        · rw [h4, List.filter_append, List.filter_cons, List.filter_cons, hno]
          simp
      · have hal2 : isalnum c = false := by simpa using hal
        by_cases hopen : c = '('
        · subst hopen
          rw [step_open]
          simp only
          obtain ⟨o1, h1, h2, h3, h4⟩ := ih ('(' :: stk) o (by
            intro x hx
            rcases List.mem_cons.mp hx with rfl | hx
            · exact Or.inl rfl
            · exact hS x hx) hO
          refine ⟨o1, h1, h2, ?_, ?_⟩
          · rw [h3, List.filter_cons, hal2]
            simp
          · rw [h4, List.filter_cons, List.filter_cons]
            have : isOperator '(' = false := by decide
            simp [this]
        · by_cases hclose : c = ')'
          · subst hclose
            rw [step_close]
            simp only
            obtain ⟨popped, rest, e1, e2, e3, e4⟩ := popToParen_spaced stk o
            rw [e4]
            simp only
            have hSp : ∀ x ∈ popped, x = '(' ∨ isOperator x = true := fun x hx =>
              hS x (by rw [e1]; exact List.mem_append_left _ hx)
            have hSr : ∀ x ∈ rest, x = '(' ∨ isOperator x = true := fun x hx =>
              hS x (by rw [e1]; exact List.mem_append_right _ hx)
            obtain ⟨f1, f2⟩ := filter_isOperator_of_ne_open hSp e2
            have htail : rest.tail.filter isOperator = rest.filter isOperator := by
              cases rest with
              | nil => rfl
              | cons top tl =>
                have ht : top = '(' := e3 top (by simp)
                subst ht
                rw [List.tail_cons, List.filter_cons]
                have : isOperator '(' = false := by decide
                simp [this]
            obtain ⟨o1, h1, h2, h3, h4⟩ := ih rest.tail (o ++ popped)
              (fun x hx => hSr x (List.mem_of_mem_tail hx)) (by
                intro x hx
                rcases List.mem_append.mp hx with hx | hx
                · exact hO x hx
                · exact Or.inr ((hSp x hx).resolve_left (e2 x hx)))
            refine ⟨o1, h1, h2, ?_, ?_⟩
            · rw [h3, List.filter_append, f2, List.filter_cons, hal2]
              simp
            · rw [h4, htail, List.filter_append, f1, e1, List.filter_append, f1,
                List.filter_cons]
              have : isOperator ')' = false := by decide
              simp only [this, List.length_append]
              simp only [Bool.false_eq_true, if_false]
              omega
          · by_cases hop : isOperator c = true
            · rw [step_operator _ hop]
              simp only
              obtain ⟨popped, rest, e1, e2, e4⟩ := popWhileHigher_spaced c stk o
              rw [e4]
              simp only
              have hSp : ∀ x ∈ popped, x = '(' ∨ isOperator x = true := fun x hx =>
                hS x (by rw [e1]; exact List.mem_append_left _ hx)
              have hSr : ∀ x ∈ rest, x = '(' ∨ isOperator x = true := fun x hx =>
                hS x (by rw [e1]; exact List.mem_append_right _ hx)
              obtain ⟨f1, f2⟩ := filter_isOperator_of_ne_open hSp e2
              obtain ⟨o1, h1, h2, h3, h4⟩ := ih (c :: rest) (o ++ popped)
                (by
                  intro x hx
                  rcases List.mem_cons.mp hx with rfl | hx
                  · exact Or.inr hop
                  · exact hSr x hx)
                (by
                  intro x hx
                  rcases List.mem_append.mp hx with hx | hx
                  · exact hO x hx
                  · exact Or.inr ((hSp x hx).resolve_left (e2 x hx)))
              refine ⟨o1, h1, h2, ?_, ?_⟩
              · rw [h3, List.filter_append, f2, List.filter_cons, hal2]
                simp
              · rw [h4, List.filter_append, f1, e1, List.filter_append, f1,
                  List.filter_cons, List.filter_cons, hop]
                simp only [if_true, List.length_append, List.length_cons]
                omega
            · have hop2 : isOperator c = false := by simpa using hop
              rw [step_other _ hal2 hopen hclose hop2]
              obtain ⟨o1, h1, h2, h3, h4⟩ := ih stk o hS hO
              refine ⟨o1, h1, h2, ?_, ?_⟩
              · rw [h3, List.filter_cons, hal2]
                simp
              · rw [h4, List.filter_cons, hop2]
                simp


lemma length_filter_operands_operators (o : List Char)
    (hO : ∀ c ∈ o, isalnum c = true ∨ isOperator c = true) :
    o.length = (o.filter isalnum).length + (o.filter isOperator).length := by
  induction o with
  | nil => rfl
  | cons c cs ih =>
    have ih2 := ih (fun x hx => hO x (List.mem_cons_of_mem _ hx))
    rcases hO c (List.mem_cons_self _ _) with h | h
    · rw [List.filter_cons, List.filter_cons, h, isalnum_not_isOperator h]
      simp only [if_true, Bool.false_eq_true, if_false, List.length_cons]
      omega
    · rw [List.filter_cons, List.filter_cons, h, isOperator_not_isalnum h]
      simp only [if_true, Bool.false_eq_true, if_false, List.length_cons]
      omega

lemma substrTo_push (c : Char) : substrTo ("PUSH " ++ String.singleton c) 4 = "PUSH" := rfl

lemma substrTo_operatorInstruction {c : Char} (h : isOperator c = true) :
    substrTo (getOperatorInstruction c) 4 ≠ "PUSH" := by
  rcases isOperator_iff.mp h with rfl | rfl | rfl | rfl <;> decide

/-- Among the instructions for operands and operators, the PUSH instructions
are those of the operands, in order. -/
lemma filter_push_instructions (o : List Char)
    (hO : ∀ c ∈ o, isalnum c = true ∨ isOperator c = true) :
    (o.map (fun c => instructionFor (String.singleton c))).filter
        (fun i => decide (substrTo i 4 = "PUSH")) =
      (o.filter isalnum).map (fun c => "PUSH " ++ String.singleton c) := by
  induction o with
  | nil => rfl
  | cons c cs ih =>
    have ih2 := ih (fun x hx => hO x (List.mem_cons_of_mem _ hx))
    rw [List.map_cons, List.filter_cons, List.filter_cons, instructionFor_singleton]
    rcases hO c (List.mem_cons_self _ _) with h | h
    · rw [h, isalnum_not_isOperator h]
      simp only [Bool.false_eq_true, if_false, if_true, substrTo_push, decide_True,
        List.map_cons, ih2]
    · rw [isOperator_not_isalnum h, h]
      simp only [if_true, Bool.false_eq_true, if_false]
      rw [if_neg (by simpa using substrTo_operatorInstruction h), ih2]

/-- C31. No operand or operator is lost or duplicated by code generation. For
every input string, well-formed or not, the number of instructions produced
by `generate` is the number of alphanumeric characters of the input plus the
number of its characters among `+ - * /`; the PUSH instructions, those whose
first four characters are `PUSH`, carry the alphanumeric characters of the
input in their order, one character each; the other instructions are as many
as the operator characters. The ill-formed inputs `a+` and `)a(b*` are
instances. -/
theorem C31_generate_counts (s : String) :
    (generate s).length =
      (s.data.filter isalnum).length + (s.data.filter isOperator).length ∧
    (generate s).filter (fun i => decide (substrTo i 4 = "PUSH")) =
      (s.data.filter isalnum).map (fun c => "PUSH " ++ String.singleton c) ∧
    ((generate s).filter (fun i => !decide (substrTo i 4 = "PUSH"))).length =
      (s.data.filter isOperator).length ∧
    generate "a+" = ["PUSH a", "ADD"] ∧
    generate ")a(b*" = ["PUSH a", "PUSH b", "MUL"] := by
  obtain ⟨o1, h1, h2, h3, h4⟩ := foldl_step_spaced s.data [] [] (by simp) (by simp)
  have hns : ∀ c ∈ o1, isspace c = false := by
    intro c hc
    rcases h2 c hc with h | h
    · exact isalnum_not_isspace h
    · exact isOperator_not_isspace h
  have hgen : generate s = o1.map (fun c => instructionFor (String.singleton c)) := by
    rw [generate, ← generateFromPostfix_spaced o1 hns, ← h1]
    rfl
  have hlen := length_filter_operands_operators o1 h2
  have hpush := filter_push_instructions o1 h2
  simp only [List.filter_nil, List.nil_append, List.length_nil, Nat.zero_add] at h3 h4
  refine ⟨?_, ?_, ?_, by decide, by decide⟩
  · rw [hgen, List.length_map, hlen, h3, h4]
  · rw [hgen, hpush, h3]
  · have htot : ((generate s).filter (fun i => decide (substrTo i 4 = "PUSH"))).length +
        ((generate s).filter (fun i => !decide (substrTo i 4 = "PUSH"))).length =
          (generate s).length := by
      induction generate s with
      | nil => rfl
      | cons i rest ih =>
        rw [List.filter_cons, List.filter_cons]
        by_cases hp : substrTo i 4 = "PUSH"
        · simp only [hp, decide_True, if_true, Bool.not_true, Bool.false_eq_true, if_false,
            List.length_cons]
          omega
        · simp only [hp, decide_False, Bool.false_eq_true, if_false, Bool.not_false, if_true,
            List.length_cons]
          omega
    have hp2 : ((generate s).filter (fun i => decide (substrTo i 4 = "PUSH"))).length =
        (s.data.filter isalnum).length := by
      rw [hgen, hpush, List.length_map, h3]
    have hl2 : (generate s).length =
        (s.data.filter isalnum).length + (s.data.filter isOperator).length := by
      rw [hgen, List.length_map, hlen, h3, h4]
    omega

end CodeGen
